import Mathlib

/-!
Verification of the flow-layout / pagination engine and of the grouping
pipeline of the `project-allocation-map` repository.

The Python sources are shallowly embedded as executable Lean functions:

* `src/processor.py` — the hierarchy model (`Member`, `Project`, `Client`,
  `Partner`, `Division`), the derived counts and row heights, and the
  `process` grouping pipeline.
* `src/writer.py` — the `FlowLayout` engine (`can_fit`, `next_column`,
  `ensure_fit`, `write_partner_clients`), the per-segment bookkeeping and
  the border resolver (`_is_member_pair`, `_resolve_h_border`,
  `_apply_partner_borders`).

The mutable worksheet is modelled as an explicit log of cell writes
(`CellWrite`), ordered as the program performs them; every write also
records the cursor's page / visual-column / page-content-start at the
moment of the write, and the identity (partner index, client index) of the
block being rendered, so that the layout invariants can be stated about
the log.  Closed segments are recorded verbatim (the Python code hands
them to `_apply_partner_borders` at `_end_segment` time); the border of a
cell of a closed segment is computed by the pure function `segCellBorder`,
a direct transcription of the body of `_apply_partner_borders`.
-/

namespace PAM

/-! ### Data model (src/processor.py) -/

structure Member where
  name : String
  dept : String
  grade : String
  is_bp : Bool
deriving DecidableEq, Repr

structure Project where
  name : String
  members : List Member
deriving DecidableEq, Repr

def Project.count (p : Project) : Nat := p.members.length

/-- `Project.row_height`: 案件名行 + メンバー行数 (`1 + self.count`). -/
def Project.row_height (p : Project) : Int := 1 + (p.count : Int)

structure Client where
  name : String
  projects : List Project
deriving DecidableEq, Repr

def Client.count (c : Client) : Nat := (c.projects.map Project.count).sum

/-- `Client.row_height`: 顧客名行 + 空行 + 案件ブロック群 (`1 + 1 + project_rows`). -/
def Client.row_height (c : Client) : Int :=
  1 + 1 + (c.projects.map Project.row_height).sum

structure Partner where
  display_name : String
  clients : List Client
deriving DecidableEq, Repr

def Partner.count (p : Partner) : Nat := (p.clients.map Client.count).sum

/-- `Partner.row_height`: 取引先名行 + 空行 + 顧客ブロック群 (`1 + 1 + client_rows`). -/
def Partner.row_height (p : Partner) : Int :=
  1 + 1 + (p.clients.map Client.row_height).sum

structure Division where
  key : String
  partners : List Partner
deriving DecidableEq, Repr

def Division.count (d : Division) : Nat := (d.partners.map Partner.count).sum

/-! ### Layout constants (src/writer.py) -/

def LEFT_MARGIN : Int := 1
def EXCEL_COLS_PER_VISUAL : Int := 7
def GAP_COLS : Int := 1
def STRIDE : Int := EXCEL_COLS_PER_VISUAL + GAP_COLS
def COL_PARTNER : Int := 0
def COL_CLIENT : Int := 1
def COL_PROJECT : Int := 2
def COL_NAME : Int := 3
def COL_DEPT : Int := 4
def COL_EMPTY : Int := 5
def COL_GRADE : Int := 6
def HEADER_ROWS : Int := 2
def CONTENT_START_ROW : Int := HEADER_ROWS + 1
def PARTNER_GAP_ROWS : Int := 1
def PARTNER_HEADER_ROWS : Int := 2

def countSuffix : String := "名"
def salesLabel : String := "営業:"

/-! ### Worksheet write log -/

inductive CellTag where
  | partnerName
  | divisionInfo
  | partnerCount
  | clientName
  | clientCount
  | projectName
  | projectCount
  | memberName
  | memberDept
  | memberGrade
deriving DecidableEq, Repr

/-- One `ws.cell(row=…, column=…, value=…)` call, together with the cursor
bookkeeping at the moment of the write (`page`, `vcol`, `pageStart`) and
the identity of the block being rendered (`partnerIdx` counts the
processed partners; `clientIdx` is the position of the client inside its
partner, `none` for the partner-header cells). -/
structure CellWrite where
  row : Int
  col : Int
  value : String
  tag : CellTag
  page : Nat
  vcol : Nat
  pageStart : Int
  partnerIdx : Nat
  clientIdx : Option Nat
deriving DecidableEq, Repr

/-! ### Segment bookkeeping (the `seg` dict of `write_partner_clients`) -/

structure ProjPlacement where
  projRow : Int
  firstMemberRow : Int
  lastMemberRow : Int
  count : Nat
deriving DecidableEq, Repr

/-- The `seg` dict.  `border_starts` is the dict `row ↦ start column
offset`; it is represented as an association list where the most recent
insertion is at the head, so lookup takes the head-most entry (Python dict
assignment overwrites).  `page`, `vcol`, `partnerIdx` and `placements` are
bookkeeping added for the verification: they record in which column the
segment lives, which partner it belongs to, and at which rows each project
and its members were placed. -/
structure Seg where
  start_row : Int
  col_base : Int
  partner_row : Int
  member_ranges : List (Int × Int)
  border_starts : List (Int × Int)
  merged_rows : List Int
  client_vline_ranges : List (Int × Int)
  project_vline_ranges : List (Int × Int)
  first_client : Bool
  page : Nat
  vcol : Nat
  partnerIdx : Nat
  placements : List ProjPlacement
deriving DecidableEq, Repr

/-- A segment closed by `_end_segment`, together with its last row. -/
structure ClosedSeg where
  seg : Seg
  end_row : Int
deriving DecidableEq, Repr

/-! ### Flow layout state (the `FlowLayout` object) -/

structure LayoutCfg where
  cols_per_page : Nat
  max_rows : Int
deriving DecidableEq, Repr

structure FlowState where
  visual_col : Nat
  page : Nat
  row : Int
  page_start_row : Int
  page_max_row : Int
  page_break_rows : List Int
  cells : List CellWrite
  segments : List ClosedSeg
  partnerIdx : Nat
deriving DecidableEq, Repr

def initState : FlowState :=
  { visual_col := 0, page := 0, row := CONTENT_START_ROW
    page_start_row := CONTENT_START_ROW, page_max_row := CONTENT_START_ROW
    page_break_rows := [], cells := [], segments := [], partnerIdx := 0 }

/-- `_col_base`: `visual_col * STRIDE + 1 + LEFT_MARGIN`. -/
def colBase (s : FlowState) : Int :=
  (s.visual_col : Int) * STRIDE + 1 + LEFT_MARGIN

/-- `_col(offset)`. -/
def colOf (s : FlowState) (offset : Int) : Int := colBase s + offset

/-- `can_fit`: `(row + height - 1) <= (page_start_row + max_rows - 1)`. -/
def can_fit (cfg : LayoutCfg) (s : FlowState) (height : Int) : Bool :=
  s.row + height - 1 ≤ s.page_start_row + cfg.max_rows - 1

/-- `next_column`. -/
def next_column (cfg : LayoutCfg) (s : FlowState) : FlowState :=
  let pmr := max s.page_max_row s.row
  let vc := s.visual_col + 1
  if vc ≥ cfg.cols_per_page then
    let break_row := pmr
    { s with
      page := s.page + 1
      visual_col := 0
      page_break_rows := s.page_break_rows ++ [break_row]
      page_start_row := break_row + HEADER_ROWS
      row := break_row + HEADER_ROWS
      page_max_row := break_row + HEADER_ROWS }
  else
    { s with visual_col := vc, row := s.page_start_row, page_max_row := pmr }

/-- `ensure_fit`: advance a single column iff the height does not fit. -/
def ensure_fit (cfg : LayoutCfg) (s : FlowState) (height : Int) : FlowState :=
  if can_fit cfg s height then s else next_column cfg s

def writeCell (s : FlowState) (r c : Int) (v : String) (tag : CellTag)
    (ci : Option Nat) : FlowState :=
  { s with cells := s.cells ++
      [{ row := r, col := c, value := v, tag := tag, page := s.page
         vcol := s.visual_col, pageStart := s.page_start_row
         partnerIdx := s.partnerIdx, clientIdx := ci }] }

/-- The body of the member loop of `write_partner_clients` for one member:
name and department always, grade only for a non-BP member with a
non-empty grade; then `self.row += 1`. -/
def writeMember (ci : Nat) (m : Member) (s : FlowState) : FlowState :=
  let s1 := writeCell s s.row (colOf s COL_NAME) m.name CellTag.memberName (some ci)
  let s2 := writeCell s1 s1.row (colOf s1 COL_DEPT) m.dept CellTag.memberDept (some ci)
  let s3 :=
    if m.is_bp = false ∧ m.grade ≠ "" then
      writeCell s2 s2.row (colOf s2 COL_GRADE) m.grade CellTag.memberGrade (some ci)
    else s2
  { s3 with row := s3.row + 1 }

def writeMembers (ci : Nat) : List Member → FlowState → FlowState
  | [], s => s
  | m :: rest, s => writeMembers ci rest (writeMember ci m s)

/-- `(b + 1 - a).toNat` consecutive integers starting at `a`
(the rows `a, a+1, …, b`). -/
def intRange (a b : Int) : List Int :=
  (List.range (b + 1 - a).toNat).map (fun (i : Nat) => a + (i : Int))

/-- One iteration of the project loop of `write_partner_clients`
(`pIdx` is the `enumerate` index `pi`). -/
def writeProject (ci pIdx : Nat) (p : Project) (ss : FlowState × Seg) :
    FlowState × Seg :=
  let s := ss.1
  let seg := ss.2
  let seg :=
    if 0 < pIdx then
      { seg with border_starts := (s.row, COL_PROJECT) :: seg.border_starts }
    else seg
  let proj_row := s.row
  let s := writeCell s proj_row (colOf s COL_PROJECT) p.name CellTag.projectName (some ci)
  let s := writeCell s proj_row (colOf s COL_GRADE)
      (toString p.count ++ countSuffix) CellTag.projectCount (some ci)
  let s := { s with row := s.row + 1 }
  let seg := { seg with border_starts := (s.row, COL_NAME) :: seg.border_starts }
  let firstRow := s.row
  let s := writeMembers ci p.members s
  let lastRow := s.row - 1
  let seg :=
    if 2 ≤ p.count then
      { seg with
        member_ranges := seg.member_ranges ++ [(firstRow, lastRow)]
        border_starts :=
          (intRange (firstRow + 1) lastRow).foldl
            (fun bs mr => (mr, COL_NAME) :: bs) seg.border_starts }
    else seg
  let seg :=
    if 1 ≤ p.count then
      { seg with project_vline_ranges :=
          seg.project_vline_ranges ++ [(proj_row + 1, lastRow)] }
    else seg
  let seg := { seg with placements := seg.placements ++
      [{ projRow := proj_row, firstMemberRow := firstRow
         lastMemberRow := lastRow, count := p.count }] }
  (s, seg)

def writeProjects (ci : Nat) : Nat → List Project → FlowState × Seg → FlowState × Seg
  | _, [], ss => ss
  | pIdx, p :: rest, ss => writeProjects ci (pIdx + 1) rest (writeProject ci pIdx p ss)

/-- One iteration of the client loop of `write_partner_clients`, after the
fit check (the caller performs the `can_fit` test and the possible column
advance). -/
def writeClient (ci : Nat) (c : Client) (ss : FlowState × Seg) : FlowState × Seg :=
  let s := ss.1
  let seg := ss.2
  let seg :=
    if seg.first_client = false then
      { seg with border_starts := (s.row, COL_CLIENT) :: seg.border_starts }
    else seg
  let seg := { seg with first_client := false }
  let client_row := s.row
  let s := writeCell s client_row (colOf s COL_CLIENT) c.name CellTag.clientName (some ci)
  let seg := { seg with merged_rows := seg.merged_rows ++ [client_row] }
  let s := writeCell s (client_row + 1) (colOf s COL_GRADE)
      (toString c.count ++ countSuffix) CellTag.clientCount (some ci)
  let s := { s with row := s.row + 2 }
  let seg := { seg with border_starts := (s.row, COL_PROJECT) :: seg.border_starts }
  let ss2 := writeProjects ci 0 c.projects (s, seg)
  let s := ss2.1
  let seg := ss2.2
  let seg := { seg with client_vline_ranges :=
      seg.client_vline_ranges ++ [(client_row + 2, s.row - 1)] }
  (s, seg)

/-- `_begin_segment`: reset the segment bookkeeping, write the partner
header (name, sales label, people count) and advance past the two header
rows. -/
def begin_segment (partner : Partner) (dk : String) (s : FlowState) :
    FlowState × Seg :=
  let pr := s.row
  let seg : Seg :=
    { start_row := pr, col_base := colBase s, partner_row := pr
      member_ranges := [], border_starts := [], merged_rows := [pr]
      client_vline_ranges := [], project_vline_ranges := [], first_client := true
      page := s.page, vcol := s.visual_col, partnerIdx := s.partnerIdx
      placements := [] }
  let s := writeCell s pr (colOf s COL_PARTNER) partner.display_name
      CellTag.partnerName none
  let s := writeCell s pr (colOf s COL_GRADE) (salesLabel ++ dk)
      CellTag.divisionInfo none
  let s := writeCell s (pr + 1) (colOf s COL_GRADE)
      (toString partner.count ++ countSuffix) CellTag.partnerCount none
  let s := { s with row := s.row + PARTNER_HEADER_ROWS }
  let seg := { seg with border_starts := [(s.row, COL_CLIENT)] }
  (s, seg)

/-- `_end_segment`: close the segment (hand it to the border resolver).
The Python guard `if not seg: return` has no analogue because in this
translation the segment record always exists at the call sites. -/
def end_segment (s : FlowState) (seg : Seg) : FlowState :=
  let endRow := s.row - 1
  if endRow < seg.start_row then s
  else { s with segments := s.segments ++ [{ seg := seg, end_row := endRow }] }

/-- The client loop of `write_partner_clients` (the `enumerate` index is
made explicit so that the written cells can be tagged with the client's
position). -/
def writeClients (cfg : LayoutCfg) (partner : Partner) (dk : String) :
    Nat → List Client → FlowState × Seg → FlowState × Seg
  | _, [], ss => ss
  | ci, c :: rest, ss =>
    let s := ss.1
    let seg := ss.2
    let h := c.row_height
    let ss1 :=
      if can_fit cfg s h then (s, seg)
      else
        let s1 := end_segment s seg
        let s2 := next_column cfg s1
        let s3 := ensure_fit cfg s2 (PARTNER_HEADER_ROWS + h)
        begin_segment partner dk s3
    writeClients cfg partner dk (ci + 1) rest (writeClient ci c ss1)

/-- `FlowLayout.write_partner_clients`. -/
def write_partner_clients (cfg : LayoutCfg) (partner : Partner) (dk : String)
    (s : FlowState) : FlowState :=
  let first_h : Int :=
    match partner.clients with
    | [] => 0
    | c :: _ => c.row_height
  let s := ensure_fit cfg s (PARTNER_HEADER_ROWS + first_h)
  let ss := begin_segment partner dk s
  let ss := writeClients cfg partner dk 0 partner.clients ss
  let s := end_segment ss.1 ss.2
  { s with row := s.row + PARTNER_GAP_ROWS, partnerIdx := s.partnerIdx + 1 }

/-- Mirrors the Python object state: the partner object is part of the
mutable program state during `write_partner_clients`; the translation of
the method threads it through (the method body contains only reads of the
tree, no attribute assignment and no list mutation, so the thread returns
it unchanged). -/
def write_partner_clients_obj (cfg : LayoutCfg) (partner : Partner)
    (dk : String) (s : FlowState) : Partner × FlowState :=
  (partner, write_partner_clients cfg partner dk s)

def layoutFlat (cfg : LayoutCfg) (ps : List (Partner × String)) (s : FlowState) :
    FlowState :=
  ps.foldl (fun s pc => write_partner_clients cfg pc.1 pc.2 s) s

def flatPartners (divs : List Division) : List (Partner × String) :=
  divs.foldl (fun acc d => acc ++ d.partners.map (fun p => (p, d.key))) []

/-- The double loop of `generate`: every partner of every division, in
order, through `write_partner_clients`. -/
def layoutDivisions (cfg : LayoutCfg) (divs : List Division) : FlowState :=
  divs.foldl
    (fun s d => d.partners.foldl (fun s p => write_partner_clients cfg p d.key s) s)
    initState

/-! ### Border resolver (src/writer.py) -/

inductive SideStyle where
  | none
  | hair
  | thin
  | medium
deriving DecidableEq, Repr

structure BorderSpec where
  top : SideStyle
  bottom : SideStyle
  left : SideStyle
  right : SideStyle
deriving DecidableEq, Repr

/-- `_is_member_pair`. -/
def is_member_pair (row_a row_b : Int) (member_ranges : List (Int × Int)) : Bool :=
  member_ranges.any fun fl =>
    decide (fl.1 ≤ row_a ∧ row_a ≤ fl.2 ∧ fl.1 ≤ row_b ∧ row_b ≤ fl.2)

/-- Dict lookup in `border_starts` (head-most entry wins, matching the
most recent Python dict assignment). -/
def lookupBS (bs : List (Int × Int)) (k : Int) : Option Int :=
  (bs.find? fun e => e.1 = k).map (fun e => e.2)

/-- `_resolve_h_border`. -/
def resolve_h_border (row_boundary col_offset : Int)
    (member_ranges : List (Int × Int)) (border_starts : List (Int × Int)) :
    SideStyle :=
  match lookupBS border_starts row_boundary with
  | Option.none => SideStyle.none
  | Option.some start_col =>
    if col_offset < start_col then SideStyle.none
    else if is_member_pair (row_boundary - 1) row_boundary member_ranges then
      SideStyle.hair
    else SideStyle.thin

/-- The border assigned by `_apply_partner_borders` to the cell
`(row, col)` of a closed segment (direct transcription of the loop
body). -/
def segCellBorder (cs : ClosedSeg) (row col : Int) : BorderSpec :=
  let seg := cs.seg
  let row_start := seg.start_row
  let row_end := cs.end_row
  let col_start := seg.col_base
  let col_end := col_start + EXCEL_COLS_PER_VISUAL - 1
  let col_offset := col - col_start
  let top :=
    if row = row_start then SideStyle.medium
    else if (row - 1) ∈ seg.merged_rows then SideStyle.none
    else resolve_h_border row col_offset seg.member_ranges seg.border_starts
  let bottom :=
    if row = row_end then SideStyle.medium
    else if row ∈ seg.merged_rows then SideStyle.none
    else resolve_h_border (row + 1) col_offset seg.member_ranges seg.border_starts
  let left := if col = col_start then SideStyle.medium else SideStyle.none
  let right0 := if col = col_end then SideStyle.medium else SideStyle.none
  let right1 :=
    if col_offset = COL_PARTNER ∧ seg.partner_row + 2 ≤ row then SideStyle.thin
    else right0
  let right2 :=
    if col_offset = COL_CLIENT ∧
        seg.client_vline_ranges.any (fun r => decide (r.1 ≤ row ∧ row ≤ r.2)) then
      SideStyle.thin
    else right1
  let right3 :=
    if col_offset = COL_PROJECT ∧
        seg.project_vline_ranges.any (fun r => decide (r.1 ≤ row ∧ row ≤ r.2)) then
      SideStyle.thin
    else right2
  { top := top, bottom := bottom, left := left, right := right3 }

/-! ### Grouping pipeline (src/processor.py, `process` and its helpers)

The pandas dataframe is modelled as a list of records (one roster row per
person); `groupby(..., sort=False)` is modelled by `groupByKey`, which
iterates the groups in order of first appearance, exactly as pandas does
with `sort=False`.  The module-level configuration read from `config.py`
is passed explicitly as an `AppConfig`; dicts become association lists in
which the most recent insertion is found first. -/

structure Record where
  partner_name : String
  user_name : String
  task_name : String
  person_name : String
  dept : String
  grade : String
deriving DecidableEq, Repr

structure AppConfig where
  partner_display_map : List (String × String)
  client_display_map : List (String × String)
  grade_display_map : List (String × String)
  grade_order : List String
  sales_partner_map : List (String × List String)
deriving Repr

def emptyStr : String := ""

def dictGet (d : List (String × String)) (k : String) : Option String :=
  (d.find? fun e => decide (e.1 = k)).map (fun e => e.2)

/-- The `_ZEN2HAN` translation table: full-width alphanumerics to
half-width (code point minus `0xFEE0`). -/
def zen2hanChar (c : Char) : Char :=
  let n := c.toNat
  if (0xFF10 ≤ n ∧ n ≤ 0xFF19) ∨ (0xFF21 ≤ n ∧ n ≤ 0xFF3A) ∨
      (0xFF41 ≤ n ∧ n ≤ 0xFF5A) then
    Char.ofNat (n - 0xFEE0)
  else c

def kabushikiKaisha : String := "株式会社"
def kabushikiMark : String := "㈱"

/-- `_strip_company`. -/
def strip_company (name : String) : String :=
  (((name.replace kabushikiKaisha emptyStr).replace kabushikiMark emptyStr).map
    zen2hanChar).trim

/-- `_resolve_display_name`. -/
def resolve_display_name (cfg : AppConfig) (partner_name : String) : String :=
  let stripped := strip_company partner_name
  (dictGet cfg.partner_display_map stripped).getD stripped

/-- `_resolve_client_name`. -/
def resolve_client_name (cfg : AppConfig) (name : String) : String :=
  let stripped := strip_company name
  (dictGet cfg.client_display_map stripped).getD stripped

def bpMark : String := "B推"

/-- `_is_bp`. -/
def is_bp_dept (dept : String) : Bool := dept.startsWith bpMark

/-- `_grade_sort_key`. -/
def grade_sort_key (cfg : AppConfig) (grade : String) : Nat :=
  match cfg.grade_order.findIdx? (fun g => decide (g = grade)) with
  | Option.some i => i
  | Option.none => cfg.grade_order.length

def yakuinMark : String := "役員"

/-- Substring test `"役員" in dept` (a string contains a non-empty pattern
iff splitting on the pattern yields more than one piece). -/
def containsYakuin (dept : String) : Bool :=
  (dept.splitOn yakuinMark).length ≠ 1

/-- `_sort_members`: 役員 → own members in grade order (stable) → BP. -/
def sort_members (cfg : AppConfig) (members : List Member) : List Member :=
  let execs := members.filter (fun m => !m.is_bp && containsYakuin m.dept)
  let own := members.filter (fun m => !m.is_bp && !containsYakuin m.dept)
  let bp := members.filter (fun m => m.is_bp)
  let own := own.mergeSort
    (fun a b => decide (grade_sort_key cfg a.grade ≤ grade_sort_key cfg b.grade))
  execs ++ own ++ bp

/-- The member built from one roster row inside `_build_clients`. -/
def buildMember (cfg : AppConfig) (r : Record) : Member :=
  let bp := is_bp_dept r.dept
  { name := r.person_name
    dept := r.dept
    grade :=
      if bp then emptyStr
      else (dictGet cfg.grade_display_map r.grade).getD r.grade
    is_bp := bp }

/-- `df.groupby(key, sort=False)`: groups in order of first appearance,
each group collecting its rows in order. -/
def groupByKey {α κ : Type} [DecidableEq κ] (key : α → κ) (l : List α) :
    List (κ × List α) :=
  l.foldl
    (fun acc a =>
      let k := key a
      if acc.any (fun g => decide (g.1 = k)) then
        acc.map (fun g => if g.1 = k then (g.1, g.2 ++ [a]) else g)
      else acc ++ [(k, [a])])
    []

/-- `_build_clients`. -/
def build_clients (cfg : AppConfig) (rows : List Record) : List Client :=
  let groups := groupByKey (fun r => resolve_client_name cfg r.user_name) rows
  let clients := groups.map (fun g =>
    let pgroups := groupByKey (fun r => r.task_name) g.2
    let projects : List Project := pgroups.map (fun pg =>
      { name := pg.1, members := sort_members cfg (pg.2.map (buildMember cfg)) })
    let projects := projects.mergeSort (fun a b => decide (b.count ≤ a.count))
    ({ name := g.1, projects := projects } : Client))
  clients.mergeSort (fun a b => decide (b.count ≤ a.count))

/-- The reverse lookup 取引先名 → 営業区分 built at the start of `process`
(a dict filled by iterating `SALES_PARTNER_MAP`; a later entry overwrites
an earlier one, modelled by inserting at the head). -/
def buildDivisionLookup (spMap : List (String × List String)) :
    List (String × String) :=
  spMap.foldl (fun d e => e.2.foldl (fun d n => (n, e.1) :: d) d) []

/-- `df["営業区分"] = df["出力用取引先名"].map(division_lookup).fillna("")`. -/
def assignDivision (spMap : List (String × List String)) (resolvedName : String) :
    String :=
  (dictGet (buildDivisionLookup spMap) resolvedName).getD emptyStr

/-- `map_keys.index(k) if k in config.SALES_PARTNER_MAP else 0`, combined
with the boolean `k not in config.SALES_PARTNER_MAP` into a single rank:
registered keys rank by registration index, unregistered keys rank after
every registered one.  This is order-isomorphic to Python's key tuple
`(k not in MAP, index-or-0)` on the keys that occur. -/
def divRank (mapKeys : List String) (k : String) : Nat :=
  match mapKeys.findIdx? (fun g => decide (g = k)) with
  | Option.some i => i
  | Option.none => mapKeys.length

/-- `process`. -/
def process (cfg : AppConfig) (rows : List Record) : List Division :=
  let rows2 := rows.map (fun r =>
    let pn := resolve_display_name cfg r.partner_name
    (assignDivision cfg.sales_partner_map pn, pn, r))
  let groups := groupByKey (fun x => (x.1, x.2.1)) rows2
  let divisions := groups.foldl
    (fun (ds : List Division) g =>
      let dk := g.1.1
      let pn := g.1.2
      let clients := build_clients cfg (g.2.map (fun x => x.2.2))
      let partner : Partner := { display_name := pn, clients := clients }
      if ds.any (fun d => decide (d.key = dk)) then
        ds.map (fun d =>
          if d.key = dk then { d with partners := d.partners ++ [partner] } else d)
      else ds ++ [{ key := dk, partners := [partner] }])
    []
  let divisions := divisions.map (fun d =>
    { d with partners := d.partners.mergeSort (fun a b => decide (b.count ≤ a.count)) })
  let mapKeys := cfg.sales_partner_map.map (fun e => e.1)
  let keysSorted := (divisions.map (fun d => d.key)).mergeSort
    (fun k1 k2 => decide (divRank mapKeys k1 ≤ divRank mapKeys k2))
  keysSorted.filterMap (fun k => divisions.find? (fun d => decide (d.key = k)))

/-! ### Concrete inputs used by witnesses and counterexamples -/

/-- The configuration of `config.py`: `columns_per_page = 5`,
`max_rows_per_column = 90`. -/
def cfgMain : LayoutCfg := { cols_per_page := 5, max_rows := 90 }

def memberPlain : Member :=
  { name := "m", dept := "d", grade := emptyStr, is_bp := false }

/-- A project with 92 members, so that its client has row height
`2 + (1 + 92) = 95 > 90` — the oversized-client input of Scenario B. -/
def bigProject : Project := { name := "big", members := List.replicate 92 memberPlain }

def bigClient : Client := { name := "bc", projects := [bigProject] }

def bigPartner : Partner := { display_name := "BP", clients := [bigClient] }

def bigDivision : Division := { key := "bk", partners := [bigPartner] }

/-- A project with exactly three people (Scenario D). -/
def projThree : Project :=
  { name := "p3"
    members :=
      [ { name := "a", dept := "dd", grade := "GM", is_bp := false }
      , { name := "b", dept := "dd", grade := "SM", is_bp := false }
      , { name := "c", dept := "dd", grade := "MA", is_bp := false } ] }

def clientThree : Client := { name := "c3", projects := [projThree] }

def partnerThree : Partner := { display_name := "P3", clients := [clientThree] }

def divThree : Division := { key := "dk", partners := [partnerThree] }

/-- A project with six people; its client has row height `2 + 7 = 9`. -/
def projSix : Project :=
  { name := "p6"
    members :=
      [ { name := "a", dept := "dd", grade := "GM", is_bp := false }
      , { name := "b", dept := "dd", grade := "SM", is_bp := false }
      , { name := "c", dept := "dd", grade := "MA", is_bp := false }
      , { name := "d", dept := "dd", grade := "CF", is_bp := false }
      , { name := "e", dept := "dd", grade := "EN", is_bp := false }
      , { name := "f", dept := "dd", grade := "NC", is_bp := false } ] }

/-- Two clients that fit a column individually but not together
(Scenario C, with `max_rows = 12`). -/
def cfgTwoCol : LayoutCfg := { cols_per_page := 5, max_rows := 12 }

def clientSplitA : Client := { name := "ca", projects := [projSix] }

def clientSplitB : Client := { name := "cb", projects := [projSix] }

def partnerSplit : Partner := { display_name := "PS", clients := [clientSplitA, clientSplitB] }

def divSplit : Division := { key := "sd", partners := [partnerSplit] }

/-- A cursor state in the last column of a page (used to exercise
`next_column`'s page-closing branch). -/
def stateLastCol : FlowState :=
  { visual_col := 4, page := 0, row := 20, page_start_row := 3
    page_max_row := 15, page_break_rows := [], cells := [], segments := []
    partnerIdx := 0 }

def dummySeg : Seg :=
  { start_row := 0, col_base := 0, partner_row := 0, member_ranges := []
    border_starts := [], merged_rows := [], client_vline_ranges := []
    project_vline_ranges := [], first_client := true, page := 0, vcol := 0
    partnerIdx := 0, placements := [] }

def dummyClosedSeg : ClosedSeg := { seg := dummySeg, end_row := 0 }

/-- A small configuration for the grouping pipeline: two registered sales
keys, no display-name mappings. -/
def appCfgW : AppConfig :=
  { partner_display_map := [], client_display_map := [], grade_display_map := []
    grade_order := ["GM", "SM", "MA", "CF", "EN", "NC", emptyStr]
    sales_partner_map := [("X", ["P1"]), ("Y", ["P2"])] }

/-- Three roster rows: partners `P2` (sales `Y`), `Q` (unregistered) and
`P1` (sales `X`), in that order. -/
def rowsW : List Record :=
  [ { partner_name := "P2", user_name := "u", task_name := "t"
      person_name := "n1", dept := "dd", grade := "GM" }
  , { partner_name := "Q", user_name := "u", task_name := "t"
      person_name := "n2", dept := "dd", grade := "GM" }
  , { partner_name := "P1", user_name := "u", task_name := "t"
      person_name := "n3", dept := "dd", grade := "GM" } ]

/-! ### Specification predicates (used only by the theorems) -/

/-- All cursor fields other than `row` (and the cell log) unchanged. -/
def SameCursor (s s' : FlowState) : Prop :=
  s'.visual_col = s.visual_col ∧ s'.page = s.page ∧
  s'.page_start_row = s.page_start_row ∧ s'.page_max_row = s.page_max_row ∧
  s'.page_break_rows = s.page_break_rows ∧ s'.segments = s.segments ∧
  s'.partnerIdx = s.partnerIdx

/-- A cell written while rendering one block at cursor state `s`:
it lives in the column the cursor points at, carries the identity `ci`,
and its row lies in `[lo, hi]`. -/
def BlockCell (s : FlowState) (ci : Option Nat) (lo hi : Int) (w : CellWrite) : Prop :=
  w.page = s.page ∧ w.vcol = s.visual_col ∧ w.pageStart = s.page_start_row ∧
  w.partnerIdx = s.partnerIdx ∧ w.clientIdx = ci ∧ lo ≤ w.row ∧ w.row ≤ hi

/-- `s'` extends the cell log of `s` by cells all satisfying `P`. -/
def CellsSpec (s s' : FlowState) (P : CellWrite → Prop) : Prop :=
  ∃ L, s'.cells = s.cells ++ L ∧ ∀ w ∈ L, P w

/-- The identity fields of a segment (where it lives and whose it is),
never changed after `_begin_segment`. -/
def SameSegId (seg seg' : Seg) : Prop :=
  seg'.start_row = seg.start_row ∧ seg'.col_base = seg.col_base ∧
  seg'.partner_row = seg.partner_row ∧ seg'.page = seg.page ∧
  seg'.vcol = seg.vcol ∧ seg'.partnerIdx = seg.partnerIdx

/-- `s'` extends the closed-segment list of `s` by segments all
satisfying `P`. -/
def SegsSpec (s s' : FlowState) (P : ClosedSeg → Prop) : Prop :=
  ∃ S, s'.segments = s.segments ++ S ∧ ∀ cs ∈ S, P cs

/-- The cell `w` lies inside one of the closed segments of partner `k`:
same page and visual column, row within the segment's row range. -/
def InClosedSeg (segs : List ClosedSeg) (k : Nat) (w : CellWrite) : Prop :=
  ∃ cs ∈ segs, cs.seg.partnerIdx = k ∧ cs.seg.page = w.page ∧
    cs.seg.vcol = w.vcol ∧ cs.seg.start_row ≤ w.row ∧ w.row ≤ cs.end_row

/-- The capacity invariant, as a state invariant: the cursor row never
precedes the page's content-start row, and every cell written so far lies
at most `max_rows` rows into its column (counting from the content-start
row of its page). -/
def GoodState (cfg : LayoutCfg) (s : FlowState) : Prop :=
  s.page_start_row ≤ s.row ∧
  ∀ w ∈ s.cells, w.pageStart ≤ w.row ∧ w.row - w.pageStart + 1 ≤ cfg.max_rows

/-- The effect of one `writeProject` iteration on the segment record
alone, parametrised by the project row and the last member row (definitionally
equal to the segment component of `writeProject`; used to reason about the
border bookkeeping separately from the cell log). -/
def projSegUpdate (seg0 : Seg) (proj_row lastRow : Int) (pIdx cnt : Nat) : Seg :=
  let seg :=
    if 0 < pIdx then
      { seg0 with border_starts := (proj_row, COL_PROJECT) :: seg0.border_starts }
    else seg0
  let seg := { seg with border_starts := (proj_row + 1, COL_NAME) :: seg.border_starts }
  let seg :=
    if 2 ≤ cnt then
      { seg with
        member_ranges := seg.member_ranges ++ [(proj_row + 1, lastRow)]
        border_starts :=
          (intRange (proj_row + 1 + 1) lastRow).foldl
            (fun bs mr => (mr, COL_NAME) :: bs) seg.border_starts }
    else seg
  let seg :=
    if 1 ≤ cnt then
      { seg with project_vline_ranges :=
          seg.project_vline_ranges ++ [(proj_row + 1, lastRow)] }
    else seg
  { seg with placements := seg.placements ++
      [{ projRow := proj_row, firstMemberRow := proj_row + 1
         lastMemberRow := lastRow, count := cnt }] }

/-- Segment bookkeeping invariant maintained while a segment is open at
cursor row `row`: the recorded member ranges lie strictly below the
cursor, the border-start keys never exceed the cursor, and for every
placed project with at least two members the first/last member rows are
consistent, their horizontal boundaries are registered from `COL_NAME`,
the pair belongs to `member_ranges`, and the boundary above the first
member is not an intra-project member pair. -/
def SegInv (seg : Seg) (row : Int) : Prop :=
  (∀ fl ∈ seg.member_ranges, fl.1 ≤ fl.2 ∧ fl.2 < row) ∧
  (∀ e ∈ seg.border_starts, e.1 ≤ row) ∧
  (∀ pl ∈ seg.placements,
    pl.lastMemberRow < row ∧
    (2 ≤ pl.count →
      pl.lastMemberRow = pl.firstMemberRow + (pl.count : Int) - 1 ∧
      lookupBS seg.border_starts pl.firstMemberRow = Option.some COL_NAME ∧
      (∀ r, pl.firstMemberRow + 1 ≤ r → r ≤ pl.lastMemberRow →
        lookupBS seg.border_starts r = Option.some COL_NAME) ∧
      (pl.firstMemberRow, pl.lastMemberRow) ∈ seg.member_ranges ∧
      is_member_pair (pl.firstMemberRow - 1) pl.firstMemberRow seg.member_ranges
        = false))

/-- What Scenario D requires of a closed segment: for every placed
project with at least two people, the boundary above its first member row
resolves to the standard boundary weight and every interior boundary
between consecutive member rows resolves to the hair weight (at all
column offsets from `COL_NAME` rightwards). -/
def SegSibOK (cs : ClosedSeg) : Prop :=
  ∀ pl ∈ cs.seg.placements, 2 ≤ pl.count →
    pl.lastMemberRow = pl.firstMemberRow + (pl.count : Int) - 1 ∧
    (∀ off : Int, COL_NAME ≤ off →
      resolve_h_border pl.firstMemberRow off cs.seg.member_ranges
        cs.seg.border_starts = SideStyle.thin) ∧
    (∀ off r : Int, COL_NAME ≤ off →
      pl.firstMemberRow + 1 ≤ r → r ≤ pl.lastMemberRow →
      resolve_h_border r off cs.seg.member_ranges cs.seg.border_starts
        = SideStyle.hair)

def segCounts (cs : ClosedSeg) : List Nat := cs.seg.placements.map (fun pl => pl.count)

/-- The member counts of all projects placed into segments, in placement
order. -/
def segmentProjectCounts (st : FlowState) : List Nat :=
  (st.segments.map segCounts).flatten

def clientProjectCounts (c : Client) : List Nat := c.projects.map Project.count

def partnerProjectCounts (p : Partner) : List Nat :=
  (p.clients.map clientProjectCounts).flatten

/-- The member counts of all projects of the input tree, in layout
order. -/
def treeProjectCounts (divs : List Division) : List Nat :=
  ((flatPartners divs).map (fun pc => partnerProjectCounts pc.1)).flatten

/-- The three partner-header cells (name, sales label, people count) of a
segment are present in the cell log, at the segment's top rows, in the
segment's column. -/
def SegHeaderCells (cells : List CellWrite) (seg : Seg) (nm dv ct : String) : Prop :=
  (∃ w ∈ cells, w.tag = CellTag.partnerName ∧ w.partnerIdx = seg.partnerIdx ∧
    w.page = seg.page ∧ w.vcol = seg.vcol ∧ w.row = seg.start_row ∧
    w.col = seg.col_base + COL_PARTNER ∧ w.value = nm) ∧
  (∃ w ∈ cells, w.tag = CellTag.divisionInfo ∧ w.partnerIdx = seg.partnerIdx ∧
    w.page = seg.page ∧ w.vcol = seg.vcol ∧ w.row = seg.start_row ∧
    w.col = seg.col_base + COL_GRADE ∧ w.value = dv) ∧
  (∃ w ∈ cells, w.tag = CellTag.partnerCount ∧ w.partnerIdx = seg.partnerIdx ∧
    w.page = seg.page ∧ w.vcol = seg.vcol ∧ w.row = seg.start_row + 1 ∧
    w.col = seg.col_base + COL_GRADE ∧ w.value = ct)

/-- The first segment closed while laying out `divThree` (rows 3–10 of
column 0, merged header rows 3 and 5, one member range 8–10). -/
def segThree : ClosedSeg :=
  (layoutDivisions cfgMain [divThree]).segments.getD 0 dummyClosedSeg

/-- The second segment closed while laying out `divSplit` (the repeated
partner header lives at its top, in visual column 1). -/
def segSplitB : ClosedSeg :=
  (layoutDivisions cfgTwoCol [divSplit]).segments.getD 1 dummyClosedSeg

/-!
## Theorems

Every claim theorem, its witness, and the supporting lemmas.
-/

/-- C8: for every constructed tree, the row height of each container is
its fixed header overhead plus the sum of its children's row heights:
`Project.row_height = 1 + count`, `Client.row_height = 2 + Σ project
heights`, `Partner.row_height = 2 + Σ client heights`. -/
theorem row_height_recurrence (p : Project) (c : Client) (pa : Partner) :
    p.row_height = 1 + (p.count : Int) ∧
    c.row_height = 2 + (c.projects.map Project.row_height).sum ∧
    pa.row_height = 2 + (pa.clients.map Client.row_height).sum := by
  refine ⟨rfl, ?_, ?_⟩
  · show (1 + 1 + (c.projects.map Project.row_height).sum : Int) = _
    ring
  · show (1 + 1 + (pa.clients.map Client.row_height).sum : Int) = _
    ring

/-- C5: a `next_column` call that advances past the last column of a page
(`visual_col + 1` reaches `cols_per_page`) appends exactly one page-break
marker at the page's high-water row, sets the new content-start row to
that break row plus the fixed `HEADER_ROWS` allowance, and resets the
high-water mark (and the cursor row) to the new content-start row, moving
to column 0 of the next page. -/
theorem next_column_closes_page (cfg : LayoutCfg) (s : FlowState)
    (h : cfg.cols_per_page ≤ s.visual_col + 1) :
    (next_column cfg s).page_break_rows
        = s.page_break_rows ++ [max s.page_max_row s.row] ∧
    (next_column cfg s).page_start_row = max s.page_max_row s.row + HEADER_ROWS ∧
    (next_column cfg s).page_max_row = (next_column cfg s).page_start_row ∧
    (next_column cfg s).row = (next_column cfg s).page_start_row ∧
    (next_column cfg s).page = s.page + 1 ∧
    (next_column cfg s).visual_col = 0 := by
  simp [next_column, h]

theorem next_column_closes_page_witness :
    (next_column cfgMain stateLastCol).page_break_rows
        = stateLastCol.page_break_rows
            ++ [max stateLastCol.page_max_row stateLastCol.row] ∧
    (next_column cfgMain stateLastCol).page_start_row
        = max stateLastCol.page_max_row stateLastCol.row + HEADER_ROWS ∧
    (next_column cfgMain stateLastCol).page_max_row
        = (next_column cfgMain stateLastCol).page_start_row ∧
    (next_column cfgMain stateLastCol).row
        = (next_column cfgMain stateLastCol).page_start_row ∧
    (next_column cfgMain stateLastCol).page = stateLastCol.page + 1 ∧
    (next_column cfgMain stateLastCol).visual_col = 0 :=
  next_column_closes_page cfgMain stateLastCol (by decide)

/-- C7: in every placed segment, a row that is the top half of a vertical
cell merge (a partner or client header row) gets no interior stroke on the
horizontal boundary directly below it: the bottom edge of that row and the
top edge of the following row are both empty, except where the outer-frame
rule applies (the segment's last or first row). -/
theorem merge_exclusion (cfg : LayoutCfg) (divs : List Division) (cs : ClosedSeg)
    (_hseg : cs ∈ (layoutDivisions cfg divs).segments)
    (r c : Int) (hr : r ∈ cs.seg.merged_rows) (hne : r ≠ cs.end_row) :
    (segCellBorder cs r c).bottom = SideStyle.none ∧
    (r + 1 ≠ cs.seg.start_row → (segCellBorder cs (r + 1) c).top = SideStyle.none) := by
  constructor
  · simp [segCellBorder, hne, hr]
  · intro h2
    simp [segCellBorder, h2, hr, add_sub_cancel_right]

theorem merge_exclusion_witness :
    (segCellBorder segThree 5 4).bottom = SideStyle.none ∧
    ((5 : Int) + 1 ≠ segThree.seg.start_row →
      (segCellBorder segThree (5 + 1) 4).top = SideStyle.none) :=
  merge_exclusion cfgMain [divThree] segThree (by decide) 5 4 (by decide) (by decide)

/-- C9: the layout consumes the tree read-only.  The body of
`write_partner_clients` contains only reads of the partner sub-tree (no
attribute assignment, no list mutation), so the state-passing translation
threads the partner through unchanged: after the call the partner — and
with it every descendant client, project and member, their names, order,
counts and row heights — is identical to what it was before. -/
theorem layout_preserves_tree (cfg : LayoutCfg) (p : Partner) (dk : String)
    (s : FlowState) :
    (write_partner_clients_obj cfg p dk s).1 = p ∧
    (write_partner_clients_obj cfg p dk s).1.clients = p.clients ∧
    (write_partner_clients_obj cfg p dk s).1.count = p.count ∧
    (write_partner_clients_obj cfg p dk s).1.row_height = p.row_height :=
  ⟨rfl, rfl, rfl, rfl⟩

set_option maxRecDepth 40000 in
/-- C1, behaviour of the code at the failing input of Scenario B: a
partner whose single client has row height 95 under
`max_rows_per_column = 90`.  `write_partner_clients` raises no error (the
translation is total — the source has no raise and no loop in
`ensure_fit`); it advances and then writes the whole client anyway, so the
log contains cells beyond the column capacity
(`row > pageStart + max_rows - 1`). -/
theorem oversized_client_placed_without_error :
    ((layoutDivisions cfgMain [bigDivision]).cells.any
      (fun w => decide (w.pageStart + cfgMain.max_rows - 1 < w.row))) = true := by
  decide

/-! #### Cell-log infrastructure -/

@[simp] theorem writeCell_row (s : FlowState) (r c : Int) (v : String)
    (t : CellTag) (ci : Option Nat) : (writeCell s r c v t ci).row = s.row := rfl

@[simp] theorem writeCell_visual_col (s : FlowState) (r c : Int) (v : String)
    (t : CellTag) (ci : Option Nat) :
    (writeCell s r c v t ci).visual_col = s.visual_col := rfl

@[simp] theorem writeCell_page (s : FlowState) (r c : Int) (v : String)
    (t : CellTag) (ci : Option Nat) : (writeCell s r c v t ci).page = s.page := rfl

@[simp] theorem writeCell_page_start_row (s : FlowState) (r c : Int) (v : String)
    (t : CellTag) (ci : Option Nat) :
    (writeCell s r c v t ci).page_start_row = s.page_start_row := rfl

@[simp] theorem writeCell_page_max_row (s : FlowState) (r c : Int) (v : String)
    (t : CellTag) (ci : Option Nat) :
    (writeCell s r c v t ci).page_max_row = s.page_max_row := rfl

@[simp] theorem writeCell_page_break_rows (s : FlowState) (r c : Int) (v : String)
    (t : CellTag) (ci : Option Nat) :
    (writeCell s r c v t ci).page_break_rows = s.page_break_rows := rfl

@[simp] theorem writeCell_segments (s : FlowState) (r c : Int) (v : String)
    (t : CellTag) (ci : Option Nat) :
    (writeCell s r c v t ci).segments = s.segments := rfl

@[simp] theorem writeCell_partnerIdx (s : FlowState) (r c : Int) (v : String)
    (t : CellTag) (ci : Option Nat) :
    (writeCell s r c v t ci).partnerIdx = s.partnerIdx := rfl

theorem sameCursor_rfl (s : FlowState) : SameCursor s s :=
  ⟨rfl, rfl, rfl, rfl, rfl, rfl, rfl⟩

theorem sameCursor_trans {s1 s2 s3 : FlowState} (h1 : SameCursor s1 s2)
    (h2 : SameCursor s2 s3) : SameCursor s1 s3 := by
  obtain ⟨a1, b1, c1, d1, e1, f1, g1⟩ := h1
  obtain ⟨a2, b2, c2, d2, e2, f2, g2⟩ := h2
  exact ⟨a2.trans a1, b2.trans b1, c2.trans c1, d2.trans d1, e2.trans e1,
    f2.trans f1, g2.trans g1⟩

theorem sameCursor_writeCell (s : FlowState) (r c : Int) (v : String)
    (t : CellTag) (ci : Option Nat) : SameCursor s (writeCell s r c v t ci) :=
  ⟨rfl, rfl, rfl, rfl, rfl, rfl, rfl⟩

theorem sameCursor_row_update {s s' : FlowState} (h : SameCursor s s') (r : Int) :
    SameCursor s { s' with row := r } := h

theorem cellsSpec_rfl (s : FlowState) (P : CellWrite → Prop) : CellsSpec s s P :=
  ⟨[], by simp, by simp⟩

theorem cellsSpec_of_cells_eq {s s' : FlowState} (h : s'.cells = s.cells)
    (P : CellWrite → Prop) : CellsSpec s s' P :=
  ⟨[], by simp [h], by simp⟩

theorem cellsSpec_trans {s1 s2 s3 : FlowState} {P : CellWrite → Prop}
    (h1 : CellsSpec s1 s2 P) (h2 : CellsSpec s2 s3 P) : CellsSpec s1 s3 P := by
  obtain ⟨L1, e1, p1⟩ := h1
  obtain ⟨L2, e2, p2⟩ := h2
  refine ⟨L1 ++ L2, by rw [e2, e1, List.append_assoc], ?_⟩
  intro w hw
  rcases List.mem_append.1 hw with h | h
  · exact p1 w h
  · exact p2 w h

theorem cellsSpec_mono {s s' : FlowState} {P Q : CellWrite → Prop}
    (hPQ : ∀ w, P w → Q w) (h : CellsSpec s s' P) : CellsSpec s s' Q := by
  obtain ⟨L, e, p⟩ := h
  exact ⟨L, e, fun w hw => hPQ w (p w hw)⟩

theorem cellsSpec_writeCell {P : CellWrite → Prop} (s : FlowState) (r c : Int)
    (v : String) (t : CellTag) (ci : Option Nat)
    (hP : P { row := r, col := c, value := v, tag := t, page := s.page
              vcol := s.visual_col, pageStart := s.page_start_row
              partnerIdx := s.partnerIdx, clientIdx := ci }) :
    CellsSpec s (writeCell s r c v t ci) P := by
  refine ⟨[_], rfl, ?_⟩
  intro w hw
  rw [List.mem_singleton] at hw
  subst hw
  exact hP

theorem cellsSpec_subset {s s' : FlowState} {P : CellWrite → Prop}
    (h : CellsSpec s s' P) : ∀ w ∈ s.cells, w ∈ s'.cells := by
  obtain ⟨L, e, -⟩ := h
  intro w hw
  rw [e]
  exact List.mem_append_left _ hw

theorem cellsSpec_mem {s s' : FlowState} {P : CellWrite → Prop}
    (h : CellsSpec s s' P) : ∀ w ∈ s'.cells, w ∈ s.cells ∨ P w := by
  obtain ⟨L, e, p⟩ := h
  intro w hw
  rw [e] at hw
  rcases List.mem_append.1 hw with h | h
  · exact Or.inl h
  · exact Or.inr (p w h)

theorem mem_writeCell (s : FlowState) (r c : Int) (v : String) (t : CellTag)
    (ci : Option Nat) :
    ({ row := r, col := c, value := v, tag := t, page := s.page
       vcol := s.visual_col, pageStart := s.page_start_row
       partnerIdx := s.partnerIdx, clientIdx := ci } : CellWrite)
      ∈ (writeCell s r c v t ci).cells := by
  simp [writeCell]

theorem blockCell_mono {s s' : FlowState} (h : SameCursor s s')
    {ci : Option Nat} {lo hi lo' hi' : Int} {w : CellWrite}
    (hlo : lo' ≤ lo) (hhi : hi ≤ hi') (hw : BlockCell s' ci lo hi w) :
    BlockCell s ci lo' hi' w := by
  obtain ⟨hv, hp, hps, -, -, -, hpi⟩ := h
  obtain ⟨w1, w2, w3, w4, w5, w6, w7⟩ := hw
  exact ⟨by rw [w1, hp], by rw [w2, hv], by rw [w3, hps], by rw [w4, hpi],
    w5, le_trans hlo w6, le_trans w7 hhi⟩

theorem cellsSpec_writeCell_of {P : CellWrite → Prop} {s0 s : FlowState}
    (hsc : SameCursor s0 s) (r c : Int) (v : String) (t : CellTag)
    (ci : Option Nat)
    (hP : P { row := r, col := c, value := v, tag := t, page := s0.page
              vcol := s0.visual_col, pageStart := s0.page_start_row
              partnerIdx := s0.partnerIdx, clientIdx := ci }) :
    CellsSpec s (writeCell s r c v t ci) P := by
  obtain ⟨hv, hp, hps, -, -, -, hpi⟩ := hsc
  refine cellsSpec_writeCell s r c v t ci ?_
  rw [hv, hp, hps, hpi]
  exact hP

theorem writeMember_spec (ci : Nat) (m : Member) (s : FlowState) :
    CellsSpec s (writeMember ci m s) (BlockCell s (some ci) s.row s.row) ∧
    (∃ w ∈ (writeMember ci m s).cells,
      w.partnerIdx = s.partnerIdx ∧ w.clientIdx = some ci ∧ w.row = s.row) ∧
    (writeMember ci m s).row = s.row + 1 ∧
    SameCursor s (writeMember ci m s) := by
  unfold writeMember
  split
  · refine ⟨?_, ?_, rfl, ⟨rfl, rfl, rfl, rfl, rfl, rfl, rfl⟩⟩
    · refine cellsSpec_trans
        (cellsSpec_writeCell s _ _ _ _ _
          ⟨rfl, rfl, rfl, rfl, rfl, le_refl _, le_refl _⟩)
        (cellsSpec_trans
          (cellsSpec_writeCell_of ⟨rfl, rfl, rfl, rfl, rfl, rfl, rfl⟩ _ _ _ _ _
            ⟨rfl, rfl, rfl, rfl, rfl, le_refl _, le_refl _⟩)
          (cellsSpec_trans
            (cellsSpec_writeCell_of ⟨rfl, rfl, rfl, rfl, rfl, rfl, rfl⟩ _ _ _ _ _
              ⟨rfl, rfl, rfl, rfl, rfl, le_refl _, le_refl _⟩)
            (cellsSpec_of_cells_eq rfl _)))
    · exact ⟨{ row := s.row, col := colOf s COL_NAME, value := m.name
               tag := CellTag.memberName, page := s.page, vcol := s.visual_col
               pageStart := s.page_start_row, partnerIdx := s.partnerIdx
               clientIdx := some ci }, by simp [writeCell], rfl, rfl, rfl⟩
  · refine ⟨?_, ?_, rfl, ⟨rfl, rfl, rfl, rfl, rfl, rfl, rfl⟩⟩
    · refine cellsSpec_trans
        (cellsSpec_writeCell s _ _ _ _ _
          ⟨rfl, rfl, rfl, rfl, rfl, le_refl _, le_refl _⟩)
        (cellsSpec_trans
          (cellsSpec_writeCell_of ⟨rfl, rfl, rfl, rfl, rfl, rfl, rfl⟩ _ _ _ _ _
            ⟨rfl, rfl, rfl, rfl, rfl, le_refl _, le_refl _⟩)
          (cellsSpec_of_cells_eq rfl _))
    · exact ⟨{ row := s.row, col := colOf s COL_NAME, value := m.name
               tag := CellTag.memberName, page := s.page, vcol := s.visual_col
               pageStart := s.page_start_row, partnerIdx := s.partnerIdx
               clientIdx := some ci }, by simp [writeCell], rfl, rfl, rfl⟩

theorem writeMembers_spec (ci : Nat) (ms : List Member) (s : FlowState) :
    CellsSpec s (writeMembers ci ms s)
      (BlockCell s (some ci) s.row (s.row + (ms.length : Int) - 1)) ∧
    (∀ r : Int, s.row ≤ r → r < s.row + (ms.length : Int) →
      ∃ w ∈ (writeMembers ci ms s).cells,
        w.partnerIdx = s.partnerIdx ∧ w.clientIdx = some ci ∧ w.row = r) ∧
    (writeMembers ci ms s).row = s.row + (ms.length : Int) ∧
    SameCursor s (writeMembers ci ms s) := by
  induction ms generalizing s with
  | nil =>
    refine ⟨cellsSpec_rfl s _, ?_, by simp [writeMembers], sameCursor_rfl s⟩
    intro r hr1 hr2
    simp only [List.length_nil, Nat.cast_zero, add_zero] at hr2
    exact absurd hr1 (not_le.2 hr2)
  | cons m rest ih =>
    simp only [writeMembers]
    obtain ⟨hspec, hex, hrow, hsc⟩ := writeMember_spec ci m s
    obtain ⟨ispec, icov, irow, isc⟩ := ih (writeMember ci m s)
    have hpi : (writeMember ci m s).partnerIdx = s.partnerIdx := hsc.2.2.2.2.2.2
    refine ⟨?_, ?_, ?_, sameCursor_trans hsc isc⟩
    · refine cellsSpec_trans (cellsSpec_mono ?_ hspec) (cellsSpec_mono ?_ ispec)
      · intro w hw
        refine blockCell_mono (sameCursor_rfl s) (le_refl _) ?_ hw
        simp only [List.length_cons]
        push_cast
        omega
      · intro w hw
        refine blockCell_mono hsc ?_ ?_ hw
        · rw [hrow]
          omega
        · rw [hrow]
          simp only [List.length_cons]
          push_cast
          omega
    · intro r hr1 hr2
      by_cases hr : r = s.row
      · subst hr
        obtain ⟨w, hmem, h1, h2, h3⟩ := hex
        exact ⟨w, cellsSpec_subset ispec w hmem, h1, h2, h3⟩
      · have h1 : (writeMember ci m s).row ≤ r := by rw [hrow]; omega
        have h2 : r < (writeMember ci m s).row + (rest.length : Int) := by
          rw [hrow]
          simp only [List.length_cons] at hr2
          push_cast at hr2 ⊢
          omega
        obtain ⟨w, hmem, w1, w2, w3⟩ := icov r h1 h2
        exact ⟨w, hmem, by rw [w1, hpi], w2, w3⟩
    · rw [irow, hrow]
      simp only [List.length_cons]
      push_cast
      ring

theorem writeProject_spec (ci pIdx : Nat) (p : Project) (s : FlowState) (seg : Seg) :
    CellsSpec s (writeProject ci pIdx p (s, seg)).1
      (BlockCell s (some ci) s.row (s.row + p.row_height - 1)) ∧
    (∀ r : Int, s.row ≤ r → r < s.row + p.row_height →
      ∃ w ∈ (writeProject ci pIdx p (s, seg)).1.cells,
        w.partnerIdx = s.partnerIdx ∧ w.clientIdx = some ci ∧ w.row = r) ∧
    (writeProject ci pIdx p (s, seg)).1.row = s.row + p.row_height ∧
    SameCursor s (writeProject ci pIdx p (s, seg)).1 ∧
    SameSegId seg (writeProject ci pIdx p (s, seg)).2 := by
  have e1 : (writeProject ci pIdx p (s, seg)).1
      = writeMembers ci p.members
          { writeCell
              (writeCell s s.row (colOf s COL_PROJECT) p.name
                CellTag.projectName (some ci))
              s.row (colOf s COL_GRADE) (toString p.count ++ countSuffix)
              CellTag.projectCount (some ci) with row := s.row + 1 } := rfl
  set s2 : FlowState :=
    { writeCell
        (writeCell s s.row (colOf s COL_PROJECT) p.name
          CellTag.projectName (some ci))
        s.row (colOf s COL_GRADE) (toString p.count ++ countSuffix)
        CellTag.projectCount (some ci) with row := s.row + 1 } with hs2
  have hsc2 : SameCursor s s2 := ⟨rfl, rfl, rfl, rfl, rfl, rfl, rfl⟩
  have hr2 : s2.row = s.row + 1 := rfl
  have hpre : CellsSpec s s2 (BlockCell s (some ci) s.row s.row) := by
    refine cellsSpec_trans
      (cellsSpec_writeCell s _ _ _ _ _
        ⟨rfl, rfl, rfl, rfl, rfl, le_refl _, le_refl _⟩)
      (cellsSpec_trans
        (cellsSpec_writeCell_of ⟨rfl, rfl, rfl, rfl, rfl, rfl, rfl⟩ _ _ _ _ _
          ⟨rfl, rfl, rfl, rfl, rfl, le_refl _, le_refl _⟩)
        (cellsSpec_of_cells_eq rfl _))
  obtain ⟨mspec, mcov, mrow, msc⟩ := writeMembers_spec ci p.members s2
  have hlen : s2.row + (p.members.length : Int) = s.row + p.row_height := by
    rw [hr2]
    simp only [Project.row_height, Project.count]
    ring
  refine ⟨?_, ?_, ?_, ?_, ?_⟩
  · rw [e1]
    refine cellsSpec_trans (cellsSpec_mono ?_ hpre) (cellsSpec_mono ?_ mspec)
    · intro w hw
      refine blockCell_mono (sameCursor_rfl s) (le_refl _) ?_ hw
      have : (0 : Int) ≤ (p.count : Int) := Int.natCast_nonneg _
      simp only [Project.row_height]
      omega
    · intro w hw
      refine blockCell_mono hsc2 ?_ ?_ hw
      · rw [hr2]; omega
      · omega
  · intro r hl hu
    rw [e1]
    by_cases hr : r = s.row
    · subst hr
      refine ⟨{ row := s.row, col := colOf s COL_PROJECT, value := p.name
                tag := CellTag.projectName, page := s.page, vcol := s.visual_col
                pageStart := s.page_start_row, partnerIdx := s.partnerIdx
                clientIdx := some ci }, ?_, rfl, rfl, rfl⟩
      refine cellsSpec_subset mspec _ ?_
      simp [hs2, writeCell]
    · have h1 : s2.row ≤ r := by rw [hr2]; omega
      have h2 : r < s2.row + (p.members.length : Int) := by rw [hlen]; exact hu
      obtain ⟨w, hmem, w1, w2, w3⟩ := mcov r h1 h2
      exact ⟨w, hmem, by rw [w1]; exact hsc2.2.2.2.2.2.2.symm ▸ rfl, w2, w3⟩
  · rw [e1, mrow, hlen]
  · rw [e1]
    exact sameCursor_trans hsc2 msc
  · by_cases h1 : 0 < pIdx <;> by_cases h2 : 2 ≤ p.count <;>
      by_cases h3 : 1 ≤ p.count <;>
      simp [writeProject, h1, h2, h3, SameSegId]

theorem project_row_height_pos (p : Project) : 1 ≤ p.row_height := by
  simp only [Project.row_height]
  omega

theorem projs_height_nonneg (ps : List Project) :
    0 ≤ (ps.map Project.row_height).sum := by
  induction ps with
  | nil => simp
  | cons p rest ih =>
    simp only [List.map_cons, List.sum_cons]
    have := project_row_height_pos p
    omega

theorem client_row_height_ge (c : Client) : 2 ≤ c.row_height := by
  simp only [Client.row_height]
  have := projs_height_nonneg c.projects
  omega

theorem sameSegId_rfl (seg : Seg) : SameSegId seg seg :=
  ⟨rfl, rfl, rfl, rfl, rfl, rfl⟩

theorem sameSegId_trans {sa sb sc : Seg} (h1 : SameSegId sa sb)
    (h2 : SameSegId sb sc) : SameSegId sa sc := by
  refine ⟨?_, ?_, ?_, ?_, ?_, ?_⟩
  · rw [h2.1, h1.1]
  · rw [h2.2.1, h1.2.1]
  · rw [h2.2.2.1, h1.2.2.1]
  · rw [h2.2.2.2.1, h1.2.2.2.1]
  · rw [h2.2.2.2.2.1, h1.2.2.2.2.1]
  · rw [h2.2.2.2.2.2, h1.2.2.2.2.2]

theorem writeProjects_spec (ci : Nat) (pIdx : Nat) (ps : List Project)
    (s : FlowState) (seg : Seg) :
    CellsSpec s (writeProjects ci pIdx ps (s, seg)).1
      (BlockCell s (some ci) s.row (s.row + (ps.map Project.row_height).sum - 1)) ∧
    (∀ r : Int, s.row ≤ r → r < s.row + (ps.map Project.row_height).sum →
      ∃ w ∈ (writeProjects ci pIdx ps (s, seg)).1.cells,
        w.partnerIdx = s.partnerIdx ∧ w.clientIdx = some ci ∧ w.row = r) ∧
    (writeProjects ci pIdx ps (s, seg)).1.row
      = s.row + (ps.map Project.row_height).sum ∧
    SameCursor s (writeProjects ci pIdx ps (s, seg)).1 ∧
    SameSegId seg (writeProjects ci pIdx ps (s, seg)).2 := by
  induction ps generalizing pIdx s seg with
  | nil =>
    refine ⟨cellsSpec_rfl s _, ?_, by simp [writeProjects], sameCursor_rfl s,
      sameSegId_rfl seg⟩
    intro r h1 h2
    simp only [List.map_nil, List.sum_nil, add_zero] at h2
    exact absurd h1 (not_le.2 h2)
  | cons p rest ih =>
    have epair : writeProjects ci pIdx (p :: rest) (s, seg)
        = writeProjects ci (pIdx + 1) rest
            ((writeProject ci pIdx p (s, seg)).1,
             (writeProject ci pIdx p (s, seg)).2) := rfl
    obtain ⟨hspec, hcov, hrow, hsc, hid⟩ := writeProject_spec ci pIdx p s seg
    obtain ⟨ispec, icov, irow, isc, iid⟩ :=
      ih (pIdx + 1) (writeProject ci pIdx p (s, seg)).1
        (writeProject ci pIdx p (s, seg)).2
    have hpi : (writeProject ci pIdx p (s, seg)).1.partnerIdx = s.partnerIdx :=
      hsc.2.2.2.2.2.2
    have hnn : 0 ≤ (rest.map Project.row_height).sum := projs_height_nonneg rest
    have hp1 : 1 ≤ p.row_height := project_row_height_pos p
    rw [epair]
    refine ⟨?_, ?_, ?_, sameCursor_trans hsc isc, sameSegId_trans hid iid⟩
    · refine cellsSpec_trans (cellsSpec_mono ?_ hspec) (cellsSpec_mono ?_ ispec)
      · intro w hw
        refine blockCell_mono (sameCursor_rfl s) (le_refl _) ?_ hw
        simp only [List.map_cons, List.sum_cons]
        omega
      · intro w hw
        refine blockCell_mono hsc ?_ ?_ hw
        · rw [hrow]; omega
        · rw [hrow]
          simp only [List.map_cons, List.sum_cons]
          omega
    · intro r h1 h2
      simp only [List.map_cons, List.sum_cons] at h2
      by_cases hr : r < s.row + p.row_height
      · obtain ⟨w, hmem, w1, w2, w3⟩ := hcov r h1 hr
        exact ⟨w, cellsSpec_subset ispec w hmem, w1, w2, w3⟩
      · have g1 : (writeProject ci pIdx p (s, seg)).1.row ≤ r := by
          rw [hrow]; omega
        have g2 : r < (writeProject ci pIdx p (s, seg)).1.row
            + (rest.map Project.row_height).sum := by
          rw [hrow]; omega
        obtain ⟨w, hmem, w1, w2, w3⟩ := icov r g1 g2
        exact ⟨w, hmem, by rw [w1]; exact hpi, w2, w3⟩
    · rw [irow, hrow]
      simp only [List.map_cons, List.sum_cons]
      ring

theorem writeClient_spec (ci : Nat) (c : Client) (s : FlowState) (seg : Seg) :
    CellsSpec s (writeClient ci c (s, seg)).1
      (BlockCell s (some ci) s.row (s.row + c.row_height - 1)) ∧
    (∀ r : Int, s.row ≤ r → r < s.row + c.row_height →
      ∃ w ∈ (writeClient ci c (s, seg)).1.cells,
        w.partnerIdx = s.partnerIdx ∧ w.clientIdx = some ci ∧ w.row = r) ∧
    (writeClient ci c (s, seg)).1.row = s.row + c.row_height ∧
    SameCursor s (writeClient ci c (s, seg)).1 ∧
    SameSegId seg (writeClient ci c (s, seg)).2 := by
  set segA : Seg :=
    (if seg.first_client = false
      then { seg with border_starts := (s.row, COL_CLIENT) :: seg.border_starts }
      else seg) with hsegA
  set s3 : FlowState :=
    { writeCell
        (writeCell s s.row (colOf s COL_CLIENT) c.name CellTag.clientName (some ci))
        (s.row + 1) (colOf s COL_GRADE) (toString c.count ++ countSuffix)
        CellTag.clientCount (some ci) with row := s.row + 2 } with hs3
  set segD : Seg :=
    { segA with
      first_client := false
      merged_rows := segA.merged_rows ++ [s.row]
      border_starts := (s.row + 2, COL_PROJECT) :: segA.border_starts } with hsegD
  have e1 : (writeClient ci c (s, seg)).1
      = (writeProjects ci 0 c.projects (s3, segD)).1 := rfl
  have e2 : (writeClient ci c (s, seg)).2
      = { (writeProjects ci 0 c.projects (s3, segD)).2 with
          client_vline_ranges :=
            (writeProjects ci 0 c.projects (s3, segD)).2.client_vline_ranges
              ++ [(s.row + 2, (writeProjects ci 0 c.projects (s3, segD)).1.row - 1)] } :=
    rfl
  have hsc3 : SameCursor s s3 := ⟨rfl, rfl, rfl, rfl, rfl, rfl, rfl⟩
  have hr3 : s3.row = s.row + 2 := rfl
  have hpre : CellsSpec s s3 (BlockCell s (some ci) s.row (s.row + 1)) := by
    refine cellsSpec_trans
      (cellsSpec_writeCell s _ _ _ _ _
        ⟨rfl, rfl, rfl, rfl, rfl, le_refl _, by
          show s.row ≤ s.row + 1
          omega⟩)
      (cellsSpec_trans
        (cellsSpec_writeCell_of ⟨rfl, rfl, rfl, rfl, rfl, rfl, rfl⟩ _ _ _ _ _
          ⟨rfl, rfl, rfl, rfl, rfl, by
            show s.row ≤ s.row + 1
            omega, le_refl _⟩)
        (cellsSpec_of_cells_eq rfl _))
  obtain ⟨pspec, pcov, prow, psc, pid⟩ := writeProjects_spec ci 0 c.projects s3 segD
  have hlen : s3.row + (c.projects.map Project.row_height).sum
      = s.row + c.row_height := by
    rw [hr3]
    simp only [Client.row_height]
    ring
  have hidAD : SameSegId seg segD := by
    by_cases hfc : seg.first_client = false <;>
      simp [hsegD, hsegA, hfc, SameSegId]
  refine ⟨?_, ?_, ?_, ?_, ?_⟩
  · rw [e1]
    refine cellsSpec_trans (cellsSpec_mono ?_ hpre) (cellsSpec_mono ?_ pspec)
    · intro w hw
      refine blockCell_mono (sameCursor_rfl s) (le_refl _) ?_ hw
      have := client_row_height_ge c
      omega
    · intro w hw
      refine blockCell_mono hsc3 ?_ ?_ hw
      · rw [hr3]; omega
      · rw [hlen]
  · intro r h1 h2
    rw [e1]
    by_cases hra : r = s.row
    · subst hra
      refine ⟨{ row := s.row, col := colOf s COL_CLIENT, value := c.name
                tag := CellTag.clientName, page := s.page, vcol := s.visual_col
                pageStart := s.page_start_row, partnerIdx := s.partnerIdx
                clientIdx := some ci }, ?_, rfl, rfl, rfl⟩
      refine cellsSpec_subset pspec _ ?_
      simp [hs3, writeCell]
    · by_cases hrb : r = s.row + 1
      · subst hrb
        refine ⟨{ row := s.row + 1, col := colOf s COL_GRADE
                  value := toString c.count ++ countSuffix
                  tag := CellTag.clientCount, page := s.page, vcol := s.visual_col
                  pageStart := s.page_start_row, partnerIdx := s.partnerIdx
                  clientIdx := some ci }, ?_, rfl, rfl, rfl⟩
        refine cellsSpec_subset pspec _ ?_
        simp [hs3, writeCell]
      · have g1 : s3.row ≤ r := by rw [hr3]; omega
        have g2 : r < s3.row + (c.projects.map Project.row_height).sum := by
          rw [hlen]; omega
        obtain ⟨w, hmem, w1, w2, w3⟩ := pcov r g1 g2
        exact ⟨w, hmem, by rw [w1]; exact hsc3.2.2.2.2.2.2, w2, w3⟩
  · rw [e1, prow, hlen]
  · rw [e1]
    exact sameCursor_trans hsc3 psc
  · rw [e2]
    exact sameSegId_trans hidAD (sameSegId_trans pid (sameSegId_rfl _))

theorem begin_segment_spec (partner : Partner) (dk : String) (s : FlowState) :
    CellsSpec s (begin_segment partner dk s).1
      (BlockCell s Option.none s.row (s.row + 1)) ∧
    (begin_segment partner dk s).1.row = s.row + 2 ∧
    SameCursor s (begin_segment partner dk s).1 ∧
    (begin_segment partner dk s).2.start_row = s.row ∧
    (begin_segment partner dk s).2.partner_row = s.row ∧
    (begin_segment partner dk s).2.col_base = colBase s ∧
    (begin_segment partner dk s).2.page = s.page ∧
    (begin_segment partner dk s).2.vcol = s.visual_col ∧
    (begin_segment partner dk s).2.partnerIdx = s.partnerIdx ∧
    (begin_segment partner dk s).2.border_starts = [(s.row + 2, COL_CLIENT)] ∧
    (begin_segment partner dk s).2.member_ranges = [] ∧
    (begin_segment partner dk s).2.merged_rows = [s.row] ∧
    (begin_segment partner dk s).2.placements = [] ∧
    (begin_segment partner dk s).2.first_client = true ∧
    SegHeaderCells (begin_segment partner dk s).1.cells (begin_segment partner dk s).2
      partner.display_name (salesLabel ++ dk)
      (toString partner.count ++ countSuffix) := by
  refine ⟨?_, rfl, ⟨rfl, rfl, rfl, rfl, rfl, rfl, rfl⟩, rfl, rfl, rfl, rfl, rfl,
    rfl, rfl, rfl, rfl, rfl, rfl, ?_, ?_, ?_⟩
  · refine cellsSpec_trans
      (cellsSpec_writeCell s _ _ _ _ _
        ⟨rfl, rfl, rfl, rfl, rfl, le_refl _, by
          show s.row ≤ s.row + 1
          omega⟩)
      (cellsSpec_trans
        (cellsSpec_writeCell_of ⟨rfl, rfl, rfl, rfl, rfl, rfl, rfl⟩ _ _ _ _ _
          ⟨rfl, rfl, rfl, rfl, rfl, le_refl _, by
            show s.row ≤ s.row + 1
            omega⟩)
        (cellsSpec_trans
          (cellsSpec_writeCell_of ⟨rfl, rfl, rfl, rfl, rfl, rfl, rfl⟩ _ _ _ _ _
            ⟨rfl, rfl, rfl, rfl, rfl, by
              show s.row ≤ s.row + 1
              omega, le_refl _⟩)
          (cellsSpec_of_cells_eq rfl _)))
  · exact ⟨{ row := s.row, col := colOf s COL_PARTNER
             value := partner.display_name, tag := CellTag.partnerName
             page := s.page, vcol := s.visual_col, pageStart := s.page_start_row
             partnerIdx := s.partnerIdx, clientIdx := Option.none },
      by simp [begin_segment, writeCell, colOf, colBase], rfl, rfl, rfl, rfl, rfl,
        rfl, rfl⟩
  · exact ⟨{ row := s.row, col := colOf s COL_GRADE
             value := salesLabel ++ dk, tag := CellTag.divisionInfo
             page := s.page, vcol := s.visual_col, pageStart := s.page_start_row
             partnerIdx := s.partnerIdx, clientIdx := Option.none },
      by simp [begin_segment, writeCell, colOf, colBase], rfl, rfl, rfl, rfl, rfl,
        rfl, rfl⟩
  · exact ⟨{ row := s.row + 1, col := colOf s COL_GRADE
             value := toString partner.count ++ countSuffix
             tag := CellTag.partnerCount
             page := s.page, vcol := s.visual_col, pageStart := s.page_start_row
             partnerIdx := s.partnerIdx, clientIdx := Option.none },
      by simp [begin_segment, writeCell, colOf, colBase], rfl, rfl, rfl, rfl, rfl,
        rfl, rfl⟩

theorem end_segment_eq (s : FlowState) (seg : Seg) (h : seg.start_row ≤ s.row - 1) :
    end_segment s seg
      = { s with segments :=
            s.segments ++ [{ seg := seg, end_row := s.row - 1 }] } := by
  unfold end_segment
  rw [if_neg (not_lt.2 h)]

theorem end_segment_cells (s : FlowState) (seg : Seg) :
    (end_segment s seg).cells = s.cells := by
  by_cases hg : s.row - 1 < seg.start_row <;> simp [end_segment, hg]

theorem end_segment_cursor (s : FlowState) (seg : Seg) :
    (end_segment s seg).row = s.row ∧
    (end_segment s seg).visual_col = s.visual_col ∧
    (end_segment s seg).page = s.page ∧
    (end_segment s seg).page_start_row = s.page_start_row ∧
    (end_segment s seg).page_max_row = s.page_max_row ∧
    (end_segment s seg).page_break_rows = s.page_break_rows ∧
    (end_segment s seg).partnerIdx = s.partnerIdx := by
  by_cases hg : s.row - 1 < seg.start_row <;> simp [end_segment, hg]

theorem end_segment_segments (s : FlowState) (seg : Seg) :
    ∃ S, (end_segment s seg).segments = s.segments ++ S ∧
      ∀ cs ∈ S, cs.seg = seg ∧ cs.end_row = s.row - 1 := by
  by_cases hg : s.row - 1 < seg.start_row
  · exact ⟨[], by simp [end_segment, hg], by simp⟩
  · refine ⟨[{ seg := seg, end_row := s.row - 1 }],
      by simp [end_segment, hg], ?_⟩
    intro cs hcs
    rw [List.mem_singleton] at hcs
    subst hcs
    exact ⟨rfl, rfl⟩

theorem next_column_frame (cfg : LayoutCfg) (s : FlowState) :
    (next_column cfg s).cells = s.cells ∧
    (next_column cfg s).segments = s.segments ∧
    (next_column cfg s).partnerIdx = s.partnerIdx ∧
    (next_column cfg s).row = (next_column cfg s).page_start_row := by
  by_cases hc : cfg.cols_per_page ≤ s.visual_col + 1 <;> simp [next_column, hc]

theorem ensure_fit_frame (cfg : LayoutCfg) (s : FlowState) (h : Int) :
    (ensure_fit cfg s h).cells = s.cells ∧
    (ensure_fit cfg s h).segments = s.segments ∧
    (ensure_fit cfg s h).partnerIdx = s.partnerIdx := by
  by_cases hc : can_fit cfg s h = true
  · simp [ensure_fit, hc]
  · rw [ensure_fit, if_neg hc]
    exact ⟨(next_column_frame cfg s).1, (next_column_frame cfg s).2.1,
      (next_column_frame cfg s).2.2.1⟩

/-- After `ensure_fit h` with `h ≤ max_rows`, the height `h` fits. -/
theorem ensure_fit_fits (cfg : LayoutCfg) (s : FlowState) (h : Int)
    (hh : h ≤ cfg.max_rows) :
    can_fit cfg (ensure_fit cfg s h) h = true := by
  by_cases hc : can_fit cfg s h = true
  · rw [ensure_fit, if_pos hc]
    exact hc
  · rw [ensure_fit, if_neg hc]
    have e := (next_column_frame cfg s).2.2.2
    simp only [can_fit, decide_eq_true_eq] at *
    rw [e]
    omega

theorem goodState_next_column (cfg : LayoutCfg) (s : FlowState)
    (h : GoodState cfg s) : GoodState cfg (next_column cfg s) := by
  obtain ⟨-, hcells⟩ := h
  refine ⟨le_of_eq (next_column_frame cfg s).2.2.2.symm, ?_⟩
  rw [(next_column_frame cfg s).1]
  exact hcells

theorem goodState_ensure_fit (cfg : LayoutCfg) (s : FlowState) (ht : Int)
    (h : GoodState cfg s) : GoodState cfg (ensure_fit cfg s ht) := by
  by_cases hc : can_fit cfg s ht = true
  · rw [ensure_fit, if_pos hc]
    exact h
  · rw [ensure_fit, if_neg hc]
    exact goodState_next_column cfg s h

theorem goodState_end_segment (cfg : LayoutCfg) (s : FlowState) (seg : Seg)
    (h : GoodState cfg s) : GoodState cfg (end_segment s seg) := by
  obtain ⟨h1, h2⟩ := h
  refine ⟨?_, ?_⟩
  · rw [(end_segment_cursor s seg).1, (end_segment_cursor s seg).2.2.2.1]
    exact h1
  · rw [end_segment_cells]
    exact h2

/-- Writing a block that fits preserves the capacity invariant. -/
theorem goodState_of_cellsSpec (cfg : LayoutCfg) {s s' : FlowState}
    (h : GoodState cfg s) {lo hi : Int} {ci : Option Nat}
    (hspec : CellsSpec s s' (BlockCell s ci lo hi))
    (hsc : SameCursor s s')
    (hlo : s.page_start_row ≤ lo)
    (hhi : hi ≤ s.page_start_row + cfg.max_rows - 1)
    (hrow : s.page_start_row ≤ s'.row) :
    GoodState cfg s' := by
  obtain ⟨h1, h2⟩ := h
  refine ⟨by rw [hsc.2.2.1]; exact hrow, ?_⟩
  intro w hw
  rcases cellsSpec_mem hspec w hw with hold | hnew
  · exact h2 w hold
  · obtain ⟨-, -, hps, -, -, hl, hh⟩ := hnew
    constructor
    · rw [hps]
      exact le_trans hlo hl
    · rw [hps]
      omega

theorem can_fit_iff (cfg : LayoutCfg) (s : FlowState) (h : Int) :
    can_fit cfg s h = true
      ↔ s.row + h - 1 ≤ s.page_start_row + cfg.max_rows - 1 := by
  simp [can_fit]

theorem goodState_writeClient (cfg : LayoutCfg) (ci : Nat) (c : Client)
    (s : FlowState) (seg : Seg) (hgood : GoodState cfg s)
    (hfit : can_fit cfg s c.row_height = true) :
    GoodState cfg (writeClient ci c (s, seg)).1 := by
  obtain ⟨cspec, -, crow, csc, -⟩ := writeClient_spec ci c s seg
  rw [can_fit_iff] at hfit
  have hrh := client_row_height_ge c
  refine goodState_of_cellsSpec cfg hgood cspec csc hgood.1 (by omega) ?_
  rw [crow]
  have := hgood.1
  omega

theorem goodState_begin_segment (cfg : LayoutCfg) (partner : Partner)
    (dk : String) (s : FlowState) (h : Int) (hgood : GoodState cfg s)
    (hh : 0 ≤ h)
    (hfits : can_fit cfg s (PARTNER_HEADER_ROWS + h) = true) :
    GoodState cfg (begin_segment partner dk s).1 := by
  obtain ⟨bspec, brow, bsc, -⟩ := begin_segment_spec partner dk s
  rw [can_fit_iff] at hfits
  simp only [PARTNER_HEADER_ROWS] at hfits
  refine goodState_of_cellsSpec cfg hgood bspec bsc hgood.1 (by omega) ?_
  rw [brow]
  have := hgood.1
  omega

theorem goodState_writeClients (cfg : LayoutCfg) (partner : Partner) (dk : String)
    (cs : List Client) (ci0 : Nat) (s : FlowState) (seg : Seg)
    (hfit : ∀ c ∈ cs, PARTNER_HEADER_ROWS + c.row_height ≤ cfg.max_rows)
    (hgood : GoodState cfg s) :
    GoodState cfg (writeClients cfg partner dk ci0 cs (s, seg)).1 := by
  induction cs generalizing ci0 s seg with
  | nil => exact hgood
  | cons c rest ih =>
    have hfc := hfit c (List.mem_cons_self c rest)
    have hfrest : ∀ c0 ∈ rest, PARTNER_HEADER_ROWS + c0.row_height ≤ cfg.max_rows :=
      fun c0 hc0 => hfit c0 (List.mem_cons_of_mem c hc0)
    simp only [writeClients]
    by_cases hcf : can_fit cfg s c.row_height = true
    · rw [if_pos hcf]
      have epair : writeClient ci0 c (s, seg)
          = ((writeClient ci0 c (s, seg)).1, (writeClient ci0 c (s, seg)).2) := rfl
      rw [epair]
      exact ih (ci0 + 1) _ _ hfrest (goodState_writeClient cfg ci0 c s seg hgood hcf)
    · rw [if_neg hcf]
      set t2 := next_column cfg (end_segment s seg) with ht2
      set t3 := ensure_fit cfg t2 (PARTNER_HEADER_ROWS + c.row_height) with ht3
      have g3 : GoodState cfg t3 :=
        goodState_ensure_fit cfg t2 _
          (goodState_next_column cfg _ (goodState_end_segment cfg s seg hgood))
      have hfits : can_fit cfg t3 (PARTNER_HEADER_ROWS + c.row_height) = true :=
        ensure_fit_fits cfg t2 _ hfc
      have g4 : GoodState cfg (begin_segment partner dk t3).1 := by
        refine goodState_begin_segment cfg partner dk t3 c.row_height g3 ?_ hfits
        have := client_row_height_ge c
        omega
      have hfit4 : can_fit cfg (begin_segment partner dk t3).1 c.row_height
          = true := by
        obtain ⟨-, brow, bsc, -⟩ := begin_segment_spec partner dk t3
        rw [can_fit_iff] at hfits ⊢
        simp only [PARTNER_HEADER_ROWS] at hfits
        rw [brow, bsc.2.2.1]
        omega
      have epair : writeClient ci0 c (begin_segment partner dk t3)
          = writeClient ci0 c
              ((begin_segment partner dk t3).1, (begin_segment partner dk t3).2) :=
        rfl
      rw [epair]
      have epair2 : writeClient ci0 c
            ((begin_segment partner dk t3).1, (begin_segment partner dk t3).2)
          = ((writeClient ci0 c
                ((begin_segment partner dk t3).1, (begin_segment partner dk t3).2)).1,
             (writeClient ci0 c
                ((begin_segment partner dk t3).1, (begin_segment partner dk t3).2)).2) :=
        rfl
      rw [epair2]
      exact ih (ci0 + 1) _ _ hfrest
        (goodState_writeClient cfg ci0 c _ _ g4 hfit4)

theorem goodState_row_bump (cfg : LayoutCfg) {es : FlowState}
    (h : GoodState cfg es) (k : Int) (hk : 0 ≤ k) (j : Nat) :
    GoodState cfg { es with row := es.row + k, partnerIdx := j } := by
  obtain ⟨h1, h2⟩ := h
  refine ⟨?_, ?_⟩
  · show es.page_start_row ≤ es.row + k
    omega
  · show ∀ w ∈ es.cells, _
    exact h2

theorem goodState_write_partner_clients (cfg : LayoutCfg) (p : Partner)
    (dk : String) (s : FlowState) (hmax : 2 ≤ cfg.max_rows)
    (hfit : ∀ c ∈ p.clients, PARTNER_HEADER_ROWS + c.row_height ≤ cfg.max_rows)
    (hgood : GoodState cfg s) :
    GoodState cfg (write_partner_clients cfg p dk s) := by
  set fh : Int := (match p.clients with
    | [] => (0 : Int)
    | c :: _ => c.row_height) with hfh0
  have hfh : 0 ≤ fh ∧ PARTNER_HEADER_ROWS + fh ≤ cfg.max_rows := by
    rw [hfh0]
    cases hc : p.clients with
    | nil =>
      show (0 : Int) ≤ 0 ∧ PARTNER_HEADER_ROWS + 0 ≤ cfg.max_rows
      simp only [PARTNER_HEADER_ROWS]
      omega
    | cons c rest =>
      show (0 : Int) ≤ c.row_height ∧
        PARTNER_HEADER_ROWS + c.row_height ≤ cfg.max_rows
      have h1 := hfit c (by rw [hc]; exact List.mem_cons_self c rest)
      have h2 := client_row_height_ge c
      exact ⟨by omega, h1⟩
  have g1 : GoodState cfg (ensure_fit cfg s (PARTNER_HEADER_ROWS + fh)) :=
    goodState_ensure_fit cfg s _ hgood
  have hfits1 := ensure_fit_fits cfg s (PARTNER_HEADER_ROWS + fh) hfh.2
  have g2 : GoodState cfg
      (begin_segment p dk (ensure_fit cfg s (PARTNER_HEADER_ROWS + fh))).1 :=
    goodState_begin_segment cfg p dk _ fh g1 hfh.1 hfits1
  have g3 : GoodState cfg (writeClients cfg p dk 0 p.clients
      ((begin_segment p dk (ensure_fit cfg s (PARTNER_HEADER_ROWS + fh))).1,
       (begin_segment p dk (ensure_fit cfg s (PARTNER_HEADER_ROWS + fh))).2)).1 :=
    goodState_writeClients cfg p dk p.clients 0 _ _ hfit g2
  have g4 := goodState_end_segment cfg _
    (writeClients cfg p dk 0 p.clients
      ((begin_segment p dk (ensure_fit cfg s (PARTNER_HEADER_ROWS + fh))).1,
       (begin_segment p dk (ensure_fit cfg s (PARTNER_HEADER_ROWS + fh))).2)).2 g3
  exact goodState_row_bump cfg g4 PARTNER_GAP_ROWS
    (by norm_num [PARTNER_GAP_ROWS]) _

theorem goodState_initState (cfg : LayoutCfg) : GoodState cfg initState := by
  constructor
  · exact le_refl _
  · intro w hw
    simp [initState] at hw

theorem goodState_layoutFlat (cfg : LayoutCfg) (ps : List (Partner × String))
    (s : FlowState) (hmax : 2 ≤ cfg.max_rows)
    (hfit : ∀ pc ∈ ps, ∀ c ∈ pc.1.clients,
      PARTNER_HEADER_ROWS + c.row_height ≤ cfg.max_rows)
    (hgood : GoodState cfg s) : GoodState cfg (layoutFlat cfg ps s) := by
  induction ps generalizing s with
  | nil => exact hgood
  | cons pc rest ih =>
    exact ih (write_partner_clients cfg pc.1 pc.2 s)
      (fun pc0 hpc0 => hfit pc0 (List.mem_cons_of_mem pc hpc0))
      (goodState_write_partner_clients cfg pc.1 pc.2 s hmax
        (hfit pc (List.mem_cons_self pc rest)) hgood)

theorem layoutFlat_append (cfg : LayoutCfg) (a b : List (Partner × String))
    (s : FlowState) :
    layoutFlat cfg (a ++ b) s = layoutFlat cfg b (layoutFlat cfg a s) :=
  List.foldl_append _ _ _ _

theorem layoutDivisions_eq (cfg : LayoutCfg) (divs : List Division) :
    layoutDivisions cfg divs = layoutFlat cfg (flatPartners divs) initState := by
  suffices h : ∀ (ds : List Division) (acc : List (Partner × String)) (s : FlowState),
      layoutFlat cfg (ds.foldl (fun a d => a ++ d.partners.map (fun p => (p, d.key))) acc) s
        = ds.foldl
            (fun s d => d.partners.foldl
              (fun s p => write_partner_clients cfg p d.key s) s)
            (layoutFlat cfg acc s) by
    exact (h divs [] initState).symm
  intro ds
  induction ds with
  | nil => intro acc s; rfl
  | cons d rest ih =>
    intro acc s
    simp only [List.foldl_cons]
    rw [ih, layoutFlat_append]
    congr 1
    show layoutFlat cfg (d.partners.map (fun p => (p, d.key))) (layoutFlat cfg acc s)
        = d.partners.foldl (fun s p => write_partner_clients cfg p d.key s)
            (layoutFlat cfg acc s)
    unfold layoutFlat
    rw [List.foldl_map]

theorem mem_flatPartners {divs : List Division} {pc : Partner × String}
    (h : pc ∈ flatPartners divs) :
    ∃ d ∈ divs, pc.1 ∈ d.partners ∧ pc.2 = d.key := by
  suffices hg : ∀ (ds : List Division) (acc : List (Partner × String)),
      pc ∈ ds.foldl (fun a d => a ++ d.partners.map (fun p => (p, d.key))) acc →
      pc ∈ acc ∨ ∃ d ∈ ds, pc.1 ∈ d.partners ∧ pc.2 = d.key by
    rcases hg divs [] h with hin | hin
    · simp at hin
    · exact hin
  intro ds
  induction ds with
  | nil => intro acc hacc; exact Or.inl hacc
  | cons d rest ih =>
    intro acc hacc
    rcases ih _ hacc with hin | ⟨d0, hd0, h1, h2⟩
    · rcases List.mem_append.1 hin with hin | hin
      · exact Or.inl hin
      · obtain ⟨p, hp, hpe⟩ := List.mem_map.1 hin
        refine Or.inr ⟨d, List.mem_cons_self d rest, ?_, ?_⟩
        · rw [← hpe]
          exact hp
        · rw [← hpe]
    · exact Or.inr ⟨d0, List.mem_cons_of_mem d hd0, h1, h2⟩

/-- The column-advance branch of the client loop (`_end_segment`,
`next_column`, `ensure_fit`, `_begin_segment`): the only cells it appends
are partner-header cells (`clientIdx = none`) of the same partner. -/
theorem prep_segment_spec (cfg : LayoutCfg) (partner : Partner) (dk : String)
    (s : FlowState) (seg : Seg) (h : Int) :
    CellsSpec s
      (begin_segment partner dk
        (ensure_fit cfg (next_column cfg (end_segment s seg)) h)).1
      (fun w => w.partnerIdx = s.partnerIdx ∧ w.clientIdx = Option.none) ∧
    (begin_segment partner dk
      (ensure_fit cfg (next_column cfg (end_segment s seg)) h)).1.partnerIdx
        = s.partnerIdx := by
  set t3 := ensure_fit cfg (next_column cfg (end_segment s seg)) h with ht3
  have hcells : t3.cells = s.cells := by
    rw [ht3, (ensure_fit_frame cfg _ h).1, (next_column_frame cfg _).1,
      end_segment_cells]
  have hpi : t3.partnerIdx = s.partnerIdx := by
    rw [ht3, (ensure_fit_frame cfg _ h).2.2, (next_column_frame cfg _).2.2.1,
      (end_segment_cursor s seg).2.2.2.2.2.2]
  obtain ⟨bspec, -, bsc, -⟩ := begin_segment_spec partner dk t3
  constructor
  · refine cellsSpec_trans (cellsSpec_of_cells_eq hcells _)
      (cellsSpec_mono ?_ bspec)
    intro w hw
    obtain ⟨-, -, -, w4, w5, -, -⟩ := hw
    exact ⟨by rw [w4, hpi], w5⟩
  · rw [bsc.2.2.2.2.2.2, hpi]

theorem writeClients_client_span (cfg : LayoutCfg) (partner : Partner)
    (dk : String) (cs : List Client) (ci0 : Nat) (s : FlowState) (seg : Seg)
    (hno : ∀ w ∈ s.cells, w.partnerIdx = s.partnerIdx →
      ∀ j, w.clientIdx = some j → j < ci0) :
    (writeClients cfg partner dk ci0 cs (s, seg)).1.partnerIdx = s.partnerIdx ∧
    CellsSpec s (writeClients cfg partner dk ci0 cs (s, seg)).1
      (fun w => w.partnerIdx = s.partnerIdx ∧
        (w.clientIdx = Option.none ∨ ∃ j, w.clientIdx = some j ∧ ci0 ≤ j)) ∧
    (∀ i : Nat, ∀ hi : i < cs.length,
      ∃ r0 : Int, ∃ pg vc : Nat,
        (∀ w ∈ (writeClients cfg partner dk ci0 cs (s, seg)).1.cells,
          w.partnerIdx = s.partnerIdx → w.clientIdx = some (ci0 + i) →
          w.page = pg ∧ w.vcol = vc ∧ r0 ≤ w.row ∧
          w.row ≤ r0 + (cs.get ⟨i, hi⟩).row_height - 1) ∧
        (∀ r : Int, r0 ≤ r → r ≤ r0 + (cs.get ⟨i, hi⟩).row_height - 1 →
          ∃ w ∈ (writeClients cfg partner dk ci0 cs (s, seg)).1.cells,
            w.partnerIdx = s.partnerIdx ∧ w.clientIdx = some (ci0 + i) ∧
            w.row = r)) := by
  induction cs generalizing ci0 s seg with
  | nil =>
    refine ⟨rfl, cellsSpec_rfl s _, ?_⟩
    intro i hi
    exact absurd hi (by simp)
  | cons c rest ih =>
    simp only [writeClients]
    -- the state from which the client is written, branch-independent facts
    have hprep : ∀ s1 : FlowState, ∀ seg1 : Seg,
        CellsSpec s s1 (fun w => w.partnerIdx = s.partnerIdx ∧
          w.clientIdx = Option.none) →
        s1.partnerIdx = s.partnerIdx →
        (writeClients cfg partner dk (ci0 + 1) rest
            (writeClient ci0 c (s1, seg1))).1.partnerIdx = s.partnerIdx ∧
        CellsSpec s (writeClients cfg partner dk (ci0 + 1) rest
            (writeClient ci0 c (s1, seg1))).1
          (fun w => w.partnerIdx = s.partnerIdx ∧
            (w.clientIdx = Option.none ∨ ∃ j, w.clientIdx = some j ∧ ci0 ≤ j)) ∧
        (∀ i : Nat, ∀ hi : i < (c :: rest).length,
          ∃ r0 : Int, ∃ pg vc : Nat,
            (∀ w ∈ (writeClients cfg partner dk (ci0 + 1) rest
                (writeClient ci0 c (s1, seg1))).1.cells,
              w.partnerIdx = s.partnerIdx → w.clientIdx = some (ci0 + i) →
              w.page = pg ∧ w.vcol = vc ∧ r0 ≤ w.row ∧
              w.row ≤ r0 + ((c :: rest).get ⟨i, hi⟩).row_height - 1) ∧
            (∀ r : Int, r0 ≤ r →
              r ≤ r0 + ((c :: rest).get ⟨i, hi⟩).row_height - 1 →
              ∃ w ∈ (writeClients cfg partner dk (ci0 + 1) rest
                  (writeClient ci0 c (s1, seg1))).1.cells,
                w.partnerIdx = s.partnerIdx ∧ w.clientIdx = some (ci0 + i) ∧
                w.row = r)) := by
      intro s1 seg1 hspec1 hpi1
      obtain ⟨cspec, ccov, crow, csc, -⟩ := writeClient_spec ci0 c s1 seg1
      have hpi2 : (writeClient ci0 c (s1, seg1)).1.partnerIdx = s.partnerIdx := by
        rw [csc.2.2.2.2.2.2, hpi1]
      have hno2 : ∀ w ∈ (writeClient ci0 c (s1, seg1)).1.cells,
          w.partnerIdx = (writeClient ci0 c (s1, seg1)).1.partnerIdx →
          ∀ j, w.clientIdx = some j → j < ci0 + 1 := by
        intro w hw hwpi j hj
        rcases cellsSpec_mem cspec w hw with hold | hnew
        · rcases cellsSpec_mem hspec1 w hold with holder | ⟨-, hnone⟩
          · have := hno w holder (by rw [hwpi, hpi2]) j hj
            omega
          · rw [hnone] at hj
            cases hj
        · obtain ⟨-, -, -, -, w5, -, -⟩ := hnew
          rw [w5] at hj
          have : j = ci0 := by
            injection hj with hj0
            exact hj0.symm
          omega
      have epair : writeClient ci0 c (s1, seg1)
          = ((writeClient ci0 c (s1, seg1)).1, (writeClient ci0 c (s1, seg1)).2) :=
        rfl
      rw [epair]
      obtain ⟨ipi, ispec, icov⟩ := ih (ci0 + 1)
        (writeClient ci0 c (s1, seg1)).1 (writeClient ci0 c (s1, seg1)).2 hno2
      have hpifin : (writeClients cfg partner dk (ci0 + 1) rest
          ((writeClient ci0 c (s1, seg1)).1,
           (writeClient ci0 c (s1, seg1)).2)).1.partnerIdx = s.partnerIdx := by
        rw [ipi, hpi2]
      refine ⟨hpifin, ?_, ?_⟩
      · refine cellsSpec_trans (cellsSpec_mono ?_ hspec1)
          (cellsSpec_trans (cellsSpec_mono ?_ cspec) (cellsSpec_mono ?_ ispec))
        · intro w hw
          exact ⟨hw.1, Or.inl hw.2⟩
        · intro w hw
          obtain ⟨-, -, -, w4, w5, -, -⟩ := hw
          exact ⟨by rw [w4, hpi1], Or.inr ⟨ci0, w5, le_refl ci0⟩⟩
        · intro w hw
          obtain ⟨w1, w2⟩ := hw
          refine ⟨by rw [w1, hpi2], ?_⟩
          rcases w2 with hn | ⟨j, hj, hjle⟩
          · exact Or.inl hn
          · exact Or.inr ⟨j, hj, by omega⟩
      · intro i hi
        cases i with
        | zero =>
          refine ⟨s1.row, s1.page, s1.visual_col, ?_, ?_⟩
          · intro w hw hwpi hwci
            rcases cellsSpec_mem ispec w hw with hold | hnew
            · rcases cellsSpec_mem cspec w hold with holder | hnewc
              · rcases cellsSpec_mem hspec1 w holder with holdest | ⟨-, hnone⟩
                · exfalso
                  have h0 := hno w holdest hwpi ci0 (by simpa using hwci)
                  omega
                · rw [hnone] at hwci
                  cases hwci
              · obtain ⟨w1, w2, -, -, -, w6, w7⟩ := hnewc
                simp only [List.get] at *
                exact ⟨w1, w2, w6, w7⟩
            · obtain ⟨-, hreg⟩ := hnew
              rcases hreg with hn | ⟨j, hj, hjle⟩
              · rw [hn] at hwci
                cases hwci
              · rw [hj] at hwci
                have : j = ci0 + 0 := by
                  injection hwci with h0
                have : ci0 + 1 ≤ j := hjle
                omega
          · intro r hr1 hr2
            simp only [List.get] at hr2
            obtain ⟨w, hmem, w1, w2, w3⟩ := ccov r hr1 (by omega)
            refine ⟨w, cellsSpec_subset ispec w hmem, by rw [w1, hpi1], ?_, w3⟩
            simpa using w2
        | succ i0 =>
          have hi0 : i0 < rest.length := by
            simpa using hi
          obtain ⟨r0, pg, vc, ha, hb⟩ := icov i0 hi0
          refine ⟨r0, pg, vc, ?_, ?_⟩
          · intro w hw hwpi hwci
            have e : ci0 + 1 + i0 = ci0 + (i0 + 1) := by omega
            exact ha w hw (by rw [hwpi, ← hpi2]) (by rw [hwci, e])
          · intro r hr1 hr2
            have e : ci0 + 1 + i0 = ci0 + (i0 + 1) := by omega
            obtain ⟨w, hmem, w1, w2, w3⟩ := hb r hr1 (by simpa using hr2)
            exact ⟨w, hmem, by rw [w1, hpi2], by rw [w2, e], w3⟩
    by_cases hcf : can_fit cfg s c.row_height = true
    · rw [if_pos hcf]
      exact hprep s seg (cellsSpec_rfl s _) rfl
    · rw [if_neg hcf]
      obtain ⟨pspec, ppi⟩ :=
        prep_segment_spec cfg partner dk s seg (PARTNER_HEADER_ROWS + c.row_height)
      have epair : begin_segment partner dk
            (ensure_fit cfg (next_column cfg (end_segment s seg))
              (PARTNER_HEADER_ROWS + c.row_height))
          = ((begin_segment partner dk
                (ensure_fit cfg (next_column cfg (end_segment s seg))
                  (PARTNER_HEADER_ROWS + c.row_height))).1,
             (begin_segment partner dk
                (ensure_fit cfg (next_column cfg (end_segment s seg))
                  (PARTNER_HEADER_ROWS + c.row_height))).2) := rfl
      rw [epair]
      exact hprep _ _ pspec ppi

theorem cellsSpec_congr {s s1 s2 : FlowState} {P : CellWrite → Prop}
    (h : CellsSpec s s1 P) (he : s2.cells = s1.cells) : CellsSpec s s2 P := by
  obtain ⟨L, e, p⟩ := h
  exact ⟨L, by rw [he, e], p⟩

theorem write_partner_clients_span (cfg : LayoutCfg) (p : Partner) (dk : String)
    (s : FlowState)
    (hno : ∀ w ∈ s.cells, w.partnerIdx < s.partnerIdx) :
    (write_partner_clients cfg p dk s).partnerIdx = s.partnerIdx + 1 ∧
    CellsSpec s (write_partner_clients cfg p dk s)
      (fun w => w.partnerIdx = s.partnerIdx) ∧
    ∀ i : Nat, ∀ hi : i < p.clients.length,
      ∃ r0 : Int, ∃ pg vc : Nat,
        (∀ w ∈ (write_partner_clients cfg p dk s).cells,
          w.partnerIdx = s.partnerIdx → w.clientIdx = some i →
          w.page = pg ∧ w.vcol = vc ∧ r0 ≤ w.row ∧
          w.row ≤ r0 + (p.clients.get ⟨i, hi⟩).row_height - 1) ∧
        (∀ r : Int, r0 ≤ r → r ≤ r0 + (p.clients.get ⟨i, hi⟩).row_height - 1 →
          ∃ w ∈ (write_partner_clients cfg p dk s).cells,
            w.partnerIdx = s.partnerIdx ∧ w.clientIdx = some i ∧ w.row = r) := by
  set fh : Int := (match p.clients with
    | [] => (0 : Int)
    | c :: _ => c.row_height) with hfh0
  set E := ensure_fit cfg s (PARTNER_HEADER_ROWS + fh) with hE
  have hEcells : E.cells = s.cells := (ensure_fit_frame cfg s _).1
  have hEpi : E.partnerIdx = s.partnerIdx := (ensure_fit_frame cfg s _).2.2
  obtain ⟨bspec, -, bsc, -⟩ := begin_segment_spec p dk E
  have hBpi : (begin_segment p dk E).1.partnerIdx = s.partnerIdx := by
    rw [bsc.2.2.2.2.2.2, hEpi]
  have hBspec : CellsSpec s (begin_segment p dk E).1
      (fun w => w.partnerIdx = s.partnerIdx ∧ w.clientIdx = Option.none) := by
    refine cellsSpec_trans (cellsSpec_of_cells_eq hEcells _)
      (cellsSpec_mono ?_ bspec)
    intro w hw
    obtain ⟨-, -, -, w4, w5, -, -⟩ := hw
    exact ⟨by rw [w4, hEpi], w5⟩
  have hno0 : ∀ w ∈ (begin_segment p dk E).1.cells,
      w.partnerIdx = (begin_segment p dk E).1.partnerIdx →
      ∀ j, w.clientIdx = some j → j < 0 := by
    intro w hw hwpi j hj
    rcases cellsSpec_mem hBspec w hw with hold | ⟨-, hnone⟩
    · exfalso
      have h1 := hno w hold
      rw [hwpi, hBpi] at h1
      exact lt_irrefl _ h1
    · rw [hnone] at hj
      cases hj
  obtain ⟨lpi, lspec, lcov⟩ := writeClients_client_span cfg p dk p.clients 0
    (begin_segment p dk E).1 (begin_segment p dk E).2 hno0
  have hcells : (write_partner_clients cfg p dk s).cells
      = (writeClients cfg p dk 0 p.clients
          ((begin_segment p dk E).1, (begin_segment p dk E).2)).1.cells := by
    have e0 : (write_partner_clients cfg p dk s).cells
        = (end_segment
            (writeClients cfg p dk 0 p.clients
              ((begin_segment p dk E).1, (begin_segment p dk E).2)).1
            (writeClients cfg p dk 0 p.clients
              ((begin_segment p dk E).1, (begin_segment p dk E).2)).2).cells := rfl
    rw [e0, end_segment_cells]
  have hpi : (write_partner_clients cfg p dk s).partnerIdx
      = s.partnerIdx + 1 := by
    have e0 : (write_partner_clients cfg p dk s).partnerIdx
        = (end_segment
            (writeClients cfg p dk 0 p.clients
              ((begin_segment p dk E).1, (begin_segment p dk E).2)).1
            (writeClients cfg p dk 0 p.clients
              ((begin_segment p dk E).1, (begin_segment p dk E).2)).2).partnerIdx
          + 1 := rfl
    rw [e0, (end_segment_cursor _ _).2.2.2.2.2.2, lpi, hBpi]
  refine ⟨hpi, ?_, ?_⟩
  · refine cellsSpec_congr ?_ hcells
    refine cellsSpec_trans (cellsSpec_mono ?_ hBspec) (cellsSpec_mono ?_ lspec)
    · exact fun w hw => hw.1
    · intro w hw
      rw [hw.1, hBpi]
  · intro i hi
    obtain ⟨r0, pg, vc, ha, hb⟩ := lcov i hi
    refine ⟨r0, pg, vc, ?_, ?_⟩
    · intro w hw hwpi hwci
      rw [hcells] at hw
      exact ha w hw (hwpi.trans hBpi.symm) (by simpa using hwci)
    · intro r hr1 hr2
      obtain ⟨w, hmem, w1, w2, w3⟩ := hb r hr1 hr2
      refine ⟨w, by rw [hcells]; exact hmem, w1.trans hBpi, by simpa using w2, w3⟩

theorem layoutFlat_span (cfg : LayoutCfg) (ps : List (Partner × String))
    (s : FlowState) (hno : ∀ w ∈ s.cells, w.partnerIdx < s.partnerIdx) :
    (layoutFlat cfg ps s).partnerIdx = s.partnerIdx + ps.length ∧
    CellsSpec s (layoutFlat cfg ps s) (fun w => s.partnerIdx ≤ w.partnerIdx) ∧
    ∀ k : Nat, ∀ hk : k < ps.length,
      ∀ i : Nat, ∀ hi : i < (ps.get ⟨k, hk⟩).1.clients.length,
      ∃ r0 : Int, ∃ pg vc : Nat,
        (∀ w ∈ (layoutFlat cfg ps s).cells,
          w.partnerIdx = s.partnerIdx + k → w.clientIdx = some i →
          w.page = pg ∧ w.vcol = vc ∧ r0 ≤ w.row ∧
          w.row ≤ r0 + ((ps.get ⟨k, hk⟩).1.clients.get ⟨i, hi⟩).row_height - 1) ∧
        (∀ r : Int, r0 ≤ r →
          r ≤ r0 + ((ps.get ⟨k, hk⟩).1.clients.get ⟨i, hi⟩).row_height - 1 →
          ∃ w ∈ (layoutFlat cfg ps s).cells,
            w.partnerIdx = s.partnerIdx + k ∧ w.clientIdx = some i ∧ w.row = r) := by
  induction ps generalizing s with
  | nil =>
    refine ⟨by simp [layoutFlat], cellsSpec_rfl s _, ?_⟩
    intro k hk
    exact absurd hk (by simp)
  | cons pc rest ih =>
    obtain ⟨ppi, pspec, pcov⟩ := write_partner_clients_span cfg pc.1 pc.2 s hno
    have hno1 : ∀ w ∈ (write_partner_clients cfg pc.1 pc.2 s).cells,
        w.partnerIdx < (write_partner_clients cfg pc.1 pc.2 s).partnerIdx := by
      intro w hw
      rw [ppi]
      rcases cellsSpec_mem pspec w hw with hold | hnew
      · have := hno w hold
        omega
      · rw [hnew]
        omega
    obtain ⟨ipi, ispec, icov⟩ := ih (write_partner_clients cfg pc.1 pc.2 s) hno1
    refine ⟨?_, ?_, ?_⟩
    · show (layoutFlat cfg rest (write_partner_clients cfg pc.1 pc.2 s)).partnerIdx
        = s.partnerIdx + (pc :: rest).length
      rw [ipi, ppi]
      simp only [List.length_cons]
      omega
    · refine cellsSpec_trans (cellsSpec_mono ?_ pspec) (cellsSpec_mono ?_ ispec)
      · intro w hw
        omega
      · intro w hw
        rw [ppi] at hw
        omega
    · intro k hk i hi
      cases k with
      | zero =>
        obtain ⟨r0, pg, vc, ha, hb⟩ := pcov i hi
        refine ⟨r0, pg, vc, ?_, ?_⟩
        · intro w hw hwpi hwci
          rcases cellsSpec_mem ispec w hw with hold | hnew
          · exact ha w hold (by simpa using hwpi) hwci
          · exfalso
            rw [ppi] at hnew
            simp only [add_zero] at hwpi
            omega
        · intro r hr1 hr2
          obtain ⟨w, hmem, w1, w2, w3⟩ := hb r hr1 hr2
          exact ⟨w, cellsSpec_subset ispec w hmem, by simpa using w1, w2, w3⟩
      | succ j =>
        have hj : j < rest.length := by simpa using hk
        obtain ⟨r0, pg, vc, ha, hb⟩ := icov j hj i hi
        refine ⟨r0, pg, vc, ?_, ?_⟩
        · intro w hw hwpi hwci
          refine ha w hw ?_ hwci
          rw [ppi]
          omega
        · intro r hr1 hr2
          obtain ⟨w, hmem, w1, w2, w3⟩ := hb r hr1 hr2
          refine ⟨w, hmem, ?_, w2, w3⟩
          rw [w1, ppi]
          omega

/-- C3: every Client placed by the engine is atomic: writing the `k`-th
partner (of the flattened division list), all cells of its `i`-th client
lie in a single visual column (one `(page, vcol)` pair), within the
contiguous row range `[r0, r0 + row_height - 1]`, and every row of that
range receives at least one cell — the client is never split across
columns. -/
theorem client_block_atomic (cfg : LayoutCfg) (divs : List Division)
    (k i : Nat) (hk : k < (flatPartners divs).length)
    (hi : i < ((flatPartners divs).get ⟨k, hk⟩).1.clients.length) :
    ∃ r0 : Int, ∃ pg vc : Nat,
      (∀ w ∈ (layoutDivisions cfg divs).cells,
        w.partnerIdx = k → w.clientIdx = some i →
        w.page = pg ∧ w.vcol = vc ∧ r0 ≤ w.row ∧
        w.row ≤ r0
          + (((flatPartners divs).get ⟨k, hk⟩).1.clients.get ⟨i, hi⟩).row_height
          - 1) ∧
      (∀ r : Int, r0 ≤ r →
        r ≤ r0
          + (((flatPartners divs).get ⟨k, hk⟩).1.clients.get ⟨i, hi⟩).row_height
          - 1 →
        ∃ w ∈ (layoutDivisions cfg divs).cells,
          w.partnerIdx = k ∧ w.clientIdx = some i ∧ w.row = r) := by
  have hno : ∀ w ∈ initState.cells, w.partnerIdx < initState.partnerIdx := by
    intro w hw
    simp [initState] at hw
  obtain ⟨-, -, hcov⟩ := layoutFlat_span cfg (flatPartners divs) initState hno
  obtain ⟨r0, pg, vc, ha, hb⟩ := hcov k hk i hi
  refine ⟨r0, pg, vc, ?_, ?_⟩
  · intro w hw hwpi hwci
    rw [layoutDivisions_eq] at hw
    exact ha w hw (by simpa [initState] using hwpi) hwci
  · intro r hr1 hr2
    obtain ⟨w, hmem, w1, w2, w3⟩ := hb r hr1 hr2
    rw [← layoutDivisions_eq] at hmem
    exact ⟨w, hmem, by simpa [initState] using w1, w2, w3⟩

theorem client_block_atomic_witness :
    ((0 : Nat) < (flatPartners [divSplit]).length ∧
      (1 : Nat) < ((flatPartners [divSplit]).getD 0 (partnerSplit, emptyStr)).1.clients.length) ∧
    ∃ r0 : Int, ∃ pg vc : Nat,
      (∀ w ∈ (layoutDivisions cfgTwoCol [divSplit]).cells,
        w.partnerIdx = 0 → w.clientIdx = some 1 →
        w.page = pg ∧ w.vcol = vc ∧ r0 ≤ w.row ∧
        w.row ≤ r0
          + (((flatPartners [divSplit]).get ⟨0, by decide⟩).1.clients.get
              ⟨1, by decide⟩).row_height
          - 1) ∧
      (∀ r : Int, r0 ≤ r →
        r ≤ r0
          + (((flatPartners [divSplit]).get ⟨0, by decide⟩).1.clients.get
              ⟨1, by decide⟩).row_height
          - 1 →
        ∃ w ∈ (layoutDivisions cfgTwoCol [divSplit]).cells,
          w.partnerIdx = 0 ∧ w.clientIdx = some 1 ∧ w.row = r) :=
  ⟨⟨by decide, by decide⟩,
    client_block_atomic cfgTwoCol [divSplit] 0 1 (by decide) (by decide)⟩

theorem segsSpec_rfl (s : FlowState) (P : ClosedSeg → Prop) : SegsSpec s s P :=
  ⟨[], by simp, by simp⟩

theorem segsSpec_of_eq {s s' : FlowState} (h : s'.segments = s.segments)
    (P : ClosedSeg → Prop) : SegsSpec s s' P :=
  ⟨[], by simp [h], by simp⟩

theorem segsSpec_trans {s1 s2 s3 : FlowState} {P : ClosedSeg → Prop}
    (h1 : SegsSpec s1 s2 P) (h2 : SegsSpec s2 s3 P) : SegsSpec s1 s3 P := by
  obtain ⟨L1, e1, p1⟩ := h1
  obtain ⟨L2, e2, p2⟩ := h2
  refine ⟨L1 ++ L2, by rw [e2, e1, List.append_assoc], ?_⟩
  intro cs hcs
  rcases List.mem_append.1 hcs with h | h
  · exact p1 cs h
  · exact p2 cs h

theorem segsSpec_mono {s s' : FlowState} {P Q : ClosedSeg → Prop}
    (hPQ : ∀ cs, P cs → Q cs) (h : SegsSpec s s' P) : SegsSpec s s' Q := by
  obtain ⟨L, e, p⟩ := h
  exact ⟨L, e, fun cs hcs => hPQ cs (p cs hcs)⟩

theorem segsSpec_subset {s s' : FlowState} {P : ClosedSeg → Prop}
    (h : SegsSpec s s' P) : ∀ cs ∈ s.segments, cs ∈ s'.segments := by
  obtain ⟨L, e, -⟩ := h
  intro cs hcs
  rw [e]
  exact List.mem_append_left _ hcs

theorem segsSpec_mem {s s' : FlowState} {P : ClosedSeg → Prop}
    (h : SegsSpec s s' P) : ∀ cs ∈ s'.segments, cs ∈ s.segments ∨ P cs := by
  obtain ⟨L, e, p⟩ := h
  intro cs hcs
  rw [e] at hcs
  rcases List.mem_append.1 hcs with h | h
  · exact Or.inl h
  · exact Or.inr (p cs h)

theorem segHeaderCells_mono {c1 c2 : List CellWrite} {seg : Seg}
    {nm dv ct : String} (hsub : ∀ w ∈ c1, w ∈ c2)
    (h : SegHeaderCells c1 seg nm dv ct) : SegHeaderCells c2 seg nm dv ct := by
  obtain ⟨⟨w1, m1, p1⟩, ⟨w2, m2, p2⟩, ⟨w3, m3, p3⟩⟩ := h
  exact ⟨⟨w1, hsub w1 m1, p1⟩, ⟨w2, hsub w2 m2, p2⟩, ⟨w3, hsub w3 m3, p3⟩⟩

theorem segHeaderCells_of_sameSegId {cells : List CellWrite} {seg seg' : Seg}
    {nm dv ct : String} (hid : SameSegId seg seg')
    (h : SegHeaderCells cells seg nm dv ct) :
    SegHeaderCells cells seg' nm dv ct := by
  obtain ⟨h1, h2, h3, h4, h5, h6⟩ := hid
  obtain ⟨⟨w1, m1, q1, q2, q3, q4, q5, q6, q7⟩,
    ⟨w2, m2, r1, r2, r3, r4, r5, r6, r7⟩,
    ⟨w3, m3, t1, t2, t3, t4, t5, t6, t7⟩⟩ := h
  refine ⟨⟨w1, m1, q1, ?_, ?_, ?_, ?_, ?_, q7⟩,
    ⟨w2, m2, r1, ?_, ?_, ?_, ?_, ?_, r7⟩,
    ⟨w3, m3, t1, ?_, ?_, ?_, ?_, ?_, t7⟩⟩ <;>
    simp only [h1, h2, h3, h4, h5, h6] <;> assumption

theorem inClosedSeg_mono {segs1 segs2 : List ClosedSeg} {k : Nat} {w : CellWrite}
    (hsub : ∀ cs ∈ segs1, cs ∈ segs2) (h : InClosedSeg segs1 k w) :
    InClosedSeg segs2 k w := by
  obtain ⟨cs, hm, hp⟩ := h
  exact ⟨cs, hsub cs hm, hp⟩

theorem writeClients_segments (cfg : LayoutCfg) (partner : Partner) (dk : String)
    (cs : List Client) (ci0 : Nat) (s : FlowState) (seg : Seg)
    (hb : seg.partnerIdx = s.partnerIdx ∧ seg.page = s.page ∧
      seg.vcol = s.visual_col ∧ seg.partner_row = seg.start_row ∧
      seg.start_row + 2 ≤ s.row)
    (hhdr : SegHeaderCells s.cells seg partner.display_name (salesLabel ++ dk)
      (toString partner.count ++ countSuffix))
    (ha : ∀ w ∈ s.cells, w.partnerIdx = s.partnerIdx → w.clientIdx.isSome = true →
      InClosedSeg s.segments s.partnerIdx w ∨
        (seg.page = w.page ∧ seg.vcol = w.vcol ∧
          seg.start_row ≤ w.row ∧ w.row ≤ s.row - 1))
    (hd : ∀ cs0 ∈ s.segments, cs0.seg.partnerIdx = s.partnerIdx →
      cs0.seg.partner_row = cs0.seg.start_row ∧
      SegHeaderCells s.cells cs0.seg partner.display_name (salesLabel ++ dk)
        (toString partner.count ++ countSuffix)) :
    (writeClients cfg partner dk ci0 cs (s, seg)).1.partnerIdx = s.partnerIdx ∧
    SegsSpec s (writeClients cfg partner dk ci0 cs (s, seg)).1
      (fun cs0 => cs0.seg.partnerIdx = s.partnerIdx) ∧
    CellsSpec s (writeClients cfg partner dk ci0 cs (s, seg)).1
      (fun w => w.partnerIdx = s.partnerIdx) ∧
    ((writeClients cfg partner dk ci0 cs (s, seg)).2.partnerIdx = s.partnerIdx ∧
      (writeClients cfg partner dk ci0 cs (s, seg)).2.page
        = (writeClients cfg partner dk ci0 cs (s, seg)).1.page ∧
      (writeClients cfg partner dk ci0 cs (s, seg)).2.vcol
        = (writeClients cfg partner dk ci0 cs (s, seg)).1.visual_col ∧
      (writeClients cfg partner dk ci0 cs (s, seg)).2.partner_row
        = (writeClients cfg partner dk ci0 cs (s, seg)).2.start_row ∧
      (writeClients cfg partner dk ci0 cs (s, seg)).2.start_row + 2
        ≤ (writeClients cfg partner dk ci0 cs (s, seg)).1.row) ∧
    SegHeaderCells (writeClients cfg partner dk ci0 cs (s, seg)).1.cells
      (writeClients cfg partner dk ci0 cs (s, seg)).2 partner.display_name
      (salesLabel ++ dk) (toString partner.count ++ countSuffix) ∧
    (∀ w ∈ (writeClients cfg partner dk ci0 cs (s, seg)).1.cells,
      w.partnerIdx = s.partnerIdx → w.clientIdx.isSome = true →
      InClosedSeg (writeClients cfg partner dk ci0 cs (s, seg)).1.segments
        s.partnerIdx w ∨
        ((writeClients cfg partner dk ci0 cs (s, seg)).2.page = w.page ∧
          (writeClients cfg partner dk ci0 cs (s, seg)).2.vcol = w.vcol ∧
          (writeClients cfg partner dk ci0 cs (s, seg)).2.start_row ≤ w.row ∧
          w.row ≤ (writeClients cfg partner dk ci0 cs (s, seg)).1.row - 1)) ∧
    (∀ cs0 ∈ (writeClients cfg partner dk ci0 cs (s, seg)).1.segments,
      cs0.seg.partnerIdx = s.partnerIdx →
      cs0.seg.partner_row = cs0.seg.start_row ∧
      SegHeaderCells (writeClients cfg partner dk ci0 cs (s, seg)).1.cells
        cs0.seg partner.display_name (salesLabel ++ dk)
        (toString partner.count ++ countSuffix)) := by
  induction cs generalizing ci0 s seg with
  | nil =>
    exact ⟨rfl, segsSpec_rfl s _, cellsSpec_rfl s _,
      ⟨hb.1, hb.2.1, hb.2.2.1, hb.2.2.2.1, hb.2.2.2.2⟩, hhdr, ha, hd⟩
  | cons c rest ih =>
    simp only [writeClients]
    have hstep : ∀ s1 : FlowState, ∀ seg1 : Seg,
        s1.partnerIdx = s.partnerIdx →
        (seg1.partnerIdx = s.partnerIdx ∧ seg1.page = s1.page ∧
          seg1.vcol = s1.visual_col ∧ seg1.partner_row = seg1.start_row ∧
          seg1.start_row + 2 ≤ s1.row) →
        SegHeaderCells s1.cells seg1 partner.display_name (salesLabel ++ dk)
          (toString partner.count ++ countSuffix) →
        (∀ w ∈ s1.cells, w.partnerIdx = s.partnerIdx →
          w.clientIdx.isSome = true →
          InClosedSeg s1.segments s.partnerIdx w ∨
            (seg1.page = w.page ∧ seg1.vcol = w.vcol ∧
              seg1.start_row ≤ w.row ∧ w.row ≤ s1.row - 1)) →
        (∀ cs0 ∈ s1.segments, cs0.seg.partnerIdx = s.partnerIdx →
          cs0.seg.partner_row = cs0.seg.start_row ∧
          SegHeaderCells s1.cells cs0.seg partner.display_name (salesLabel ++ dk)
            (toString partner.count ++ countSuffix)) →
        CellsSpec s s1 (fun w => w.partnerIdx = s.partnerIdx) →
        SegsSpec s s1 (fun cs0 => cs0.seg.partnerIdx = s.partnerIdx) →
        (writeClients cfg partner dk (ci0 + 1) rest
          (writeClient ci0 c (s1, seg1))).1.partnerIdx = s.partnerIdx ∧
        SegsSpec s (writeClients cfg partner dk (ci0 + 1) rest
            (writeClient ci0 c (s1, seg1))).1
          (fun cs0 => cs0.seg.partnerIdx = s.partnerIdx) ∧
        CellsSpec s (writeClients cfg partner dk (ci0 + 1) rest
            (writeClient ci0 c (s1, seg1))).1
          (fun w => w.partnerIdx = s.partnerIdx) ∧
        ((writeClients cfg partner dk (ci0 + 1) rest
            (writeClient ci0 c (s1, seg1))).2.partnerIdx = s.partnerIdx ∧
          (writeClients cfg partner dk (ci0 + 1) rest
            (writeClient ci0 c (s1, seg1))).2.page
            = (writeClients cfg partner dk (ci0 + 1) rest
                (writeClient ci0 c (s1, seg1))).1.page ∧
          (writeClients cfg partner dk (ci0 + 1) rest
            (writeClient ci0 c (s1, seg1))).2.vcol
            = (writeClients cfg partner dk (ci0 + 1) rest
                (writeClient ci0 c (s1, seg1))).1.visual_col ∧
          (writeClients cfg partner dk (ci0 + 1) rest
            (writeClient ci0 c (s1, seg1))).2.partner_row
            = (writeClients cfg partner dk (ci0 + 1) rest
                (writeClient ci0 c (s1, seg1))).2.start_row ∧
          (writeClients cfg partner dk (ci0 + 1) rest
            (writeClient ci0 c (s1, seg1))).2.start_row + 2
            ≤ (writeClients cfg partner dk (ci0 + 1) rest
                (writeClient ci0 c (s1, seg1))).1.row) ∧
        SegHeaderCells (writeClients cfg partner dk (ci0 + 1) rest
            (writeClient ci0 c (s1, seg1))).1.cells
          (writeClients cfg partner dk (ci0 + 1) rest
            (writeClient ci0 c (s1, seg1))).2 partner.display_name
          (salesLabel ++ dk) (toString partner.count ++ countSuffix) ∧
        (∀ w ∈ (writeClients cfg partner dk (ci0 + 1) rest
            (writeClient ci0 c (s1, seg1))).1.cells,
          w.partnerIdx = s.partnerIdx → w.clientIdx.isSome = true →
          InClosedSeg (writeClients cfg partner dk (ci0 + 1) rest
              (writeClient ci0 c (s1, seg1))).1.segments s.partnerIdx w ∨
            ((writeClients cfg partner dk (ci0 + 1) rest
                (writeClient ci0 c (s1, seg1))).2.page = w.page ∧
              (writeClients cfg partner dk (ci0 + 1) rest
                (writeClient ci0 c (s1, seg1))).2.vcol = w.vcol ∧
              (writeClients cfg partner dk (ci0 + 1) rest
                (writeClient ci0 c (s1, seg1))).2.start_row ≤ w.row ∧
              w.row ≤ (writeClients cfg partner dk (ci0 + 1) rest
                  (writeClient ci0 c (s1, seg1))).1.row - 1)) ∧
        (∀ cs0 ∈ (writeClients cfg partner dk (ci0 + 1) rest
            (writeClient ci0 c (s1, seg1))).1.segments,
          cs0.seg.partnerIdx = s.partnerIdx →
          cs0.seg.partner_row = cs0.seg.start_row ∧
          SegHeaderCells (writeClients cfg partner dk (ci0 + 1) rest
              (writeClient ci0 c (s1, seg1))).1.cells
            cs0.seg partner.display_name (salesLabel ++ dk)
            (toString partner.count ++ countSuffix)) := by
      intro s1 seg1 hpi1 hb1 hhdr1 ha1 hd1 hcspec1 hsspec1
      obtain ⟨cspec, -, crow, csc, cid⟩ := writeClient_spec ci0 c s1 seg1
      have hpi2 : (writeClient ci0 c (s1, seg1)).1.partnerIdx = s.partnerIdx := by
        rw [csc.2.2.2.2.2.2, hpi1]
      have hrh := client_row_height_ge c
      have hb2 : (writeClient ci0 c (s1, seg1)).2.partnerIdx
            = (writeClient ci0 c (s1, seg1)).1.partnerIdx ∧
          (writeClient ci0 c (s1, seg1)).2.page
            = (writeClient ci0 c (s1, seg1)).1.page ∧
          (writeClient ci0 c (s1, seg1)).2.vcol
            = (writeClient ci0 c (s1, seg1)).1.visual_col ∧
          (writeClient ci0 c (s1, seg1)).2.partner_row
            = (writeClient ci0 c (s1, seg1)).2.start_row ∧
          (writeClient ci0 c (s1, seg1)).2.start_row + 2
            ≤ (writeClient ci0 c (s1, seg1)).1.row := by
        obtain ⟨i1, i2, i3, i4, i5, i6⟩ := cid
        refine ⟨?_, ?_, ?_, ?_, ?_⟩
        · rw [i6, hb1.1, ← hpi1, csc.2.2.2.2.2.2]
        · rw [i4, hb1.2.1, csc.2.1]
        · rw [i5, hb1.2.2.1, csc.1]
        · rw [i3, i1, hb1.2.2.2.1]
        · rw [i1, crow]
          have := hb1.2.2.2.2
          omega
      have hhdr2 : SegHeaderCells (writeClient ci0 c (s1, seg1)).1.cells
          (writeClient ci0 c (s1, seg1)).2 partner.display_name
          (salesLabel ++ dk) (toString partner.count ++ countSuffix) :=
        segHeaderCells_of_sameSegId cid
          (segHeaderCells_mono (cellsSpec_subset cspec) hhdr1)
      have ha2 : ∀ w ∈ (writeClient ci0 c (s1, seg1)).1.cells,
          w.partnerIdx = s.partnerIdx → w.clientIdx.isSome = true →
          InClosedSeg (writeClient ci0 c (s1, seg1)).1.segments s.partnerIdx w ∨
            ((writeClient ci0 c (s1, seg1)).2.page = w.page ∧
              (writeClient ci0 c (s1, seg1)).2.vcol = w.vcol ∧
              (writeClient ci0 c (s1, seg1)).2.start_row ≤ w.row ∧
              w.row ≤ (writeClient ci0 c (s1, seg1)).1.row - 1) := by
        intro w hw hwpi hwci
        obtain ⟨i1, i2, i3, i4, i5, i6⟩ := cid
        have hsegeq : (writeClient ci0 c (s1, seg1)).1.segments = s1.segments :=
          csc.2.2.2.2.2.1
        rcases cellsSpec_mem cspec w hw with hold | hnew
        · rcases ha1 w hold hwpi hwci with hcl | hop
          · rw [hsegeq]
            exact Or.inl hcl
          · refine Or.inr ⟨by rw [i4, hop.1], by rw [i5, hop.2.1],
              by rw [i1]; exact hop.2.2.1, ?_⟩
            rw [crow]
            have := hop.2.2.2
            omega
        · obtain ⟨n1, n2, -, -, -, n6, n7⟩ := hnew
          refine Or.inr ⟨by rw [i4, hb1.2.1, n1], by rw [i5, hb1.2.2.1, n2],
            ?_, ?_⟩
          · rw [i1]
            have := hb1.2.2.2.2
            omega
          · rw [crow]
            omega
      have hd2 : ∀ cs0 ∈ (writeClient ci0 c (s1, seg1)).1.segments,
          cs0.seg.partnerIdx = s.partnerIdx →
          cs0.seg.partner_row = cs0.seg.start_row ∧
          SegHeaderCells (writeClient ci0 c (s1, seg1)).1.cells cs0.seg
            partner.display_name (salesLabel ++ dk)
            (toString partner.count ++ countSuffix) := by
        intro cs0 hcs0 hcpi
        rw [csc.2.2.2.2.2.1] at hcs0
        obtain ⟨x1, x2⟩ := hd1 cs0 hcs0 hcpi
        exact ⟨x1, segHeaderCells_mono (cellsSpec_subset cspec) x2⟩
      have epair : writeClient ci0 c (s1, seg1)
          = ((writeClient ci0 c (s1, seg1)).1,
             (writeClient ci0 c (s1, seg1)).2) := rfl
      rw [epair]
      have hb2' : (writeClient ci0 c (s1, seg1)).2.partnerIdx
            = (writeClient ci0 c (s1, seg1)).1.partnerIdx ∧
          (writeClient ci0 c (s1, seg1)).2.page
            = (writeClient ci0 c (s1, seg1)).1.page ∧
          (writeClient ci0 c (s1, seg1)).2.vcol
            = (writeClient ci0 c (s1, seg1)).1.visual_col ∧
          (writeClient ci0 c (s1, seg1)).2.partner_row
            = (writeClient ci0 c (s1, seg1)).2.start_row ∧
          (writeClient ci0 c (s1, seg1)).2.start_row + 2
            ≤ (writeClient ci0 c (s1, seg1)).1.row := hb2
      obtain ⟨opi, osegs, ocells, ob, ohdr, oa, od⟩ :=
        ih (ci0 + 1) (writeClient ci0 c (s1, seg1)).1
          (writeClient ci0 c (s1, seg1)).2
          (by
            refine ⟨?_, hb2'.2.1, hb2'.2.2.1, hb2'.2.2.2.1, hb2'.2.2.2.2⟩
            rw [hb2'.1])
          hhdr2
          (by
            intro w hw hwpi hwci
            rw [hpi2]
            exact ha2 w hw (by rw [hwpi, hpi2]) hwci)
          (by
            intro cs0 hcs0 hcpi
            exact hd2 cs0 hcs0 (by rw [hcpi, hpi2]))
      have hpif : (writeClients cfg partner dk (ci0 + 1) rest
          ((writeClient ci0 c (s1, seg1)).1,
           (writeClient ci0 c (s1, seg1)).2)).1.partnerIdx = s.partnerIdx := by
        rw [opi, hpi2]
      have hcell2 : CellsSpec s (writeClient ci0 c (s1, seg1)).1
          (fun w => w.partnerIdx = s.partnerIdx) := by
        refine cellsSpec_trans hcspec1 (cellsSpec_mono ?_ cspec)
        intro w hw
        obtain ⟨-, -, -, w4, -, -, -⟩ := hw
        rw [w4, hpi1]
      have hseg2 : SegsSpec s (writeClient ci0 c (s1, seg1)).1
          (fun cs0 => cs0.seg.partnerIdx = s.partnerIdx) := by
        refine segsSpec_trans hsspec1 (segsSpec_of_eq csc.2.2.2.2.2.1 _)
      refine ⟨hpif, ?_, ?_, ?_, ?_, ?_, ?_⟩
      · refine segsSpec_trans hseg2 (segsSpec_mono ?_ osegs)
        intro cs0 h0
        rw [h0, hpi2]
      · refine cellsSpec_trans hcell2 (cellsSpec_mono ?_ ocells)
        intro w h0
        rw [h0, hpi2]
      · refine ⟨?_, ob.2.1, ob.2.2.1, ob.2.2.2.1, ob.2.2.2.2⟩
        rw [ob.1, hpi2]
      · exact ohdr
      · intro w hw hwpi hwci
        rw [← hpi2]
        exact oa w hw (by rw [hwpi, ← hpi2]) hwci
      · intro cs0 hcs0 hcpi
        exact od cs0 hcs0 (by rw [hcpi, ← hpi2])
    by_cases hcf : can_fit cfg s c.row_height = true
    · rw [if_pos hcf]
      exact hstep s seg rfl hb hhdr ha hd (cellsSpec_rfl s _) (segsSpec_rfl s _)
    · rw [if_neg hcf]
      have hguard : seg.start_row ≤ s.row - 1 := by
        have := hb.2.2.2.2
        omega
      have hE1 := end_segment_eq s seg hguard
      set t3 := ensure_fit cfg (next_column cfg (end_segment s seg))
        (PARTNER_HEADER_ROWS + c.row_height) with ht3
      have ht3cells : t3.cells = s.cells := by
        rw [ht3, (ensure_fit_frame cfg _ _).1, (next_column_frame cfg _).1,
          end_segment_cells]
      have ht3segs : t3.segments
          = s.segments ++ [{ seg := seg, end_row := s.row - 1 }] := by
        rw [ht3, (ensure_fit_frame cfg _ _).2.1, (next_column_frame cfg _).2.1,
          hE1]
      have ht3pi : t3.partnerIdx = s.partnerIdx := by
        rw [ht3, (ensure_fit_frame cfg _ _).2.2, (next_column_frame cfg _).2.2.1,
          hE1]
      obtain ⟨bspec, brow, bsc, b1, b2, b3, b4, b5, b6, -, -, -, -, -, bhdr⟩ :=
        begin_segment_spec partner dk t3
      have hBpi : (begin_segment partner dk t3).1.partnerIdx = s.partnerIdx := by
        rw [bsc.2.2.2.2.2.2, ht3pi]
      have hBcells : CellsSpec s (begin_segment partner dk t3).1
          (fun w => w.partnerIdx = s.partnerIdx ∧ w.clientIdx = Option.none) := by
        refine cellsSpec_trans (cellsSpec_of_cells_eq ht3cells _)
          (cellsSpec_mono ?_ bspec)
        intro w hw
        obtain ⟨-, -, -, w4, w5, -, -⟩ := hw
        exact ⟨by rw [w4, ht3pi], w5⟩
      have hBsegs : (begin_segment partner dk t3).1.segments
          = s.segments ++ [{ seg := seg, end_row := s.row - 1 }] := by
        rw [bsc.2.2.2.2.2.1, ht3segs]
      have epairB : begin_segment partner dk t3
          = ((begin_segment partner dk t3).1,
             (begin_segment partner dk t3).2) := rfl
      rw [epairB]
      refine hstep (begin_segment partner dk t3).1 (begin_segment partner dk t3).2
        hBpi ⟨by rw [b6, ht3pi], by rw [b4, bsc.2.1], by rw [b5, bsc.1],
          by rw [b2, b1], by rw [b1, brow]⟩ bhdr ?_ ?_
        (cellsSpec_mono (fun w hw => hw.1) hBcells)
        (by
          refine ⟨[{ seg := seg, end_row := s.row - 1 }], hBsegs, ?_⟩
          intro cs0 hcs0
          rw [List.mem_singleton] at hcs0
          subst hcs0
          exact hb.1)
      · intro w hw hwpi hwci
        rcases cellsSpec_mem hBcells w hw with hold | ⟨-, hnone⟩
        · rcases ha w hold hwpi hwci with hcl | hop
          · left
            rw [hBsegs]
            exact inClosedSeg_mono (fun cs0 h0 => List.mem_append_left _ h0) hcl
          · left
            rw [hBsegs]
            refine ⟨{ seg := seg, end_row := s.row - 1 },
              List.mem_append_right _ (List.mem_singleton.2 rfl),
              hb.1, hop.1, hop.2.1, hop.2.2.1, hop.2.2.2⟩
        · rw [hnone] at hwci
          cases hwci
      · intro cs0 hcs0 hcpi
        rw [hBsegs] at hcs0
        rcases List.mem_append.1 hcs0 with hold | hnew
        · obtain ⟨x1, x2⟩ := hd cs0 hold hcpi
          refine ⟨x1, segHeaderCells_mono ?_ x2⟩
          intro w hw
          exact cellsSpec_subset hBcells w hw
        · rw [List.mem_singleton] at hnew
          subst hnew
          refine ⟨hb.2.2.2.1, segHeaderCells_mono ?_ hhdr⟩
          intro w hw
          exact cellsSpec_subset hBcells w hw

theorem write_partner_clients_segments (cfg : LayoutCfg) (p : Partner)
    (dk : String) (s : FlowState)
    (hno : ∀ w ∈ s.cells, w.partnerIdx < s.partnerIdx)
    (hnos : ∀ cs ∈ s.segments, cs.seg.partnerIdx < s.partnerIdx) :
    (write_partner_clients cfg p dk s).partnerIdx = s.partnerIdx + 1 ∧
    SegsSpec s (write_partner_clients cfg p dk s)
      (fun cs => cs.seg.partnerIdx = s.partnerIdx) ∧
    CellsSpec s (write_partner_clients cfg p dk s)
      (fun w => w.partnerIdx = s.partnerIdx) ∧
    (∀ w ∈ (write_partner_clients cfg p dk s).cells,
      w.partnerIdx = s.partnerIdx → w.clientIdx.isSome = true →
      InClosedSeg (write_partner_clients cfg p dk s).segments s.partnerIdx w) ∧
    (∀ cs ∈ (write_partner_clients cfg p dk s).segments,
      cs.seg.partnerIdx = s.partnerIdx →
      cs.seg.partner_row = cs.seg.start_row ∧
      SegHeaderCells (write_partner_clients cfg p dk s).cells cs.seg
        p.display_name (salesLabel ++ dk)
        (toString p.count ++ countSuffix)) := by
  set fh : Int := (match p.clients with
    | [] => (0 : Int)
    | c :: _ => c.row_height) with hfh0
  set E := ensure_fit cfg s (PARTNER_HEADER_ROWS + fh) with hE
  have hEcells : E.cells = s.cells := (ensure_fit_frame cfg s _).1
  have hEsegs : E.segments = s.segments := (ensure_fit_frame cfg s _).2.1
  have hEpi : E.partnerIdx = s.partnerIdx := (ensure_fit_frame cfg s _).2.2
  obtain ⟨bspec, brow, bsc, b1, b2, b3, b4, b5, b6, -, -, -, -, -, bhdr⟩ :=
    begin_segment_spec p dk E
  have hBpi : (begin_segment p dk E).1.partnerIdx = s.partnerIdx := by
    rw [bsc.2.2.2.2.2.2, hEpi]
  have hBsegs : (begin_segment p dk E).1.segments = s.segments := by
    rw [bsc.2.2.2.2.2.1, hEsegs]
  have hBcells : CellsSpec s (begin_segment p dk E).1
      (fun w => w.partnerIdx = s.partnerIdx ∧ w.clientIdx = Option.none) := by
    refine cellsSpec_trans (cellsSpec_of_cells_eq hEcells _)
      (cellsSpec_mono ?_ bspec)
    intro w hw
    obtain ⟨-, -, -, w4, w5, -, -⟩ := hw
    exact ⟨by rw [w4, hEpi], w5⟩
  obtain ⟨lpi, lsegs, lcells, lb, lhdr, la, ld⟩ :=
    writeClients_segments cfg p dk p.clients 0 (begin_segment p dk E).1
      (begin_segment p dk E).2
      ⟨by rw [b6, hEpi, ← hBpi], by rw [b4, bsc.2.1], by rw [b5, bsc.1],
        by rw [b2, b1], by rw [b1, brow]⟩
      bhdr
      (by
        intro w hw hwpi hwci
        rcases cellsSpec_mem hBcells w hw with hold | ⟨-, hnone⟩
        · exfalso
          have h1 := hno w hold
          rw [hwpi, hBpi] at h1
          exact lt_irrefl _ h1
        · rw [hnone] at hwci
          cases hwci)
      (by
        intro cs0 hcs0 hcpi
        rw [hBsegs] at hcs0
        exfalso
        have h1 := hnos cs0 hcs0
        rw [hcpi, hBpi] at h1
        exact lt_irrefl _ h1)
  set W := writeClients cfg p dk 0 p.clients
    ((begin_segment p dk E).1, (begin_segment p dk E).2) with hW
  have hguardW : W.2.start_row ≤ W.1.row - 1 := by
    have := lb.2.2.2.2
    omega
  have hFcells : (write_partner_clients cfg p dk s).cells = W.1.cells := by
    have e0 : (write_partner_clients cfg p dk s).cells
        = (end_segment W.1 W.2).cells := rfl
    rw [e0, end_segment_cells]
  have hFsegs : (write_partner_clients cfg p dk s).segments
      = W.1.segments ++ [{ seg := W.2, end_row := W.1.row - 1 }] := by
    have e0 : (write_partner_clients cfg p dk s).segments
        = (end_segment W.1 W.2).segments := rfl
    rw [e0, end_segment_eq W.1 W.2 hguardW]
  have hFpi : (write_partner_clients cfg p dk s).partnerIdx
      = s.partnerIdx + 1 := by
    have e0 : (write_partner_clients cfg p dk s).partnerIdx
        = (end_segment W.1 W.2).partnerIdx + 1 := rfl
    rw [e0, (end_segment_cursor _ _).2.2.2.2.2.2, lpi, hBpi]
  refine ⟨hFpi, ?_, ?_, ?_, ?_⟩
  · refine segsSpec_trans (segsSpec_of_eq hBsegs _)
      (segsSpec_trans (segsSpec_mono ?_ lsegs) ?_)
    · intro cs0 h0
      rw [h0, hBpi]
    · refine ⟨[{ seg := W.2, end_row := W.1.row - 1 }], hFsegs, ?_⟩
      intro cs0 hcs0
      rw [List.mem_singleton] at hcs0
      subst hcs0
      show W.2.partnerIdx = s.partnerIdx
      rw [lb.1, hBpi]
  · refine cellsSpec_congr ?_ hFcells
    refine cellsSpec_trans (cellsSpec_mono (fun w hw => hw.1) hBcells)
      (cellsSpec_mono ?_ lcells)
    intro w hw
    rw [hw, hBpi]
  · intro w hw hwpi hwci
    rw [hFcells] at hw
    rcases la w hw (by rw [hwpi, hBpi]) hwci with hcl | hop
    · rw [hFsegs]
      refine inClosedSeg_mono (fun cs0 h0 => List.mem_append_left _ h0) ?_
      rw [← hBpi]
      exact hcl
    · rw [hFsegs]
      refine ⟨{ seg := W.2, end_row := W.1.row - 1 },
        List.mem_append_right _ (List.mem_singleton.2 rfl), ?_,
        hop.1, hop.2.1, hop.2.2.1, hop.2.2.2⟩
      show W.2.partnerIdx = s.partnerIdx
      rw [lb.1, hBpi]
  · intro cs0 hcs0 hcpi
    rw [hFsegs] at hcs0
    rcases List.mem_append.1 hcs0 with hold | hnew
    · obtain ⟨x1, x2⟩ := ld cs0 hold (by rw [hcpi, hBpi])
      refine ⟨x1, ?_⟩
      rw [hFcells]
      exact x2
    · rw [List.mem_singleton] at hnew
      subst hnew
      refine ⟨lb.2.2.2.1, ?_⟩
      rw [hFcells]
      exact lhdr

theorem layoutFlat_segments (cfg : LayoutCfg) (ps : List (Partner × String))
    (s : FlowState)
    (hno : ∀ w ∈ s.cells, w.partnerIdx < s.partnerIdx)
    (hnos : ∀ cs ∈ s.segments, cs.seg.partnerIdx < s.partnerIdx) :
    (layoutFlat cfg ps s).partnerIdx = s.partnerIdx + ps.length ∧
    CellsSpec s (layoutFlat cfg ps s) (fun w => s.partnerIdx ≤ w.partnerIdx) ∧
    SegsSpec s (layoutFlat cfg ps s)
      (fun cs => s.partnerIdx ≤ cs.seg.partnerIdx) ∧
    ∀ k : Nat, ∀ hk : k < ps.length,
      (∀ w ∈ (layoutFlat cfg ps s).cells, w.partnerIdx = s.partnerIdx + k →
        w.clientIdx.isSome = true →
        InClosedSeg (layoutFlat cfg ps s).segments (s.partnerIdx + k) w) ∧
      (∀ cs ∈ (layoutFlat cfg ps s).segments,
        cs.seg.partnerIdx = s.partnerIdx + k →
        cs.seg.partner_row = cs.seg.start_row ∧
        SegHeaderCells (layoutFlat cfg ps s).cells cs.seg
          (ps.get ⟨k, hk⟩).1.display_name (salesLabel ++ (ps.get ⟨k, hk⟩).2)
          (toString (ps.get ⟨k, hk⟩).1.count ++ countSuffix)) := by
  induction ps generalizing s with
  | nil =>
    refine ⟨by simp [layoutFlat], cellsSpec_rfl s _, segsSpec_rfl s _, ?_⟩
    intro k hk
    exact absurd hk (by simp)
  | cons pc rest ih =>
    obtain ⟨ppi, psegs, pcells, pa, pd⟩ :=
      write_partner_clients_segments cfg pc.1 pc.2 s hno hnos
    have hno1 : ∀ w ∈ (write_partner_clients cfg pc.1 pc.2 s).cells,
        w.partnerIdx < (write_partner_clients cfg pc.1 pc.2 s).partnerIdx := by
      intro w hw
      rw [ppi]
      rcases cellsSpec_mem pcells w hw with hold | hnew
      · have := hno w hold
        omega
      · rw [hnew]
        omega
    have hnos1 : ∀ cs ∈ (write_partner_clients cfg pc.1 pc.2 s).segments,
        cs.seg.partnerIdx < (write_partner_clients cfg pc.1 pc.2 s).partnerIdx := by
      intro cs hcs
      rw [ppi]
      rcases segsSpec_mem psegs cs hcs with hold | hnew
      · have := hnos cs hold
        omega
      · rw [hnew]
        omega
    obtain ⟨ipi, icells, isegs, icov⟩ :=
      ih (write_partner_clients cfg pc.1 pc.2 s) hno1 hnos1
    refine ⟨?_, ?_, ?_, ?_⟩
    · show (layoutFlat cfg rest (write_partner_clients cfg pc.1 pc.2 s)).partnerIdx
        = s.partnerIdx + (pc :: rest).length
      rw [ipi, ppi]
      simp only [List.length_cons]
      omega
    · refine cellsSpec_trans (cellsSpec_mono ?_ pcells) (cellsSpec_mono ?_ icells)
      · intro w hw
        omega
      · intro w hw
        rw [ppi] at hw
        omega
    · refine segsSpec_trans (segsSpec_mono ?_ psegs) (segsSpec_mono ?_ isegs)
      · intro cs hcs
        omega
      · intro cs hcs
        rw [ppi] at hcs
        omega
    · intro k hk
      cases k with
      | zero =>
        constructor
        · intro w hw hwpi hwci
          rcases cellsSpec_mem icells w hw with hold | hnew
          · have h0 := pa w hold (by simpa using hwpi) hwci
            simp only [add_zero]
            exact inClosedSeg_mono (segsSpec_subset isegs) h0
          · exfalso
            rw [ppi] at hnew
            simp only [add_zero] at hwpi
            omega
        · intro cs hcs hcpi
          rcases segsSpec_mem isegs cs hcs with hold | hnew
          · obtain ⟨x1, x2⟩ := pd cs hold (by simpa using hcpi)
            refine ⟨x1, segHeaderCells_mono (cellsSpec_subset icells) ?_⟩
            exact x2
          · exfalso
            rw [ppi] at hnew
            simp only [add_zero] at hcpi
            omega
      | succ j =>
        have hj : j < rest.length := by simpa using hk
        obtain ⟨ja, jd⟩ := icov j hj
        constructor
        · intro w hw hwpi hwci
          have e : (write_partner_clients cfg pc.1 pc.2 s).partnerIdx + j
              = s.partnerIdx + (j + 1) := by
            rw [ppi]
            omega
          rw [← e] at hwpi ⊢
          exact ja w hw hwpi hwci
        · intro cs hcs hcpi
          have e : (write_partner_clients cfg pc.1 pc.2 s).partnerIdx + j
              = s.partnerIdx + (j + 1) := by
            rw [ppi]
            omega
          rw [← e] at hcpi
          exact jd cs hcs hcpi

/-- C4: whenever a Partner's clients span several visual columns, the
partner header is present at the top of each of them: every client cell of
the `k`-th partner lies inside one of that partner's closed segments (same
page and visual column), and every closed segment of that partner starts
at its `partner_row` and carries the three header cells — display name,
sales (territory) label, and total people count — at its top rows. -/
theorem partner_header_repeated (cfg : LayoutCfg) (divs : List Division)
    (k : Nat) (hk : k < (flatPartners divs).length) :
    (∀ w ∈ (layoutDivisions cfg divs).cells, w.partnerIdx = k →
      w.clientIdx.isSome = true →
      InClosedSeg (layoutDivisions cfg divs).segments k w) ∧
    (∀ cs ∈ (layoutDivisions cfg divs).segments, cs.seg.partnerIdx = k →
      cs.seg.partner_row = cs.seg.start_row ∧
      SegHeaderCells (layoutDivisions cfg divs).cells cs.seg
        ((flatPartners divs).get ⟨k, hk⟩).1.display_name
        (salesLabel ++ ((flatPartners divs).get ⟨k, hk⟩).2)
        (toString ((flatPartners divs).get ⟨k, hk⟩).1.count ++ countSuffix)) := by
  have hno : ∀ w ∈ initState.cells, w.partnerIdx < initState.partnerIdx := by
    intro w hw
    simp [initState] at hw
  have hnos : ∀ cs ∈ initState.segments,
      cs.seg.partnerIdx < initState.partnerIdx := by
    intro cs hcs
    simp [initState] at hcs
  obtain ⟨-, -, -, hcov⟩ :=
    layoutFlat_segments cfg (flatPartners divs) initState hno hnos
  obtain ⟨ja, jd⟩ := hcov k hk
  constructor
  · intro w hw hwpi hwci
    rw [layoutDivisions_eq] at hw ⊢
    have h0 := ja w hw (by simpa [initState] using hwpi) hwci
    simpa [initState] using h0
  · intro cs hcs hcpi
    rw [layoutDivisions_eq] at hcs ⊢
    exact jd cs hcs (by simpa [initState] using hcpi)

theorem partner_header_repeated_witness :
    ((0 : Nat) < (flatPartners [divSplit]).length) ∧
    ((∀ w ∈ (layoutDivisions cfgTwoCol [divSplit]).cells, w.partnerIdx = 0 →
      w.clientIdx.isSome = true →
      InClosedSeg (layoutDivisions cfgTwoCol [divSplit]).segments 0 w) ∧
    (∀ cs ∈ (layoutDivisions cfgTwoCol [divSplit]).segments,
      cs.seg.partnerIdx = 0 →
      cs.seg.partner_row = cs.seg.start_row ∧
      SegHeaderCells (layoutDivisions cfgTwoCol [divSplit]).cells cs.seg
        ((flatPartners [divSplit]).get ⟨0, by decide⟩).1.display_name
        (salesLabel ++ ((flatPartners [divSplit]).get ⟨0, by decide⟩).2)
        (toString ((flatPartners [divSplit]).get ⟨0, by decide⟩).1.count
          ++ countSuffix))) :=
  ⟨by decide, partner_header_repeated cfgTwoCol [divSplit] 0 (by decide)⟩

/-- C2, amended: provided the partner header alone fits a column
(`2 ≤ max_rows`) and every client fits a fresh column below a repeated
partner header (`PARTNER_HEADER_ROWS + row_height ≤ max_rows` — exactly
what the missing `ensure_fit` progress check would enforce), the capacity
invariant holds: every written cell lies between its page's content-start
row and at most `max_rows` rows into the column. -/
theorem capacity_invariant_of_fits (cfg : LayoutCfg) (divs : List Division)
    (hmax : 2 ≤ cfg.max_rows)
    (hfit : ∀ d ∈ divs, ∀ p ∈ d.partners, ∀ c ∈ p.clients,
      PARTNER_HEADER_ROWS + c.row_height ≤ cfg.max_rows) :
    ∀ w ∈ (layoutDivisions cfg divs).cells,
      w.pageStart ≤ w.row ∧ w.row - w.pageStart + 1 ≤ cfg.max_rows := by
  have hg : GoodState cfg (layoutDivisions cfg divs) := by
    rw [layoutDivisions_eq]
    refine goodState_layoutFlat cfg (flatPartners divs) initState hmax ?_
      (goodState_initState cfg)
    intro pc hpc c hc
    obtain ⟨d, hd, hp, -⟩ := mem_flatPartners hpc
    exact hfit d hd pc.1 hp c hc
  exact hg.2

theorem capacity_invariant_witness :
    (2 ≤ cfgMain.max_rows ∧
      ∀ d ∈ [divThree], ∀ p ∈ d.partners, ∀ c ∈ p.clients,
        PARTNER_HEADER_ROWS + c.row_height ≤ cfgMain.max_rows) ∧
    ∀ w ∈ (layoutDivisions cfgMain [divThree]).cells,
      w.pageStart ≤ w.row ∧ w.row - w.pageStart + 1 ≤ cfgMain.max_rows :=
  ⟨⟨by decide, by decide⟩,
    capacity_invariant_of_fits cfgMain [divThree] (by decide) (by decide)⟩

/-! #### Border-bookkeeping infrastructure (C6) -/

theorem lookupBS_cons_self (bs : List (Int × Int)) (k v : Int) :
    lookupBS ((k, v) :: bs) k = some v := by
  simp [lookupBS]

theorem lookupBS_cons_ne (bs : List (Int × Int)) (k v r : Int) (h : k ≠ r) :
    lookupBS ((k, v) :: bs) r = lookupBS bs r := by
  simp [lookupBS, List.find?_cons, h]

theorem lookupBS_foldl_keys (ks : List Int) (v : Int) (bs : List (Int × Int))
    (r : Int) :
    lookupBS (ks.foldl (fun bs2 mr => (mr, v) :: bs2) bs) r
      = if r ∈ ks then some v else lookupBS bs r := by
  induction ks generalizing bs with
  | nil => simp
  | cons k ks ih =>
    simp only [List.foldl_cons]
    rw [ih ((k, v) :: bs)]
    by_cases h1 : r ∈ ks
    · simp [h1]
    · by_cases h2 : r = k
      · subst h2
        simp [h1, lookupBS_cons_self]
      · simp only [List.mem_cons, h1, h2, or_self, if_false]
        exact lookupBS_cons_ne bs k v r (Ne.symm h2)

theorem mem_foldl_keys {ks : List Int} {v : Int} {bs : List (Int × Int)} :
    ∀ e ∈ ks.foldl (fun bs2 mr => (mr, v) :: bs2) bs,
      e ∈ bs ∨ (e.1 ∈ ks ∧ e.2 = v) := by
  induction ks generalizing bs with
  | nil => exact fun e he => Or.inl he
  | cons k ks ih =>
    intro e he
    simp only [List.foldl_cons] at he
    rcases ih e he with hin | ⟨h1, h2⟩
    · rcases List.mem_cons.1 hin with h0 | h0
      · subst h0
        exact Or.inr ⟨List.mem_cons_self _ _, rfl⟩
      · exact Or.inl h0
    · exact Or.inr ⟨List.mem_cons_of_mem _ h1, h2⟩

theorem mem_intRange {a b r : Int} : r ∈ intRange a b ↔ a ≤ r ∧ r ≤ b := by
  rw [intRange]
  constructor
  · intro hr
    obtain ⟨j, hj, rfl⟩ := List.mem_map.1 hr
    rw [List.mem_range] at hj
    omega
  · intro h
    obtain ⟨h1, h2⟩ := h
    refine List.mem_map.2 ⟨(r - a).toNat, List.mem_range.2 ?_, ?_⟩
    · omega
    · omega

theorem is_member_pair_append (a b : Int) (ranges : List (Int × Int))
    (fl : Int × Int) :
    is_member_pair a b (ranges ++ [fl])
      = (is_member_pair a b ranges
          || decide (fl.1 ≤ a ∧ a ≤ fl.2 ∧ fl.1 ≤ b ∧ b ≤ fl.2)) := by
  simp [is_member_pair, List.any_append]

theorem is_member_pair_true {a b : Int} {ranges : List (Int × Int)} {f l : Int}
    (hm : (f, l) ∈ ranges) (h1 : f ≤ a) (h2 : a ≤ l) (h3 : f ≤ b) (h4 : b ≤ l) :
    is_member_pair a b ranges = true := by
  simp only [is_member_pair, List.any_eq_true]
  exact ⟨(f, l), hm, by simp [h1, h2, h3, h4]⟩

theorem is_member_pair_false {a b : Int} {ranges : List (Int × Int)}
    (h : ∀ fl ∈ ranges, ¬(fl.1 ≤ a ∧ a ≤ fl.2 ∧ fl.1 ≤ b ∧ b ≤ fl.2)) :
    is_member_pair a b ranges = false := by
  simp only [is_member_pair, List.any_eq_false, decide_eq_true_eq]
  exact h

/-- `SegInv` depends only on the member ranges, the border starts and the
placements of the segment. -/
theorem segInv_fields {seg sg : Seg} {row : Int}
    (hm : sg.member_ranges = seg.member_ranges)
    (hb : sg.border_starts = seg.border_starts)
    (hp : sg.placements = seg.placements)
    (h : SegInv seg row) : SegInv sg row := by
  obtain ⟨h1, h2, h3⟩ := h
  refine ⟨?_, ?_, ?_⟩
  · rw [hm]
    exact h1
  · rw [hb]
    exact h2
  · rw [hp, hb, hm]
    exact h3

/-- Inserting a border start at a key at or beyond the cursor preserves
the segment invariant (the recorded placements only look up keys strictly
below the cursor). -/
theorem segInv_insert {seg : Seg} {row : Int} (h : SegInv seg row)
    (k v rw2 : Int) (hk1 : row ≤ k) (hk2 : k ≤ rw2) (hle : row ≤ rw2) :
    SegInv { seg with border_starts := (k, v) :: seg.border_starts } rw2 := by
  obtain ⟨h1, h2, h3⟩ := h
  refine ⟨?_, ?_, ?_⟩
  · intro fl hfl
    exact ⟨(h1 fl hfl).1, lt_of_lt_of_le (h1 fl hfl).2 hle⟩
  · intro e he
    rcases List.mem_cons.1 he with h0 | h0
    · subst h0
      exact hk2
    · exact le_trans (h2 e h0) hle
  · intro pl hpl
    obtain ⟨ha, hb⟩ := h3 pl hpl
    refine ⟨lt_of_lt_of_le ha hle, fun hc => ?_⟩
    obtain ⟨e1, e2, e3, e4, e5⟩ := hb hc
    have hcp : (2 : Int) ≤ (pl.count : Int) := by exact_mod_cast hc
    refine ⟨e1, ?_, ?_, e4, e5⟩
    · rw [lookupBS_cons_ne _ _ _ _ (by omega)]
      exact e2
    · intro r hr1 hr2
      rw [lookupBS_cons_ne _ _ _ _ (by omega)]
      exact e3 r hr1 hr2

theorem projSegUpdate_placements (seg : Seg) (r l : Int) (pIdx cnt : Nat) :
    (projSegUpdate seg r l pIdx cnt).placements
      = seg.placements ++
        [{ projRow := r, firstMemberRow := r + 1
           lastMemberRow := l, count := cnt }] := by
  by_cases hp : 0 < pIdx <;> by_cases h2 : 2 ≤ cnt <;> by_cases h1 : 1 ≤ cnt <;>
    simp [projSegUpdate, hp, h2, h1]

/-- Effect of the member-range bookkeeping of one project (at least two
members) on the segment invariant. -/
theorem segInv_step2 {seg1 : Seg} {row : Int} (h1 : SegInv seg1 row) {cnt : Nat}
    (hcnt : 2 ≤ cnt) :
    SegInv
      { seg1 with
        member_ranges := seg1.member_ranges ++ [(row + 1, row + (cnt : Int))]
        border_starts :=
          (intRange (row + 1 + 1) (row + (cnt : Int))).foldl
            (fun bs mr => (mr, COL_NAME) :: bs)
            ((row + 1, COL_NAME) :: seg1.border_starts)
        placements := seg1.placements ++
          [{ projRow := row, firstMemberRow := row + 1
             lastMemberRow := row + (cnt : Int), count := cnt }] }
      (row + (cnt : Int) + 1) := by
  obtain ⟨h1a, h1b, h1c⟩ := h1
  have hc2 : (2 : Int) ≤ (cnt : Int) := by exact_mod_cast hcnt
  refine ⟨?_, ?_, ?_⟩
  · intro fl hfl
    rcases List.mem_append.1 hfl with h0 | h0
    · exact ⟨(h1a fl h0).1, by have := (h1a fl h0).2; omega⟩
    · rw [List.mem_singleton] at h0
      subst h0
      exact ⟨by show row + 1 ≤ row + (cnt : Int); omega,
        by show row + (cnt : Int) < row + (cnt : Int) + 1; omega⟩
  · intro e he
    rcases mem_foldl_keys e he with h0 | h0
    · rcases List.mem_cons.1 h0 with h2 | h2
      · subst h2
        show row + 1 ≤ row + (cnt : Int) + 1
        omega
      · have := h1b e h2
        omega
    · have := mem_intRange.1 h0.1
      omega
  · intro pl hpl
    rcases List.mem_append.1 hpl with h0 | h0
    · obtain ⟨ha, hb⟩ := h1c pl h0
      refine ⟨by omega, fun hc => ?_⟩
      obtain ⟨e1, e2, e3, e4, e5⟩ := hb hc
      have hcp : (2 : Int) ≤ (pl.count : Int) := by exact_mod_cast hc
      refine ⟨e1, ?_, ?_, ?_, ?_⟩
      · have hnotin : pl.firstMemberRow ∉ intRange (row + 1 + 1) (row + (cnt : Int)) := by
          intro hmem
          have := mem_intRange.1 hmem
          omega
        rw [lookupBS_foldl_keys, if_neg hnotin,
          lookupBS_cons_ne _ _ _ _ (by omega)]
        exact e2
      · intro r hr1 hr2
        have hnotin : r ∉ intRange (row + 1 + 1) (row + (cnt : Int)) := by
          intro hmem
          have := mem_intRange.1 hmem
          omega
        rw [lookupBS_foldl_keys, if_neg hnotin,
          lookupBS_cons_ne _ _ _ _ (by omega)]
        exact e3 r hr1 hr2
      · exact List.mem_append.2 (Or.inl e4)
      · rw [is_member_pair_append, e5, Bool.false_or]
        apply decide_eq_false
        rintro ⟨q1, -, -, -⟩
        have q1n : row + 1 ≤ pl.firstMemberRow - 1 := q1
        omega
    · rw [List.mem_singleton] at h0
      subst h0
      refine ⟨by show row + (cnt : Int) < row + (cnt : Int) + 1; omega,
        fun hcc => ?_⟩
      refine ⟨?_, ?_, ?_, ?_, ?_⟩
      · show row + (cnt : Int) = row + 1 + (cnt : Int) - 1
        omega
      · show lookupBS
            ((intRange (row + 1 + 1) (row + (cnt : Int))).foldl
              (fun bs mr => (mr, COL_NAME) :: bs)
              ((row + 1, COL_NAME) :: seg1.border_starts)) (row + 1)
            = some COL_NAME
        have hnotin : row + 1 ∉ intRange (row + 1 + 1) (row + (cnt : Int)) := by
          intro hmem
          have := mem_intRange.1 hmem
          omega
        rw [lookupBS_foldl_keys, if_neg hnotin, lookupBS_cons_self]
      · intro r hr1 hr2
        have hr1n : row + 1 + 1 ≤ r := hr1
        have hr2n : r ≤ row + (cnt : Int) := hr2
        show lookupBS
            ((intRange (row + 1 + 1) (row + (cnt : Int))).foldl
              (fun bs mr => (mr, COL_NAME) :: bs)
              ((row + 1, COL_NAME) :: seg1.border_starts)) r
            = some COL_NAME
        rw [lookupBS_foldl_keys, if_pos (mem_intRange.2 ⟨hr1n, hr2n⟩)]
      · exact List.mem_append.2 (Or.inr (List.mem_singleton.2 rfl))
      · show is_member_pair (row + 1 - 1) (row + 1)
            (seg1.member_ranges ++ [(row + 1, row + (cnt : Int))]) = false
        apply is_member_pair_false
        intro fl hfl
        rcases List.mem_append.1 hfl with hm | hm
        · rintro ⟨-, -, -, q4⟩
          have := (h1a fl hm).2
          omega
        · rw [List.mem_singleton] at hm
          subst hm
          rintro ⟨q1, -, -, -⟩
          have q1n : row + 1 ≤ row + 1 - 1 := q1
          omega

/-- Effect of one project with at most one member on the segment
invariant (only the name-column border start and the placement are
added). -/
theorem segInv_step2_small {seg1 : Seg} {row : Int} (h1 : SegInv seg1 row)
    (cnt : Nat) (hcnt : ¬ 2 ≤ cnt) :
    SegInv
      { seg1 with
        border_starts := (row + 1, COL_NAME) :: seg1.border_starts
        placements := seg1.placements ++
          [{ projRow := row, firstMemberRow := row + 1
             lastMemberRow := row + (cnt : Int), count := cnt }] }
      (row + (cnt : Int) + 1) := by
  obtain ⟨h1a, h1b, h1c⟩ := h1
  refine ⟨?_, ?_, ?_⟩
  · intro fl hfl
    exact ⟨(h1a fl hfl).1, by have := (h1a fl hfl).2; omega⟩
  · intro e he
    rcases List.mem_cons.1 he with h0 | h0
    · subst h0
      show row + 1 ≤ row + (cnt : Int) + 1
      omega
    · have := h1b e h0
      omega
  · intro pl hpl
    rcases List.mem_append.1 hpl with h0 | h0
    · obtain ⟨ha, hb⟩ := h1c pl h0
      refine ⟨by omega, fun hc => ?_⟩
      obtain ⟨e1, e2, e3, e4, e5⟩ := hb hc
      have hcp : (2 : Int) ≤ (pl.count : Int) := by exact_mod_cast hc
      refine ⟨e1, ?_, ?_, e4, e5⟩
      · rw [lookupBS_cons_ne _ _ _ _ (by omega)]
        exact e2
      · intro r hr1 hr2
        rw [lookupBS_cons_ne _ _ _ _ (by omega)]
        exact e3 r hr1 hr2
    · rw [List.mem_singleton] at h0
      subst h0
      refine ⟨?_, fun hc => absurd hc hcnt⟩
      show row + (cnt : Int) < row + (cnt : Int) + 1
      omega

/-- The full segment-side effect of one `writeProject` iteration
preserves the segment invariant, moving the cursor from the project row
to one past the last member row. -/
theorem segInv_projSegUpdate {seg : Seg} {row : Int} (h : SegInv seg row)
    (pIdx cnt : Nat) :
    SegInv (projSegUpdate seg row (row + (cnt : Int)) pIdx cnt)
      (row + (cnt : Int) + 1) := by
  by_cases hp : 0 < pIdx
  · have h1 := segInv_insert h row COL_PROJECT row (le_refl row) (le_refl row)
      (le_refl row)
    by_cases hcnt : 2 ≤ cnt
    · have h1cnt : 1 ≤ cnt := by omega
      refine segInv_fields ?_ ?_ ?_ (segInv_step2 h1 hcnt) <;>
        simp [projSegUpdate, hp, hcnt, h1cnt]
    · by_cases h1cnt : 1 ≤ cnt
      · refine segInv_fields ?_ ?_ ?_ (segInv_step2_small h1 cnt hcnt) <;>
          simp [projSegUpdate, hp, hcnt, h1cnt]
      · refine segInv_fields ?_ ?_ ?_ (segInv_step2_small h1 cnt hcnt) <;>
          simp [projSegUpdate, hp, hcnt, h1cnt]
  · by_cases hcnt : 2 ≤ cnt
    · have h1cnt : 1 ≤ cnt := by omega
      refine segInv_fields ?_ ?_ ?_ (segInv_step2 h hcnt) <;>
        simp [projSegUpdate, hp, hcnt, h1cnt]
    · by_cases h1cnt : 1 ≤ cnt
      · refine segInv_fields ?_ ?_ ?_ (segInv_step2_small h cnt hcnt) <;>
          simp [projSegUpdate, hp, hcnt, h1cnt]
      · refine segInv_fields ?_ ?_ ?_ (segInv_step2_small h cnt hcnt) <;>
          simp [projSegUpdate, hp, hcnt, h1cnt]

/-- The segment component of `writeProject` is exactly `projSegUpdate`
at the project row, with the last member row `row + count`. -/
theorem writeProject_seg (ci pIdx : Nat) (p : Project) (s : FlowState)
    (seg : Seg) :
    (writeProject ci pIdx p (s, seg)).2
      = projSegUpdate seg s.row (s.row + (p.count : Int)) pIdx p.count := by
  set s2 : FlowState :=
    { writeCell
        (writeCell s s.row (colOf s COL_PROJECT) p.name
          CellTag.projectName (some ci))
        s.row (colOf s COL_GRADE) (toString p.count ++ countSuffix)
        CellTag.projectCount (some ci) with row := s.row + 1 } with hs2
  have e0 : (writeProject ci pIdx p (s, seg)).2
      = projSegUpdate seg s.row ((writeMembers ci p.members s2).row - 1)
          pIdx p.count := rfl
  rw [e0, (writeMembers_spec ci p.members s2).2.2.1]
  have e2 : s2.row = s.row + 1 := rfl
  rw [e2]
  have e3 : s.row + 1 + (p.members.length : Int) - 1 = s.row + (p.count : Int) := by
    have h0 : p.count = p.members.length := rfl
    rw [h0]
    omega
  rw [e3]

/-- The project loop preserves the segment invariant and appends the
member counts of the written projects to the recorded placements. -/
theorem writeProjects_sib (ci : Nat) (ps : List Project) (pIdx : Nat)
    (s : FlowState) (seg : Seg) (h : SegInv seg s.row) :
    SegInv (writeProjects ci pIdx ps (s, seg)).2
      (writeProjects ci pIdx ps (s, seg)).1.row ∧
    (writeProjects ci pIdx ps (s, seg)).2.placements.map (fun pl => pl.count)
      = seg.placements.map (fun pl => pl.count) ++ ps.map Project.count := by
  induction ps generalizing pIdx s seg with
  | nil => exact ⟨h, by simp [writeProjects]⟩
  | cons p rest ih =>
    simp only [writeProjects]
    have hrow : (writeProject ci pIdx p (s, seg)).1.row = s.row + p.row_height :=
      (writeProject_spec ci pIdx p s seg).2.2.1
    have hseg2 : (writeProject ci pIdx p (s, seg)).2
        = projSegUpdate seg s.row (s.row + (p.count : Int)) pIdx p.count :=
      writeProject_seg ci pIdx p s seg
    have hinv : SegInv (writeProject ci pIdx p (s, seg)).2
        (writeProject ci pIdx p (s, seg)).1.row := by
      have e : (writeProject ci pIdx p (s, seg)).1.row
          = s.row + (p.count : Int) + 1 := by
        rw [hrow]
        simp only [Project.row_height]
        ring
      rw [hseg2, e]
      exact segInv_projSegUpdate h pIdx p.count
    have hpair : writeProject ci pIdx p (s, seg)
        = ((writeProject ci pIdx p (s, seg)).1,
           (writeProject ci pIdx p (s, seg)).2) := rfl
    rw [hpair]
    obtain ⟨ha, hb⟩ := ih (pIdx + 1) (writeProject ci pIdx p (s, seg)).1
      (writeProject ci pIdx p (s, seg)).2 hinv
    refine ⟨ha, ?_⟩
    rw [hb, hseg2, projSegUpdate_placements]
    simp [Project.count]

/-- One client write preserves the segment invariant and appends the
member counts of the client's projects. -/
theorem writeClient_sib (ci : Nat) (c : Client) (s : FlowState) (seg : Seg)
    (h : SegInv seg s.row) :
    SegInv (writeClient ci c (s, seg)).2 (writeClient ci c (s, seg)).1.row ∧
    (writeClient ci c (s, seg)).2.placements.map (fun pl => pl.count)
      = seg.placements.map (fun pl => pl.count)
        ++ c.projects.map Project.count := by
  set segA : Seg :=
    (if seg.first_client = false
      then { seg with border_starts := (s.row, COL_CLIENT) :: seg.border_starts }
      else seg) with hsegA
  set s3 : FlowState :=
    { writeCell
        (writeCell s s.row (colOf s COL_CLIENT) c.name CellTag.clientName
          (some ci))
        (s.row + 1) (colOf s COL_GRADE) (toString c.count ++ countSuffix)
        CellTag.clientCount (some ci) with row := s.row + 2 } with hs3
  set segD : Seg :=
    { segA with
      first_client := false
      merged_rows := segA.merged_rows ++ [s.row]
      border_starts := (s.row + 2, COL_PROJECT) :: segA.border_starts } with hsegD
  have e2 : (writeClient ci c (s, seg)).2.placements
      = (writeProjects ci 0 c.projects (s3, segD)).2.placements := rfl
  have e3 : (writeClient ci c (s, seg)).2.member_ranges
      = (writeProjects ci 0 c.projects (s3, segD)).2.member_ranges := rfl
  have e4 : (writeClient ci c (s, seg)).2.border_starts
      = (writeProjects ci 0 c.projects (s3, segD)).2.border_starts := rfl
  have hA : SegInv segA s.row := by
    rw [hsegA]
    split
    · exact segInv_insert h s.row COL_CLIENT s.row (le_refl s.row)
        (le_refl s.row) (le_refl s.row)
    · exact h
  have hD : SegInv segD (s.row + 2) := by
    refine segInv_fields ?_ ?_ ?_
      (segInv_insert hA (s.row + 2) COL_PROJECT (s.row + 2) (by omega)
        (le_refl (s.row + 2)) (by omega))
    · rfl
    · rfl
    · rfl
  obtain ⟨pinv, pcnt⟩ := writeProjects_sib ci c.projects 0 s3 segD hD
  refine ⟨segInv_fields e3 e4 e2 pinv, ?_⟩
  rw [e2, pcnt]
  have e5 : segD.placements = seg.placements := by
    rw [hsegD, hsegA]
    by_cases hfc : seg.first_client = false <;> simp [hfc]
  rw [e5]

/-- A closed segment whose bookkeeping satisfies `SegInv` resolves its
member-row boundaries as Scenario D requires. -/
theorem segSibOK_of_segInv {seg : Seg} {row : Int} (h : SegInv seg row)
    (er : Int) : SegSibOK { seg := seg, end_row := er } := by
  intro pl hpl hc
  obtain ⟨-, -, h3⟩ := h
  obtain ⟨-, hb⟩ := h3 pl hpl
  obtain ⟨e1, e2, e3, e4, e5⟩ := hb hc
  have hcp : (2 : Int) ≤ (pl.count : Int) := by exact_mod_cast hc
  refine ⟨e1, ?_, ?_⟩
  · intro off hoff
    have hres : resolve_h_border pl.firstMemberRow off seg.member_ranges
        seg.border_starts
        = if off < COL_NAME then SideStyle.none
          else if is_member_pair (pl.firstMemberRow - 1) pl.firstMemberRow
              seg.member_ranges
          then SideStyle.hair else SideStyle.thin := by
      unfold resolve_h_border
      rw [e2]
    show resolve_h_border pl.firstMemberRow off seg.member_ranges
        seg.border_starts = SideStyle.thin
    rw [hres, if_neg (not_lt.2 hoff), e5]
    simp
  · intro off r hoff hr1 hr2
    have hm : is_member_pair (r - 1) r seg.member_ranges = true :=
      is_member_pair_true e4 (by omega) (by omega) (by omega) (by omega)
    have hres : resolve_h_border r off seg.member_ranges seg.border_starts
        = if off < COL_NAME then SideStyle.none
          else if is_member_pair (r - 1) r seg.member_ranges
          then SideStyle.hair else SideStyle.thin := by
      unfold resolve_h_border
      rw [e3 r hr1 hr2]
    show resolve_h_border r off seg.member_ranges seg.border_starts
        = SideStyle.hair
    rw [hres, if_neg (not_lt.2 hoff), hm]
    simp

/-- The client loop: the open segment keeps its invariant, every closed
segment satisfies the Scenario D property, and the project counts of the
written clients are appended (split between the closed segments and the
still-open segment). -/
theorem writeClients_sib (cfg : LayoutCfg) (partner : Partner) (dk : String)
    (cs : List Client) (ci0 : Nat) (s : FlowState) (seg : Seg)
    (hinv : SegInv seg s.row)
    (hstart : seg.start_row + 2 ≤ s.row)
    (hok : ∀ z ∈ s.segments, SegSibOK z) :
    SegInv (writeClients cfg partner dk ci0 cs (s, seg)).2
      (writeClients cfg partner dk ci0 cs (s, seg)).1.row ∧
    (writeClients cfg partner dk ci0 cs (s, seg)).2.start_row + 2
      ≤ (writeClients cfg partner dk ci0 cs (s, seg)).1.row ∧
    (∀ z ∈ (writeClients cfg partner dk ci0 cs (s, seg)).1.segments,
      SegSibOK z) ∧
    ((writeClients cfg partner dk ci0 cs (s, seg)).1.segments.map
          segCounts).flatten
        ++ (writeClients cfg partner dk ci0 cs (s, seg)).2.placements.map
            (fun pl => pl.count)
      = (s.segments.map segCounts).flatten
          ++ seg.placements.map (fun pl => pl.count)
          ++ (cs.map clientProjectCounts).flatten := by
  induction cs generalizing ci0 s seg with
  | nil =>
    refine ⟨hinv, hstart, hok, ?_⟩
    simp [writeClients]
  | cons c rest ih =>
    simp only [writeClients]
    have hstep : ∀ s1 : FlowState, ∀ seg1 : Seg,
        SegInv seg1 s1.row →
        seg1.start_row + 2 ≤ s1.row →
        (∀ z ∈ s1.segments, SegSibOK z) →
        ((s1.segments.map segCounts).flatten
            ++ seg1.placements.map (fun pl => pl.count)
          = (s.segments.map segCounts).flatten
              ++ seg.placements.map (fun pl => pl.count)) →
        (SegInv (writeClients cfg partner dk (ci0 + 1) rest
            (writeClient ci0 c (s1, seg1))).2
          (writeClients cfg partner dk (ci0 + 1) rest
            (writeClient ci0 c (s1, seg1))).1.row ∧
        (writeClients cfg partner dk (ci0 + 1) rest
            (writeClient ci0 c (s1, seg1))).2.start_row + 2
          ≤ (writeClients cfg partner dk (ci0 + 1) rest
              (writeClient ci0 c (s1, seg1))).1.row ∧
        (∀ z ∈ (writeClients cfg partner dk (ci0 + 1) rest
            (writeClient ci0 c (s1, seg1))).1.segments, SegSibOK z) ∧
        ((writeClients cfg partner dk (ci0 + 1) rest
              (writeClient ci0 c (s1, seg1))).1.segments.map
              segCounts).flatten
            ++ (writeClients cfg partner dk (ci0 + 1) rest
                (writeClient ci0 c (s1, seg1))).2.placements.map
                (fun pl => pl.count)
          = (s.segments.map segCounts).flatten
              ++ seg.placements.map (fun pl => pl.count)
              ++ ((c :: rest).map clientProjectCounts).flatten) := by
      intro s1 seg1 hinv1 hstart1 hok1 heq1
      obtain ⟨cinv, ccnt⟩ := writeClient_sib ci0 c s1 seg1 hinv1
      obtain ⟨-, -, crow, csc, cid⟩ := writeClient_spec ci0 c s1 seg1
      have hrh := client_row_height_ge c
      have hstart2 : (writeClient ci0 c (s1, seg1)).2.start_row + 2
          ≤ (writeClient ci0 c (s1, seg1)).1.row := by
        rw [cid.1, crow]
        omega
      have hok2 : ∀ z ∈ (writeClient ci0 c (s1, seg1)).1.segments,
          SegSibOK z := by
        rw [csc.2.2.2.2.2.1]
        exact hok1
      have epair : writeClient ci0 c (s1, seg1)
          = ((writeClient ci0 c (s1, seg1)).1,
             (writeClient ci0 c (s1, seg1)).2) := rfl
      rw [epair]
      obtain ⟨oinv, ostart, ook, ocnt⟩ :=
        ih (ci0 + 1) (writeClient ci0 c (s1, seg1)).1
          (writeClient ci0 c (s1, seg1)).2 cinv hstart2 hok2
      refine ⟨oinv, ostart, ook, ?_⟩
      rw [ocnt, csc.2.2.2.2.2.1, ccnt]
      have e6 : ((c :: rest).map clientProjectCounts).flatten
          = c.projects.map Project.count
              ++ (rest.map clientProjectCounts).flatten := rfl
      rw [e6]
      simp only [← List.append_assoc]
      rw [heq1]
    by_cases hcf : can_fit cfg s c.row_height = true
    · rw [if_pos hcf]
      exact hstep s seg hinv hstart hok rfl
    · rw [if_neg hcf]
      have hguard : seg.start_row ≤ s.row - 1 := by omega
      set t3 := ensure_fit cfg (next_column cfg (end_segment s seg))
        (PARTNER_HEADER_ROWS + c.row_height) with ht3
      have ht3segs : t3.segments
          = s.segments ++ [{ seg := seg, end_row := s.row - 1 }] := by
        rw [ht3, (ensure_fit_frame cfg _ _).2.1, (next_column_frame cfg _).2.1,
          end_segment_eq s seg hguard]
      obtain ⟨-, brow, bsc, b1, -, -, -, -, -, bbs, bmr, -, bpl, -, -⟩ :=
        begin_segment_spec partner dk t3
      have hinvB : SegInv (begin_segment partner dk t3).2
          (begin_segment partner dk t3).1.row := by
        refine ⟨?_, ?_, ?_⟩
        · rw [bmr]
          intro fl hfl
          cases hfl
        · rw [bbs, brow]
          intro e he
          rw [List.mem_singleton] at he
          subst he
          show t3.row + 2 ≤ t3.row + 2
          omega
        · rw [bpl]
          intro pl hpl
          cases hpl
      have hstartB : (begin_segment partner dk t3).2.start_row + 2
          ≤ (begin_segment partner dk t3).1.row := by
        rw [b1, brow]
      have hokB : ∀ z ∈ (begin_segment partner dk t3).1.segments,
          SegSibOK z := by
        rw [bsc.2.2.2.2.2.1, ht3segs]
        intro z hz
        rcases List.mem_append.1 hz with h0 | h0
        · exact hok z h0
        · rw [List.mem_singleton] at h0
          subst h0
          exact segSibOK_of_segInv hinv (s.row - 1)
      have heqB : ((begin_segment partner dk t3).1.segments.map
            segCounts).flatten
          ++ (begin_segment partner dk t3).2.placements.map
              (fun pl => pl.count)
        = (s.segments.map segCounts).flatten
            ++ seg.placements.map (fun pl => pl.count) := by
        rw [bsc.2.2.2.2.2.1, ht3segs, bpl]
        simp [segCounts]
      have epairB : begin_segment partner dk t3
          = ((begin_segment partner dk t3).1,
             (begin_segment partner dk t3).2) := rfl
      rw [epairB]
      exact hstep (begin_segment partner dk t3).1
        (begin_segment partner dk t3).2 hinvB hstartB hokB heqB

/-- `write_partner_clients` closes only segments satisfying the
Scenario D property and appends exactly the partner's project counts. -/
theorem write_partner_clients_sib (cfg : LayoutCfg) (p : Partner)
    (dk : String) (s : FlowState) (hok : ∀ z ∈ s.segments, SegSibOK z) :
    (∀ z ∈ (write_partner_clients cfg p dk s).segments, SegSibOK z) ∧
    ((write_partner_clients cfg p dk s).segments.map segCounts).flatten
      = (s.segments.map segCounts).flatten ++ partnerProjectCounts p := by
  set fh : Int := (match p.clients with
    | [] => (0 : Int)
    | c :: _ => c.row_height) with hfh0
  set E := ensure_fit cfg s (PARTNER_HEADER_ROWS + fh) with hE
  have hEsegs : E.segments = s.segments := (ensure_fit_frame cfg s _).2.1
  obtain ⟨-, brow, bsc, b1, -, -, -, -, -, bbs, bmr, -, bpl, -, -⟩ :=
    begin_segment_spec p dk E
  have hinvB : SegInv (begin_segment p dk E).2
      (begin_segment p dk E).1.row := by
    refine ⟨?_, ?_, ?_⟩
    · rw [bmr]
      intro fl hfl
      cases hfl
    · rw [bbs, brow]
      intro e he
      rw [List.mem_singleton] at he
      subst he
      show E.row + 2 ≤ E.row + 2
      omega
    · rw [bpl]
      intro pl hpl
      cases hpl
  have hstartB : (begin_segment p dk E).2.start_row + 2
      ≤ (begin_segment p dk E).1.row := by
    rw [b1, brow]
  have hokB : ∀ z ∈ (begin_segment p dk E).1.segments, SegSibOK z := by
    rw [bsc.2.2.2.2.2.1, hEsegs]
    exact hok
  obtain ⟨linv, lstart, lok, lcnt⟩ := writeClients_sib cfg p dk p.clients 0
    (begin_segment p dk E).1 (begin_segment p dk E).2 hinvB hstartB hokB
  set W := writeClients cfg p dk 0 p.clients
    ((begin_segment p dk E).1, (begin_segment p dk E).2) with hW
  have hguardW : W.2.start_row ≤ W.1.row - 1 := by omega
  have hFsegs : (write_partner_clients cfg p dk s).segments
      = W.1.segments ++ [{ seg := W.2, end_row := W.1.row - 1 }] := by
    have e0 : (write_partner_clients cfg p dk s).segments
        = (end_segment W.1 W.2).segments := rfl
    rw [e0, end_segment_eq W.1 W.2 hguardW]
  refine ⟨?_, ?_⟩
  · intro z hz
    rw [hFsegs] at hz
    rcases List.mem_append.1 hz with h0 | h0
    · exact lok z h0
    · rw [List.mem_singleton] at h0
      subst h0
      exact segSibOK_of_segInv linv (W.1.row - 1)
  · rw [hFsegs]
    have e7 : segCounts { seg := W.2, end_row := W.1.row - 1 }
        = W.2.placements.map (fun pl => pl.count) := rfl
    simp only [List.map_append, List.flatten_append, List.map_cons,
      List.map_nil, List.flatten_cons, List.flatten_nil, List.append_nil, e7]
    rw [lcnt, bsc.2.2.2.2.2.1, hEsegs, bpl]
    simp [partnerProjectCounts]

/-- Folding `write_partner_clients` over a flat partner list. -/
theorem layoutFlat_sib (cfg : LayoutCfg) (ps : List (Partner × String))
    (s : FlowState) (hok : ∀ z ∈ s.segments, SegSibOK z) :
    (∀ z ∈ (layoutFlat cfg ps s).segments, SegSibOK z) ∧
    ((layoutFlat cfg ps s).segments.map segCounts).flatten
      = (s.segments.map segCounts).flatten
        ++ (ps.map (fun pc => partnerProjectCounts pc.1)).flatten := by
  induction ps generalizing s with
  | nil => exact ⟨hok, by simp [layoutFlat]⟩
  | cons pc rest ih =>
    have e0 : layoutFlat cfg (pc :: rest) s
        = layoutFlat cfg rest (write_partner_clients cfg pc.1 pc.2 s) := rfl
    rw [e0]
    obtain ⟨w1, w2⟩ := write_partner_clients_sib cfg pc.1 pc.2 s hok
    obtain ⟨r1, r2⟩ := ih (write_partner_clients cfg pc.1 pc.2 s) w1
    refine ⟨r1, ?_⟩
    rw [r2, w2]
    simp [List.append_assoc]

/-- C6: sibling (hair) versus boundary (thin) horizontal strokes.  After
laying out any division list, the member counts of the project placements
recorded in the closed segments agree, in order, with the projects of the
input tree (so every project is covered), and for every placed project
with at least two people the horizontal boundary above its first person
row resolves to the standard `thin` weight while each of its `count - 1`
interior boundaries between consecutive person rows resolves to the
lightest `hair` weight, at every column offset from the name column
rightwards; in particular a project with three people yields exactly two
hair strokes. -/
theorem sibling_border_weights (cfg : LayoutCfg) (divs : List Division) :
    segmentProjectCounts (layoutDivisions cfg divs) = treeProjectCounts divs ∧
    ∀ z ∈ (layoutDivisions cfg divs).segments,
      ∀ pl ∈ z.seg.placements, 2 ≤ pl.count →
        pl.lastMemberRow = pl.firstMemberRow + (pl.count : Int) - 1 ∧
        (∀ off : Int, COL_NAME ≤ off →
          resolve_h_border pl.firstMemberRow off z.seg.member_ranges
            z.seg.border_starts = SideStyle.thin) ∧
        (∀ off r : Int, COL_NAME ≤ off → pl.firstMemberRow + 1 ≤ r →
          r ≤ pl.lastMemberRow →
          resolve_h_border r off z.seg.member_ranges z.seg.border_starts
            = SideStyle.hair) := by
  obtain ⟨hok, hcnt⟩ := layoutFlat_sib cfg (flatPartners divs) initState
    (by intro z hz; cases hz)
  constructor
  · have e0 : segmentProjectCounts (layoutDivisions cfg divs)
        = ((layoutFlat cfg (flatPartners divs) initState).segments.map
            segCounts).flatten := by
      rw [layoutDivisions_eq]
      rfl
    rw [e0, hcnt]
    simp [initState, treeProjectCounts]
  · intro z hz
    rw [layoutDivisions_eq] at hz
    exact hok z hz

set_option maxRecDepth 40000 in
/-- Witness for `sibling_border_weights` at Scenario D (`divThree`: one
project with three people, placed at rows 7 to 10 of the first segment):
the placement counts match the tree and the three member-row boundaries
resolve to thin, hair, hair. -/
theorem sibling_border_weights_witness :
    segmentProjectCounts (layoutDivisions cfgMain [divThree])
        = treeProjectCounts [divThree] ∧
    resolve_h_border 8 COL_NAME segThree.seg.member_ranges
      segThree.seg.border_starts = SideStyle.thin ∧
    resolve_h_border 9 COL_NAME segThree.seg.member_ranges
      segThree.seg.border_starts = SideStyle.hair ∧
    resolve_h_border 10 COL_NAME segThree.seg.member_ranges
      segThree.seg.border_starts = SideStyle.hair := by
  have h := sibling_border_weights cfgMain [divThree]
  have hz : segThree ∈ (layoutDivisions cfgMain [divThree]).segments := by
    decide
  have hpl : (⟨7, 8, 10, 3⟩ : ProjPlacement) ∈ segThree.seg.placements := by
    decide
  have h2 := h.2 segThree hz _ hpl (by decide)
  refine ⟨h.1, ?_, ?_, ?_⟩
  · exact h2.2.1 COL_NAME (le_refl COL_NAME)
  · exact h2.2.2 COL_NAME 9 (le_refl COL_NAME) (by decide) (by decide)
  · exact h2.2.2 COL_NAME 10 (le_refl COL_NAME) (by decide) (by decide)

/-! #### Division assignment and ordering infrastructure (C10) -/

theorem mem_inner_lookup_fold (ns : List String) (dk : String)
    (d : List (String × String)) :
    ∀ x ∈ ns.foldl (fun d2 n => (n, dk) :: d2) d,
      x ∈ d ∨ (x.1 ∈ ns ∧ x.2 = dk) := by
  induction ns generalizing d with
  | nil => exact fun x hx => Or.inl hx
  | cons n ns ih =>
    intro x hx
    simp only [List.foldl_cons] at hx
    rcases ih ((n, dk) :: d) x hx with h0 | ⟨h1, h2⟩
    · rcases List.mem_cons.1 h0 with h3 | h3
      · subst h3
        exact Or.inr ⟨List.mem_cons_self _ _, rfl⟩
      · exact Or.inl h3
    · exact Or.inr ⟨List.mem_cons_of_mem _ h1, h2⟩

theorem mem_buildDivisionLookup_fold (spMap : List (String × List String))
    (acc : List (String × String)) :
    ∀ x ∈ spMap.foldl (fun d e => e.2.foldl (fun d2 n => (n, e.1) :: d2) d) acc,
      x ∈ acc ∨ ∃ e ∈ spMap, x.1 ∈ e.2 ∧ x.2 = e.1 := by
  induction spMap generalizing acc with
  | nil => exact fun x hx => Or.inl hx
  | cons e es ih =>
    intro x hx
    simp only [List.foldl_cons] at hx
    rcases ih _ x hx with h0 | ⟨e2, he2, h1, h2⟩
    · rcases mem_inner_lookup_fold e.2 e.1 acc x h0 with h3 | ⟨h4, h5⟩
      · exact Or.inl h3
      · exact Or.inr ⟨e, List.mem_cons_self _ _, h4, h5⟩
    · exact Or.inr ⟨e2, List.mem_cons_of_mem _ he2, h1, h2⟩

/-- Every entry of the reverse division lookup comes from one line of the
sales-partner map: its key is one of the registered partner names and its
value the corresponding division key. -/
theorem mem_buildDivisionLookup {spMap : List (String × List String)}
    {x : String × String} (hx : x ∈ buildDivisionLookup spMap) :
    ∃ e ∈ spMap, x.1 ∈ e.2 ∧ x.2 = e.1 := by
  rcases mem_buildDivisionLookup_fold spMap [] x hx with h0 | h0
  · cases h0
  · exact h0

/-- A partner name registered under no division key maps to the empty
division key (the `fillna` default). -/
theorem assignDivision_unmapped (spMap : List (String × List String))
    (n : String) (h : ∀ e ∈ spMap, n ∉ e.2) :
    assignDivision spMap n = emptyStr := by
  have hfind : (buildDivisionLookup spMap).find?
      (fun e => decide (e.1 = n)) = Option.none := by
    rw [List.find?_eq_none]
    intro x hx
    simp only [decide_eq_true_eq]
    intro heq
    obtain ⟨e, he, h1, -⟩ := mem_buildDivisionLookup hx
    rw [heq] at h1
    exact h e he h1
  simp [assignDivision, dictGet, hfind]

/-- The assigned division key is the empty string or one of the
registered division keys. -/
theorem assignDivision_cases (spMap : List (String × List String))
    (n : String) :
    assignDivision spMap n = emptyStr ∨
      assignDivision spMap n ∈ spMap.map (fun e => e.1) := by
  cases hfind : (buildDivisionLookup spMap).find? (fun e => decide (e.1 = n)) with
  | none => exact Or.inl (by simp [assignDivision, dictGet, hfind])
  | some x =>
    right
    obtain ⟨e, he, -, h2⟩ :=
      mem_buildDivisionLookup (List.mem_of_find?_eq_some hfind)
    have hval : assignDivision spMap n = x.2 := by
      simp [assignDivision, dictGet, hfind]
    rw [hval, h2]
    exact List.mem_map.2 ⟨e, he, rfl⟩

theorem groupByKey_fold_sound {α κ : Type} [DecidableEq κ] (key : α → κ)
    (l : List α) :
    ∀ acc : List (κ × List α),
    ∀ g ∈ l.foldl
        (fun acc a =>
          if acc.any (fun g2 => decide (g2.1 = key a)) then
            acc.map (fun g2 =>
              if g2.1 = key a then (g2.1, g2.2 ++ [a]) else g2)
          else acc ++ [(key a, [a])])
        acc,
      g.1 ∈ acc.map (fun g2 => g2.1) ∨ ∃ a ∈ l, key a = g.1 := by
  induction l with
  | nil => exact fun acc g hg => Or.inl (List.mem_map.2 ⟨g, hg, rfl⟩)
  | cons a l ih =>
    intro acc g hg
    simp only [List.foldl_cons] at hg
    rcases ih _ g hg with h0 | ⟨b, hb, h1⟩
    · by_cases hc : acc.any (fun g2 => decide (g2.1 = key a)) = true
      · rw [if_pos hc, List.map_map] at h0
        have hkeys : acc.map ((fun g2 => g2.1) ∘ (fun g2 =>
              if g2.1 = key a then (g2.1, g2.2 ++ [a]) else g2))
            = acc.map (fun g2 => g2.1) := by
          apply List.map_congr_left
          intro g2 hg2
          by_cases h3 : g2.1 = key a <;> simp [h3]
        rw [hkeys] at h0
        exact Or.inl h0
      · rw [if_neg hc, List.map_append] at h0
        rcases List.mem_append.1 h0 with h2 | h2
        · exact Or.inl h2
        · simp only [List.map_cons, List.map_nil, List.mem_singleton] at h2
          exact Or.inr ⟨a, List.mem_cons_self _ _, h2.symm⟩
    · exact Or.inr ⟨b, List.mem_cons_of_mem _ hb, h1⟩

/-- Every group produced by `groupByKey` carries the key of one of the
input elements. -/
theorem groupByKey_sound {α κ : Type} [DecidableEq κ] (key : α → κ)
    (l : List α) :
    ∀ g ∈ groupByKey key l, ∃ a ∈ l, key a = g.1 := by
  intro g hg
  rcases groupByKey_fold_sound key l [] g hg with h0 | h0
  · cases h0
  · exact h0

theorem divRank_of_not_mem (mapKeys : List String) (k : String)
    (h : k ∉ mapKeys) : divRank mapKeys k = mapKeys.length := by
  have hidx : mapKeys.findIdx? (fun g => decide (g = k)) = Option.none := by
    rw [List.findIdx?_eq_none_iff]
    intro x hx
    simp only [decide_eq_false_iff_not]
    intro he
    subst he
    exact h hx
  simp [divRank, hidx]

theorem divRank_lt_of_mem (mapKeys : List String) (k : String)
    (h : k ∈ mapKeys) : divRank mapKeys k < mapKeys.length := by
  cases hidx : mapKeys.findIdx? (fun g => decide (g = k)) with
  | none =>
    exfalso
    rw [List.findIdx?_eq_none_iff] at hidx
    have := hidx k h
    simp at this
  | some i =>
    have hb := (List.findIdx?_eq_some_iff_findIdx_eq.1 hidx).1
    simpa [divRank, hidx] using hb

/-- The keys of the divisions recovered from a key list by `find?` form a
sublist of that key list. -/
theorem filterMap_find_keys (ks : List String) (ds : List Division) :
    ((ks.filterMap (fun k => ds.find? (fun d => decide (d.key = k)))).map
      (fun d => d.key)).Sublist ks := by
  induction ks with
  | nil => simp
  | cons k ks ih =>
    rw [List.filterMap_cons]
    cases hf : ds.find? (fun d => decide (d.key = k)) with
    | none => exact ih.cons k
    | some d =>
      have hk : d.key = k := by
        have := List.find?_some hf
        simpa using this
      rw [List.map_cons, hk]
      exact ih.cons₂ k

/-- Invariants of the division-building fold of `process`: every partner
sits in the division keyed by its assigned division, the division keys
are distinct, and every key is the empty string or a registered division
key. -/
theorem process_fold_inv (cfg : AppConfig) :
    ∀ gs : List ((String × String) × List (String × String × Record)),
    (∀ g ∈ gs, g.1.1 = assignDivision cfg.sales_partner_map g.1.2) →
    ∀ acc : List Division,
    (∀ d ∈ acc, ∀ p ∈ d.partners,
      d.key = assignDivision cfg.sales_partner_map p.display_name) →
    ((acc.map (fun d => d.key)).Nodup) →
    (∀ d ∈ acc, d.key = emptyStr ∨
      d.key ∈ cfg.sales_partner_map.map (fun e => e.1)) →
    ((∀ d ∈ gs.foldl
        (fun (ds : List Division) g =>
          if ds.any (fun d => decide (d.key = g.1.1)) then
            ds.map (fun d =>
              if d.key = g.1.1 then
                { d with partners := d.partners ++
                    [{ display_name := g.1.2
                       clients := build_clients cfg
                         (g.2.map (fun x => x.2.2)) }] }
              else d)
          else ds ++ [{ key := g.1.1
                        partners := [{ display_name := g.1.2
                                       clients := build_clients cfg (g.2.map (fun x => x.2.2)) }] }]) acc,
      ∀ p ∈ d.partners,
      d.key = assignDivision cfg.sales_partner_map p.display_name) ∧
    (((gs.foldl
        (fun (ds : List Division) g =>
          if ds.any (fun d => decide (d.key = g.1.1)) then
            ds.map (fun d =>
              if d.key = g.1.1 then
                { d with partners := d.partners ++
                    [{ display_name := g.1.2
                       clients := build_clients cfg
                         (g.2.map (fun x => x.2.2)) }] }
              else d)
          else ds ++ [{ key := g.1.1
                        partners := [{ display_name := g.1.2
                                       clients := build_clients cfg (g.2.map (fun x => x.2.2)) }] }]) acc).map
        (fun d => d.key)).Nodup) ∧
    (∀ d ∈ gs.foldl
        (fun (ds : List Division) g =>
          if ds.any (fun d => decide (d.key = g.1.1)) then
            ds.map (fun d =>
              if d.key = g.1.1 then
                { d with partners := d.partners ++
                    [{ display_name := g.1.2
                       clients := build_clients cfg
                         (g.2.map (fun x => x.2.2)) }] }
              else d)
          else ds ++ [{ key := g.1.1
                        partners := [{ display_name := g.1.2
                                       clients := build_clients cfg (g.2.map (fun x => x.2.2)) }] }]) acc,
      d.key = emptyStr ∨
        d.key ∈ cfg.sales_partner_map.map (fun e => e.1))) := by
  intro gs
  induction gs with
  | nil => exact fun hGK acc h1 h2 h3 => ⟨h1, h2, h3⟩
  | cons g gs ih =>
    intro hGK acc h1 h2 h3
    simp only [List.foldl_cons]
    refine ih (fun g2 hg2 => hGK g2 (List.mem_cons_of_mem _ hg2)) _ ?_ ?_ ?_
    · by_cases hc : acc.any (fun d => decide (d.key = g.1.1)) = true
      · rw [if_pos hc]
        intro d hd p hp
        obtain ⟨d0, hd0, rfl⟩ := List.mem_map.1 hd
        by_cases hk : d0.key = g.1.1
        · rw [if_pos hk] at hp ⊢
          rcases List.mem_append.1 hp with h0 | h0
          · exact h1 d0 hd0 p h0
          · rw [List.mem_singleton] at h0
            subst h0
            show d0.key = assignDivision cfg.sales_partner_map g.1.2
            rw [hk]
            exact hGK g (List.mem_cons_self _ _)
        · rw [if_neg hk] at hp ⊢
          exact h1 d0 hd0 p hp
      · rw [if_neg hc]
        intro d hd p hp
        rcases List.mem_append.1 hd with h0 | h0
        · exact h1 d h0 p hp
        · rw [List.mem_singleton] at h0
          subst h0
          cases hp with
          | head => exact hGK g (List.mem_cons_self _ _)
          | tail _ h4 => cases h4
    · by_cases hc : acc.any (fun d => decide (d.key = g.1.1)) = true
      · rw [if_pos hc, List.map_map]
        have hkeys : acc.map ((fun d => d.key) ∘ (fun d =>
              if d.key = g.1.1 then
                { d with partners := d.partners ++
                    [{ display_name := g.1.2
                       clients := build_clients cfg
                         (g.2.map (fun x => x.2.2)) }] }
              else d))
            = acc.map (fun d => d.key) := by
          apply List.map_congr_left
          intro d hd
          by_cases hk : d.key = g.1.1 <;> simp [hk]
        rw [hkeys]
        exact h2
      · rw [if_neg hc]
        simp only [List.map_append, List.map_cons, List.map_nil]
        have hnotin : g.1.1 ∉ acc.map (fun d => d.key) := by
          intro hmem
          obtain ⟨d, hd, hdk⟩ := List.mem_map.1 hmem
          exact hc (List.any_eq_true.2 ⟨d, hd, by simp [hdk]⟩)
        rw [(List.perm_append_singleton _ _).nodup_iff, List.nodup_cons]
        exact ⟨hnotin, h2⟩
    · by_cases hc : acc.any (fun d => decide (d.key = g.1.1)) = true
      · rw [if_pos hc]
        intro d hd
        obtain ⟨d0, hd0, rfl⟩ := List.mem_map.1 hd
        by_cases hk : d0.key = g.1.1
        · rw [if_pos hk]
          exact h3 d0 hd0
        · rw [if_neg hk]
          exact h3 d0 hd0
      · rw [if_neg hc]
        intro d hd
        rcases List.mem_append.1 hd with h0 | h0
        · exact h3 d h0
        · rw [List.mem_singleton] at h0
          subst h0
          show g.1.1 = emptyStr ∨
            g.1.1 ∈ cfg.sales_partner_map.map (fun e => e.1)
          rw [hGK g (List.mem_cons_self _ _)]
          exact assignDivision_cases cfg.sales_partner_map g.1.2

/-- C10 (implicit): `process` assigns every partner whose resolved
display name is registered under no sales division to the division with
the empty-string key; the division keys of the result are distinct; the
result is ordered by `divRank` (registration order of the division keys
in the sales-partner map, with unregistered keys after all registered
ones); and a division with the empty-string key is never followed by a
different division, i.e. the unmapped division is always last.  The
hypothesis says the empty string is not itself a registered division key
(true of `config.SALES_PARTNER_MAP`). -/
theorem process_division_assignment_and_order (cfg : AppConfig)
    (rows : List Record)
    (hnm : emptyStr ∉ cfg.sales_partner_map.map (fun e => e.1)) :
    (∀ d ∈ process cfg rows, ∀ p ∈ d.partners,
      (∀ e ∈ cfg.sales_partner_map, p.display_name ∉ e.2) →
      d.key = emptyStr) ∧
    ((process cfg rows).map (fun d => d.key)).Nodup ∧
    (process cfg rows).Pairwise (fun d1 d2 =>
      divRank (cfg.sales_partner_map.map (fun e => e.1)) d1.key
        ≤ divRank (cfg.sales_partner_map.map (fun e => e.1)) d2.key) ∧
    (process cfg rows).Pairwise (fun d1 d2 =>
      d1.key = emptyStr → d2.key = emptyStr) := by
  set rows2 := rows.map (fun r =>
    (assignDivision cfg.sales_partner_map
        (resolve_display_name cfg r.partner_name),
     resolve_display_name cfg r.partner_name, r)) with hrows2
  set groups := groupByKey (fun x : String × String × Record => (x.1, x.2.1))
    rows2 with hgroups
  set divisions := groups.foldl
    (fun (ds : List Division) g =>
      if ds.any (fun d => decide (d.key = g.1.1)) then
        ds.map (fun d =>
          if d.key = g.1.1 then
            { d with partners := d.partners ++
                [{ display_name := g.1.2
                   clients := build_clients cfg (g.2.map (fun x => x.2.2)) }] }
          else d)
      else ds ++ [{ key := g.1.1
                    partners := [{ display_name := g.1.2
                                   clients := build_clients cfg (g.2.map (fun x => x.2.2)) }] }]) [] with hdivisions
  set divisions2 := divisions.map (fun d =>
    { d with partners := d.partners.mergeSort (fun a b => decide (b.count ≤ a.count)) }) with hdivisions2
  set mapKeys := cfg.sales_partner_map.map (fun e => e.1) with hmapKeys
  set keysSorted := (divisions2.map (fun d => d.key)).mergeSort
    (fun k1 k2 => decide (divRank mapKeys k1 ≤ divRank mapKeys k2))
    with hkeysSorted
  have hout : process cfg rows
      = keysSorted.filterMap
          (fun k => divisions2.find? (fun d => decide (d.key = k))) := rfl
  have hGK : ∀ g ∈ groups,
      g.1.1 = assignDivision cfg.sales_partner_map g.1.2 := by
    intro g hg
    rw [hgroups] at hg
    obtain ⟨x, hx, hkey⟩ := groupByKey_sound _ _ g hg
    rw [hrows2] at hx
    obtain ⟨r, -, rfl⟩ := List.mem_map.1 hx
    rw [← hkey]
  obtain ⟨hI1, hI2, hI3⟩ := process_fold_inv cfg groups hGK []
    (by intro d hd; cases hd) (by simp) (by intro d hd; cases hd)
  have hI1d : ∀ d ∈ divisions, ∀ p ∈ d.partners,
      d.key = assignDivision cfg.sales_partner_map p.display_name := hI1
  have hI2d : (divisions.map (fun d => d.key)).Nodup := hI2
  have hI3d : ∀ d ∈ divisions, d.key = emptyStr ∨ d.key ∈ mapKeys := hI3
  have hI1d2 : ∀ d ∈ divisions2, ∀ p ∈ d.partners,
      d.key = assignDivision cfg.sales_partner_map p.display_name := by
    intro d hd p hp
    rw [hdivisions2] at hd
    obtain ⟨d0, hd0, rfl⟩ := List.mem_map.1 hd
    have hp0 : p ∈ d0.partners :=
      (List.mergeSort_perm d0.partners
        (fun a b => decide (b.count ≤ a.count))).mem_iff.1 hp
    exact hI1d d0 hd0 p hp0
  have hI2d2 : (divisions2.map (fun d => d.key)).Nodup := by
    rw [hdivisions2, List.map_map]
    have e : divisions.map ((fun d => d.key) ∘ (fun d =>
          { d with partners := d.partners.mergeSort (fun a b => decide (b.count ≤ a.count)) }))
        = divisions.map (fun d => d.key) := by
      apply List.map_congr_left
      intro d hd
      rfl
    rw [e]
    exact hI2d
  have hI3d2 : ∀ d ∈ divisions2, d.key = emptyStr ∨ d.key ∈ mapKeys := by
    intro d hd
    rw [hdivisions2] at hd
    obtain ⟨d0, hd0, rfl⟩ := List.mem_map.1 hd
    exact hI3d d0 hd0
  have hksPerm : keysSorted.Perm (divisions2.map (fun d => d.key)) := by
    rw [hkeysSorted]
    exact List.mergeSort_perm _ _
  have hksNodup : keysSorted.Nodup := hksPerm.nodup_iff.2 hI2d2
  have hksPw : keysSorted.Pairwise (fun k1 k2 =>
      divRank mapKeys k1 ≤ divRank mapKeys k2) := by
    rw [hkeysSorted]
    refine List.Pairwise.imp (fun h => of_decide_eq_true h)
      (List.sorted_mergeSort ?_ ?_ (divisions2.map (fun d => d.key)))
    · intro a b c hab hbc
      simp only [decide_eq_true_eq] at hab hbc ⊢
      omega
    · intro a b
      simp only [Bool.or_eq_true, decide_eq_true_eq]
      exact le_total _ _
  have houtKeys : ((process cfg rows).map (fun d => d.key)).Sublist
      keysSorted := by
    rw [hout]
    exact filterMap_find_keys keysSorted divisions2
  have hc2 : ((process cfg rows).map (fun d => d.key)).Nodup :=
    List.Nodup.sublist houtKeys hksNodup
  have hc3 : (process cfg rows).Pairwise (fun d1 d2 =>
      divRank mapKeys d1.key ≤ divRank mapKeys d2.key) := by
    have hpw2 := List.Pairwise.sublist houtKeys hksPw
    exact (@List.pairwise_map Division String (fun d => d.key)
      (fun k1 k2 => divRank mapKeys k1 ≤ divRank mapKeys k2)
      (process cfg rows)).1 hpw2
  have hmemd2 : ∀ d ∈ process cfg rows, d ∈ divisions2 := by
    intro d hd
    rw [hout] at hd
    obtain ⟨k, -, hfk⟩ := List.mem_filterMap.1 hd
    exact List.mem_of_find?_eq_some hfk
  have hc1 : ∀ d ∈ process cfg rows, ∀ p ∈ d.partners,
      (∀ e ∈ cfg.sales_partner_map, p.display_name ∉ e.2) →
      d.key = emptyStr := by
    intro d hd p hp hun
    rw [hI1d2 d (hmemd2 d hd) p hp]
    exact assignDivision_unmapped cfg.sales_partner_map p.display_name hun
  have hc4 : (process cfg rows).Pairwise (fun d1 d2 =>
      d1.key = emptyStr → d2.key = emptyStr) := by
    refine List.Pairwise.imp_of_mem ?_ hc3
    intro d1 d2 hd1 hd2 hrank hk1
    rcases hI3d2 d2 (hmemd2 d2 hd2) with h0 | h0
    · exact h0
    · exfalso
      have hlt := divRank_lt_of_mem mapKeys d2.key h0
      have heq := divRank_of_not_mem mapKeys d1.key (by rw [hk1]; exact hnm)
      omega
  exact ⟨hc1, hc2, hc3, hc4⟩

/-- Witness for `process_division_assignment_and_order` on the concrete
roster `rowsW` under `appCfgW` (partners P1 and P2 registered under
divisions X and Y, partner Q unregistered). -/
theorem process_division_assignment_and_order_witness :
    (emptyStr ∉ appCfgW.sales_partner_map.map (fun e => e.1)) ∧
    (((process appCfgW rowsW).map (fun d => d.key)).Nodup ∧
      (process appCfgW rowsW).Pairwise (fun d1 d2 =>
        divRank (appCfgW.sales_partner_map.map (fun e => e.1)) d1.key
          ≤ divRank (appCfgW.sales_partner_map.map (fun e => e.1)) d2.key) ∧
      (process appCfgW rowsW).Pairwise (fun d1 d2 =>
        d1.key = emptyStr → d2.key = emptyStr)) :=
  ⟨by decide,
    (process_division_assignment_and_order appCfgW rowsW (by decide)).2⟩

set_option maxRecDepth 40000 in
/-- C2, counterexample: with the oversized client of Scenario B the
capacity invariant fails — some written cell lies more than
`max_rows_per_column` rows below its page's content-start row. -/
theorem capacity_can_be_exceeded :
    ¬ ∀ w ∈ (layoutDivisions cfgMain [bigDivision]).cells,
        w.row - w.pageStart + 1 ≤ cfgMain.max_rows := by
  decide

end PAM
